import Mathlib

/-!
# easyconfig: struct-driven configuration loading

A shallow embedding of `main.go` of `night-codes/easyconfig` and theorems about it.

Conventions of the embedding

* Go strings are lists of characters (`Str`).  The routines of `strings`, `strconv` and
  `strcase` that the package calls are transcribed below from their Go sources; their
  byte-wise loops are read character-wise (the two agree on ASCII text, and the loops treat
  every byte of a non-ASCII character as neither letter, digit nor separator).
* `strings.ToUpper` maps every character with `unicode.ToUpper`, which is transcribed for the
  characters up to `unicode.MaxASCII`; above them it consults the table `unicode.CaseRanges`,
  which enters the embedding as a parameter (`CaseTable`).
* `strconv.ParseFloat` is not transcribed; the float it returns is kept as a term.
* A record (the struct behind a non-nil `structPtr`) is the list of its fields, all exported,
  each with its declared name, its `env`, `dir` and `flag` tag values and its current value.
* A Go map is a list of entries with distinct keys; ranging over the map visits the entries
  in list order, so a statement about every list covers every iteration order.
* `int` and `uint` are 64 bits wide.
-/

namespace Easyconfig

/-- Go string. -/
abbrev Str := List Char

/-! ## package strings -/

/-- The function `strings.HasPrefix`. -/
def HasPrefix (s pre : Str) : Bool := pre.isPrefixOf s

/-- The function `strings.HasSuffix`. -/
def HasSuffix (s suf : Str) : Bool := suf.reverse.isPrefixOf s.reverse

/-- The function `strings.Index`: position of the first occurrence of `sub`, `none` for -1. -/
def Index (sub : Str) : Str → Option Nat
  | [] => if sub.isEmpty then some 0 else none
  | c :: t => if sub.isPrefixOf (c :: t) then some 0 else (Index sub t).map (· + 1)

/-- The function `strings.Contains`. -/
def Contains (s sub : Str) : Bool := (Index sub s).isSome

/-- The loop of `strings.Count` for a non-empty `sub`; it runs at most `len(s)` times. -/
def countLoop (sub : Str) : Nat → Str → Nat
  | 0, _ => 0
  | fuel + 1, s =>
    match Index sub s with
    | none => 0
    | some i => 1 + countLoop sub fuel (s.drop (i + sub.length))

/-- The function `strings.Count`. -/
def Count (s sub : Str) : Nat :=
  if sub.isEmpty then s.length + 1 else countLoop sub s.length s

/-- The loop of `strings.genSplit` (`sepSave = 0`): at most `n` cuts, then the rest. -/
def genSplit (sep : Str) : Nat → Str → List Str
  | 0, s => [s]
  | n + 1, s =>
    match Index sep s with
    | none => [s]
    | some m => s.take m :: genSplit sep n (s.drop (m + sep.length))

/-- The function `strings.explode`: at most `n` pieces, one character each but the last. -/
def explode : Nat → Str → List Str
  | 0, _ => []
  | _, [] => []
  | 1, s => [s]
  | n + 2, c :: t => if t.isEmpty then [[c]] else [c] :: explode (n + 1) t

/-- The function `strings.Split`. -/
def Split (s sep : Str) : List Str :=
  if sep.isEmpty then explode s.length s else genSplit sep (Count s sep) s

/-- The function `strings.SplitN` for `n ≥ 0`. -/
def SplitN (s sep : Str) (n : Nat) : List Str :=
  if n = 0 then []
  else if sep.isEmpty then explode n s
  else genSplit sep (min n (s.length + 1) - 1) s

/-- The function `strings.Replace` with `n = 1`: the first occurrence of `old` becomes `new`. -/
def Replace1 (s old new : Str) : Str :=
  match Index old s with
  | none => s
  | some j => s.take j ++ new ++ s.drop (j + old.length)

/-- The predicate `unicode.IsSpace`. -/
def isSpace (c : Char) : Bool :=
  let n := c.toNat
  n == 9 || n == 10 || n == 11 || n == 12 || n == 13 || n == 32 || n == 0x85 || n == 0xA0 ||
  n == 0x1680 || (0x2000 ≤ n && n ≤ 0x200A) || n == 0x2028 || n == 0x2029 || n == 0x202F ||
  n == 0x205F || n == 0x3000

/-- The function `strings.TrimSpace`. -/
def TrimSpace (s : Str) : Str :=
  ((s.dropWhile isSpace).reverse.dropWhile isSpace).reverse

/-- Upper-case mapping of one ASCII character: the branch `r <= MaxASCII` of
`unicode.ToUpper`, which turns the letters a to z into A to Z. -/
def upperChar (c : Char) : Char :=
  if 97 ≤ c.toNat ∧ c.toNat ≤ 122 then Char.ofNat (c.toNat - 32) else c

/-- Lower-case mapping of one character (ASCII letters). -/
def lowerChar (c : Char) : Char :=
  if 65 ≤ c.toNat ∧ c.toNat ≤ 90 then Char.ofNat (c.toNat + 32) else c

/-- The body of `unicode.ToUpper`, with `above r` in the place of the call
`To(UpperCase, r)` it makes for a character above `unicode.MaxASCII`. -/
def toUpperWith (above : Char → Char) (r : Char) : Char :=
  if r.toNat ≤ 127 then upperChar r else above r

/-- The upper-case mapping that `unicode.To` reads off the table `unicode.CaseRanges` for the
characters above `unicode.MaxASCII`.  The table is not transcribed: it enters as the function
`above`, of which two facts are kept.  The upper-case form of a character is its own
upper-case form (the table sends a character that has an upper-case form to a character that
has none of its own); and a character is white space exactly when its upper-case form is
(white space has no case, and no letter has a white-space upper-case form). -/
structure CaseTable where
  above : Char → Char
  above_upper : ∀ r : Char, 127 < r.toNat → toUpperWith above (above r) = above r
  above_space : ∀ r : Char, 127 < r.toNat → isSpace (above r) = isSpace r

/-- The function `unicode.ToUpper`. -/
def unicode.ToUpper (U : CaseTable) (r : Char) : Char := toUpperWith U.above r

/-- The function `strings.ToUpper`: `Map(unicode.ToUpper, s)`, which its loop for ASCII-only
text agrees with. -/
def ToUpper (U : CaseTable) (s : Str) : Str := s.map (unicode.ToUpper U)

/-- The function `strings.ToLower` on ASCII letters.  The package applies it to the acronyms
of `Acronims` and, in the help test, to a text it compares with "help", a word that no
character outside ASCII is lower-cased into. -/
def ToLower (s : Str) : Str := s.map lowerChar

/-- The function `strings.Join`. -/
def Join (xs : List Str) (sep : Str) : Str := sep.intercalate xs

/-! ## package strconv -/

/-- The two errors of `strconv` that matter here (`ErrSyntax`, `ErrRange`). -/
inductive NumError where
  | ErrSyntax
  | ErrRange
  deriving DecidableEq, Repr

/-- The constant `strconv.IntSize` (64-bit platform). -/
def IntSize : Nat := 64

/-- The digit loop of `strconv.ParseUint` in base 10, `n` being the value read so far.
`lower(c)` is `c | 0x20`; a byte of a non-ASCII character is no digit and no letter. -/
def parseUintLoop (maxVal : Nat) : Nat → Str → Nat × Option NumError
  | n, [] => (n, none)
  | n, c :: rest =>
    let lc := c.toNat ||| 32
    let digit : Option Nat :=
      if 48 ≤ c.toNat ∧ c.toNat ≤ 57 then some (c.toNat - 48)
      else if c.toNat < 128 ∧ 97 ≤ lc ∧ lc ≤ 122 then some (lc - 97 + 10)
      else none
    match digit with
    | none => (0, some .ErrSyntax)
    | some d =>
      if d ≥ 10 then (0, some .ErrSyntax)
      else if n ≥ (2 ^ 64 - 1) / 10 + 1 then (maxVal, some .ErrRange)
      else
        let n10 := (n * 10) % 2 ^ 64
        let n1 := (n10 + d) % 2 ^ 64
        if n1 < n10 ∨ n1 > maxVal then (maxVal, some .ErrRange)
        else parseUintLoop maxVal n1 rest

/-- The function `strconv.ParseUint(s, 10, bitSize)` for `0 ≤ bitSize ≤ 64`. -/
def ParseUint (s : Str) (bitSize : Nat) : Nat × Option NumError :=
  if s.isEmpty then (0, some .ErrSyntax)
  else
    let bitSize := if bitSize = 0 then IntSize else bitSize
    parseUintLoop (2 ^ bitSize - 1) 0 s

/-- The function `strconv.ParseInt(s, 10, bitSize)` for `0 ≤ bitSize ≤ 64`. -/
def ParseInt (s : Str) (bitSize : Nat) : Int × Option NumError :=
  match s with
  | [] => (0, some .ErrSyntax)
  | c :: t =>
    let neg := c = '-'
    let s1 := if c = '+' then t else if c = '-' then t else s
    match ParseUint s1 bitSize with
    | (_, some .ErrSyntax) => (0, some .ErrSyntax)
    | (un, _) =>
      let bitSize := if bitSize = 0 then IntSize else bitSize
      let cutoff := 2 ^ (bitSize - 1)
      if ¬ neg ∧ un ≥ cutoff then ((cutoff : Int) - 1, some .ErrRange)
      else if neg ∧ un > cutoff then (-(cutoff : Int), some .ErrRange)
      else (if neg then -(un : Int) else (un : Int), none)

/-- The function `strconv.ParseBool`. -/
def ParseBool (s : Str) : Bool × Option NumError :=
  if s ∈ ["1".toList, "t".toList, "T".toList, "TRUE".toList, "true".toList, "True".toList] then
    (true, none)
  else if s ∈ ["0".toList, "f".toList, "F".toList, "FALSE".toList, "false".toList,
      "False".toList] then
    (false, none)
  else (false, some .ErrSyntax)

/-- A floating-point value.  `strconv.ParseFloat` is not transcribed: the number it returns
for a text and a bit size is kept as the term `parsed`, and `bits` is any other value, given
by its IEEE-754 bit pattern. -/
inductive GoFloat where
  | bits (b : Nat)
  | parsed (s : Str) (bitSize : Nat)
  deriving DecidableEq, Repr

/-- The value part of `strconv.ParseFloat(s, bitSize)`. -/
def ParseFloat (s : Str) (bitSize : Nat) : GoFloat := .parsed s bitSize

/-! ## package strcase (github.com/iancoleman/strcase)

Transcribed from `snake.go` and `camel.go` of the release in which `toCamelInitCase` changes
the case of the first letter only and of letters that follow a separator or a digit; this is
the behaviour `TestFlagsSourceLoader` relies on (`-postgresDBName`, `-postgresSSLMode`). -/

/-- Byte test `v >= 'A' && v <= 'Z'`. -/
def isCap (c : Char) : Bool := 65 ≤ c.toNat && c.toNat ≤ 90

/-- Byte test `v >= 'a' && v <= 'z'`. -/
def isLow (c : Char) : Bool := 97 ≤ c.toNat && c.toNat ≤ 122

/-- Byte test `v >= '0' && v <= '9'`. -/
def isNum (c : Char) : Bool := 48 ≤ c.toNat && c.toNat ≤ 57

/-- Byte test `v == ' ' || v == '_' || v == '-' || v == '.'`. -/
def isSepChar (c : Char) : Bool := c == ' ' || c == '_' || c == '-' || c == '.'

/-- The loop of `strcase.ToScreamingDelimited`; `prev` is `s[i-1]`, absent when `i = 0`. -/
def screamingLoop (delimiter : Char) (ignore : Str) (screaming : Bool) :
    Option Char → Str → Str
  | _, [] => []
  | prev, v0 :: rest =>
    let vIsCap := isCap v0
    let vIsLow := isLow v0
    let v := if vIsLow && screaming then upperChar v0
      else if vIsCap && !screaming then lowerChar v0 else v0
    let plain : Str := if isSepChar v && !ignore.contains v then [delimiter] else [v]
    let tail := screamingLoop delimiter ignore screaming (some v0) rest
    match rest.head? with
    | none => plain ++ tail
    | some next =>
      let vIsNum := isNum v
      let nextIsCap := isCap next
      let nextIsLow := isLow next
      let nextIsNum := isNum next
      if (vIsCap && (nextIsLow || nextIsNum)) || (vIsLow && (nextIsCap || nextIsNum)) ||
          (vIsNum && (nextIsCap || nextIsLow)) then
        let prevIgnore := !ignore.isEmpty && (prev.map ignore.contains).getD false
        if !prevIgnore then
          let before : Str :=
            if vIsCap && nextIsLow && (prev.map isCap).getD false then [delimiter] else []
          let after : Str := if vIsLow || vIsNum || nextIsNum then [delimiter] else []
          before ++ [v] ++ after ++ tail
        else plain ++ tail
      else plain ++ tail

/-- The function `strcase.ToScreamingDelimited`. -/
def ToScreamingDelimited (s : Str) (delimiter : Char) (ignore : Str) (screaming : Bool) : Str :=
  screamingLoop delimiter ignore screaming none (TrimSpace s)

/-- The function `strcase.ToScreamingSnake`. -/
def ToScreamingSnake (s : Str) : Str := ToScreamingDelimited s '_' [] true

/-- The function `strcase.ToKebab`. -/
def ToKebab (s : Str) : Str := ToScreamingDelimited s '-' [] false

/-- The loop of `strcase.toCamelInitCase`; `first` says `i == 0`. -/
def camelLoop : Bool → Bool → Str → Str
  | _, _, [] => []
  | first, capNext, v0 :: rest =>
    let vIsCap := isCap v0
    let vIsLow := isLow v0
    let v := if capNext then (if vIsLow then upperChar v0 else v0)
      else if first then (if vIsCap then lowerChar v0 else v0) else v0
    if vIsCap || vIsLow then v :: camelLoop false false rest
    else if isNum v then v :: camelLoop false true rest
    else camelLoop false (isSepChar v) rest

/-- The function `strcase.toCamelInitCase`, given the acronym table. -/
def toCamelInitCase (uppercaseAcronym : List (Str × Str)) (s : Str) (initCase : Bool) : Str :=
  let s := TrimSpace s
  if s.isEmpty then s
  else
    let s := match uppercaseAcronym.lookup s with
      | some a => a
      | none => s
    camelLoop true initCase s

/-- The function `strcase.ToLowerCamel`, given the acronym table. -/
def ToLowerCamel (uppercaseAcronym : List (Str × Str)) (s : Str) : Str :=
  toCamelInitCase uppercaseAcronym s false

/-! ## main.go: the data model -/

/-- The `tag` argument of `map2struct`, `setValue` and `convertName`: "env", "dir" or
"flag".  `convertName` treats every tag other than "env" and "dir" as it treats "flag". -/
inductive Tag where
  | env
  | dir
  | flag
  deriving DecidableEq, Repr

/-- A settable variable of a kind other than slice, named by its `reflect.Kind`, with its
current value.  `Other` is any kind `setField` has no case for (struct, map, pointer, ...). -/
inductive Elem where
  | String (v : Str)
  | Int (v : Int)
  | Int8 (v : Int)
  | Int16 (v : Int)
  | Int32 (v : Int)
  | Int64 (v : Int)
  | Uint (v : Nat)
  | Uint8 (v : Nat)
  | Uint16 (v : Nat)
  | Uint32 (v : Nat)
  | Uint64 (v : Nat)
  | Bool (v : Bool)
  | Float32 (v : GoFloat)
  | Float64 (v : GoFloat)
  | Other
  deriving DecidableEq, Repr

/-- The value of a struct field: a variable of a non-slice kind, or a slice, given by the zero
value of its element type (what `reflect.New(slice.Type().Elem())` holds) and its elements. -/
inductive Value where
  | scalar (e : Elem)
  | slice (zero : Elem) (elems : List Elem)
  deriving DecidableEq, Repr

/-- An exported struct field: declared name, the values of its `env`, `dir` and `flag` tags
(empty when the tag is absent, as `StructTag.Get` returns), and its value. -/
structure Field where
  Name : Str
  envTag : Str
  dirTag : Str
  flagTag : Str
  Val : Value
  deriving DecidableEq, Repr

/-- The expression `field.Tag.Get(tag)`. -/
def Field.TagGet (f : Field) : Tag → Str
  | .env => f.envTag
  | .dir => f.dirTag
  | .flag => f.flagTag

/-- The struct behind `structPtr`. -/
abbrev Record := List Field

/-- A Go `error` value, given by its message. -/
abbrev GoError := Str

/-- The variable `Acronims`. -/
def Acronims : List Str :=
  ["API".toList, "SMTP".toList, "PostgreSQL".toList, "SQL".toList, "JSON".toList,
   "YAML".toList, "DB".toList, "AI".toList, "CRM".toList, "HTTPS".toList, "HTTP".toList,
   "FTP".toList, "SSH".toList]

/-- The acronym table of `strcase` once `NewLoader` has run: the library's own entry and one
entry per element of `Acronims`, as `strcase.ConfigureAcronym(acron, strings.ToLower(acron))`
adds them. -/
def uppercaseAcronym : List (Str × Str) :=
  ("ID".toList, "id".toList) :: Acronims.map (fun acron => (acron, ToLower acron))

/-! ## main.go: coercion and name derivation -/

/-- The function `setField`: the variable after the call. -/
def setField (field : Elem) (fieldValue : Str) : Elem :=
  match field with
  | .String _ => .String fieldValue
  | .Int _ => .Int (ParseInt fieldValue 0).1
  | .Int8 _ => .Int8 (ParseInt fieldValue 8).1
  | .Int16 _ => .Int16 (ParseInt fieldValue 16).1
  | .Int32 _ => .Int32 (ParseInt fieldValue 32).1
  | .Int64 _ => .Int64 (ParseInt fieldValue 64).1
  | .Uint _ => .Uint (ParseUint fieldValue 0).1
  | .Uint8 _ => .Uint8 (ParseUint fieldValue 8).1
  | .Uint16 _ => .Uint16 (ParseUint fieldValue 16).1
  | .Uint32 _ => .Uint32 (ParseUint fieldValue 32).1
  | .Uint64 _ => .Uint64 (ParseUint fieldValue 64).1
  | .Bool _ => .Bool (ParseBool fieldValue).1
  | .Float32 _ => .Float32 (ParseFloat fieldValue 32)
  | .Float64 _ => .Float64 (ParseFloat fieldValue 64)
  | .Other => .Other

/-- The function `setSlice`: the elements of the slice after the call. -/
def setSlice (zero : Elem) (slice : List Elem) (value separator : Str) : List Elem :=
  let separator := if separator.isEmpty then ":".toList else separator
  (Split value separator).foldl (fun slice part => slice ++ [setField zero part]) slice

/-- The acronym loop of `convertName`. -/
def replaceAcronims (fieldName : Str) : List Str → Str
  | [] => fieldName
  | acron :: rest =>
    if HasPrefix fieldName acron then
      replaceAcronims (Replace1 fieldName acron (ToLower acron)) rest
    else replaceAcronims fieldName rest

/-- The function `convertName`; `U` is the case table `strings.ToUpper` consults. -/
def convertName (U : CaseTable) (name : Str) (tag : Tag) (tagVal pre : Str) : Str × Str :=
  let separator := if tag = .env then ":".toList else ",".toList
  let fieldName :=
    if tag = .env then ToScreamingSnake name
    else if tag = .dir then ToKebab name
    else '-' :: ToLowerCamel uppercaseAcronym (replaceAcronims name Acronims)
  let p := SplitN tagVal ",".toList 2
  let hasComma := Contains tagVal ",".toList
  let separator := if hasComma then p.getD 1 [] else separator
  let tagVal := if hasComma then p.getD 0 [] else tagVal
  let fieldName :=
    if ¬ tagVal.isEmpty then
      if tag = .flag ∧ HasPrefix tagVal "-".toList then '-' :: tagVal else tagVal
    else fieldName
  if tag = .env then
    let pre := TrimSpace pre
    let pre :=
      if ¬ pre.isEmpty ∧ ¬ HasSuffix pre "_".toList ∧ ¬ HasSuffix pre "-".toList then
        pre ++ "_".toList
      else pre
    let fieldName :=
      if ¬ pre.isEmpty ∧ ¬ HasPrefix fieldName pre then pre ++ fieldName else fieldName
    (ToUpper U fieldName, separator)
  else (fieldName, separator)

/-! ## main.go: applying a flat map -/

/-- The body of the loop of `setValue` once a field's derived name equals the key. -/
def assign (f : Field) (value separator : Str) : Field :=
  match f.Val with
  | .slice zero elems => { f with Val := .slice zero (setSlice zero elems value separator) }
  | .scalar e => { f with Val := .scalar (setField e value) }

/-- The loop of `setValue` over the fields; the variable `key` is carried along, as the loop
upper-cases it again at every field it does not skip. -/
def setValueLoop (U : CaseTable) (tag : Tag) (pre value : Str) :
    Str → List Field → List Field
  | _, [] => []
  | key, f :: fs =>
    let tagVal := TrimSpace (f.TagGet tag)
    if tagVal = "-".toList then f :: setValueLoop U tag pre value key fs
    else
      let (fieldName, separator) := convertName U f.Name tag tagVal pre
      let key := if tag = .env then ToUpper U key else key
      (if fieldName = key then assign f value separator else f) ::
        setValueLoop U tag pre value key fs

/-- The function `setValue`. -/
def setValue (U : CaseTable) (tag : Tag) (pre : Str) (r : Record) (key value : Str) : Record :=
  setValueLoop U tag pre value key r

/-- The function `map2struct` on a non-nil `structPtr`: the record after the call and the
returned error. -/
def map2struct (U : CaseTable) (tag : Tag) (pre : Str) (mp : List (Str × Str))
    (r : Record) : Record × Option GoError :=
  (mp.foldl (fun r kv =>
      let key := TrimSpace kv.1
      if ¬ key.isEmpty ∧ ¬ kv.2.isEmpty then setValue U tag pre r key kv.2 else r) r,
   none)

/-! ## main.go: the loader -/

/-- The type `errCollector`. -/
abbrev errCollector := List GoError

/-- The method `errCollector.Collect`; `none` is the nil error. -/
def errCollector.Collect (c : errCollector) (e : Option GoError) : errCollector :=
  match e with
  | some e => c ++ [e]
  | none => c

/-- The method `errCollector.Error`. -/
def errCollector.Error (c : errCollector) : Option GoError :=
  if c.length = 0 then none
  else some (c.foldl (fun ret e => ret ++ (e ++ "\n".toList)) [])

/-- The interface `Source`: `Load` gives the record after the call and the returned error. -/
structure Source where
  Load : Record → Record × Option GoError

/-- The type `Loader`. -/
structure Loader where
  Sources : List Source
  HelpMSG : Str
  DisableHelpMsg : Bool

/-- The function `NewLoader`; `progName` is `filepath.Base(os.Args[0])`. -/
def NewLoader (progName : Str) (sources : List Source) (helpMessage : List Str) : Loader :=
  let msg := "\nUsage:\n    ".toList ++ progName ++ " [arguments]".toList
  let msg := if helpMessage.length > 0 then Join helpMessage "\n".toList else msg
  ⟨sources, msg, msg.length = 0⟩

/-- The condition of the first `if` of `Loader.Load`, `osArgs` being `os.Args`. -/
def helpRequested (l : Loader) (osArgs : List Str) : Bool :=
  !l.DisableHelpMsg && osArgs.length == 2 &&
    HasSuffix (ToLower ((Split (osArgs.getD 1 []) "=".toList).headD [])) "help".toList

/-- The loop of `Loader.Load` over the sources. -/
def loadLoop : List Source → Record → errCollector → Record × errCollector
  | [], r, errs => (r, errs)
  | src :: rest, r, errs =>
    let res := src.Load r
    loadLoop rest res.1 (errs.Collect res.2)

/-- What a call of `Loader.Load` does: print the help and leave the process with status 0,
or return with the record loaded and an error. -/
inductive LoadResult where
  | helpExit
  | returned (r : Record) (err : Option GoError)
  deriving DecidableEq, Repr

/-- The method `Loader.Load`. -/
def Loader.Load (l : Loader) (osArgs : List Str) (r : Record) : LoadResult :=
  if helpRequested l osArgs then .helpExit
  else
    let res := loadLoop l.Sources r []
    .returned res.1 (errCollector.Error res.2)

/-- Assignment `m[k] = v` on a Go map. -/
def mapSet (m : List (Str × Str)) (k v : Str) : List (Str × Str) :=
  if m.any (fun e => e.1 = k) then m.map (fun e => if e.1 = k then (k, v) else e)
  else m ++ [(k, v)]

/-- The loop of `EnvSource.Load` that builds `envMap` from `os.Environ()`. -/
def envMap (environ : List Str) : List (Str × Str) :=
  environ.foldl (fun m s =>
    if Contains s "=".toList then
      let p := SplitN s "=".toList 2
      mapSet m (p.getD 0 []) (p.getD 1 [])
    else m) []

/-- The method `EnvSource.Load`, `environ` being `os.Environ()`. -/
def EnvSource.Load (U : CaseTable) (Prefix : Str) (environ : List Str) (r : Record) :
    Record × Option GoError :=
  map2struct U .env Prefix (envMap environ) r

/-- The loop of `FlagsSource.Load` over `os.Args[1:]`, with the variables `argsMap` and
`prev`. -/
def argsLoop : List Str → List (Str × Str) → Str → List (Str × Str)
  | [], argsMap, _ => argsMap
  | s :: rest, argsMap, prev =>
    if HasPrefix s "-".toList then
      if Contains s "=".toList then
        let p := SplitN s "=".toList 2
        argsLoop rest (mapSet argsMap (p.getD 0 []) (p.getD 1 [])) []
      else argsLoop rest argsMap s
    else if ¬ prev.isEmpty then argsLoop rest (mapSet argsMap prev s) prev
    else argsLoop rest argsMap prev

/-- The method `FlagsSource.Load`, `osArgs` being `os.Args`. -/
def FlagsSource.Load (U : CaseTable) (osArgs : List Str) (r : Record) :
    Record × Option GoError :=
  map2struct U .flag [] (argsLoop osArgs.tail [] []) r

/-- The constant `ErrIsDirectory`. -/
def ErrIsDirectory : GoError := "file is a directory".toList

/-- The constant `ErrUnknownFileType`. -/
def ErrUnknownFileType : GoError := "unknown file type".toList

/-- The loop of `filepath.Ext` (separator "/"), from the last character backwards; `acc` is
the text already passed. -/
def extLoop : Str → Str → Str
  | [], _ => []
  | c :: rest, acc =>
    if c = '/' then []
    else if c = '.' then '.' :: acc
    else extLoop rest (c :: acc)

/-- The function `filepath.Ext`. -/
def Ext (path : Str) : Str := extLoop path.reverse []

/-- What `FileSource.Load` calls with the path of the source: `os.Stat`, reduced to its error
or to `IsDir()` of the file information, and the `Load` methods of the directory, JSON, YAML,
dotenv and TOML sources, each giving the record after the call and the returned error. -/
structure FileOps where
  Stat : Str → Except GoError Bool
  DirLoad : Str → Record → Record × Option GoError
  JSONLoad : Str → Record → Record × Option GoError
  YAMLLoad : Str → Record → Record × Option GoError
  EnvFileLoad : Str → Record → Record × Option GoError
  TOMLLoad : Str → Record → Record × Option GoError

/-- The method `FileSource.Load`. -/
def FileSource.Load (ops : FileOps) (Path : Str) (r : Record) : Record × Option GoError :=
  match ops.Stat Path with
  | .error err => (r, some err)
  | .ok isDir =>
    if isDir then ops.DirLoad Path r
    else
      let ext := Ext Path
      if ext = ".json".toList then ops.JSONLoad Path r
      else if ext = ".yaml".toList ∨ ext = ".yml".toList then ops.YAMLLoad Path r
      else if ext = ".env".toList then ops.EnvFileLoad Path r
      else if ext = ".toml".toList then ops.TOMLLoad Path r
      else
        let r1 := ops.JSONLoad Path r
        if r1.2 = none then (r1.1, none)
        else
          let r2 := ops.YAMLLoad Path r1.1
          if r2.2 = none then (r2.1, none)
          else
            let r3 := ops.EnvFileLoad Path r2.1
            if r3.2 = none then (r3.1, none)
            else
              let r4 := ops.TOMLLoad Path r3.1
              if r4.2 = none then (r4.1, none)
              else (r4.1, some ErrUnknownFileType)

/-! ## Reference notions used in the statements -/

/-- A case table for evaluating examples: it sends é to É and ſ to S, as the table of Go
does, and every other character above U+007F to itself. -/
def sampleCase : CaseTable where
  above := fun r =>
    if r.toNat = 0xE9 then Char.ofNat 0xC9 else if r.toNat = 0x17F then 'S' else r
  above_upper := by
    intro r hr
    by_cases h1 : r.toNat = 0xE9
    · simp only [h1, if_true]
      decide
    · by_cases h2 : r.toNat = 0x17F
      · simp only [h1, h2, if_true, if_false]
        decide
      · simp only [h1, h2, if_false, toUpperWith, Nat.not_le.mpr hr]
  above_space := by
    intro r hr
    by_cases h1 : r.toNat = 0xE9
    · simp only [h1, if_true]
      simp [isSpace, h1]
    · by_cases h2 : r.toNat = 0x17F
      · simp only [h1, h2, if_true, if_false]
        simp [isSpace, h2]
      · simp only [h1, h2, if_false]

/-- A text of ASCII characters. -/
def isASCII (s : Str) : Bool := s.all (fun c => decide (c.toNat ≤ 127))

/-- One message per line: every message followed by a newline, in order. -/
def onePerLine : List Str → Str
  | [] => []
  | msg :: rest => msg ++ "\n".toList ++ onePerLine rest

/-- Running one source after the other on the record the earlier ones left. -/
def runSources (srcs : List Source) (r : Record) : Record :=
  srcs.foldl (fun r src => (src.Load r).1) r

/-- The zero value of the kind of a variable. -/
def Elem.zero : Elem → Elem
  | .String _ => .String []
  | .Int _ => .Int 0
  | .Int8 _ => .Int8 0
  | .Int16 _ => .Int16 0
  | .Int32 _ => .Int32 0
  | .Int64 _ => .Int64 0
  | .Uint _ => .Uint 0
  | .Uint8 _ => .Uint8 0
  | .Uint16 _ => .Uint16 0
  | .Uint32 _ => .Uint32 0
  | .Uint64 _ => .Uint64 0
  | .Bool _ => .Bool false
  | .Float32 _ => .Float32 (.bits 0)
  | .Float64 _ => .Float64 (.bits 0)
  | .Other => .Other

/-- The error `setField` discards for an integer or boolean variable: what the parser of the
variable's kind returns next to the value (`none` for the other kinds). -/
def discardedError (e : Elem) (s : Str) : Option NumError :=
  match e with
  | .Int _ => (ParseInt s 0).2
  | .Int8 _ => (ParseInt s 8).2
  | .Int16 _ => (ParseInt s 16).2
  | .Int32 _ => (ParseInt s 32).2
  | .Int64 _ => (ParseInt s 64).2
  | .Uint _ => (ParseUint s 0).2
  | .Uint8 _ => (ParseUint s 8).2
  | .Uint16 _ => (ParseUint s 16).2
  | .Uint32 _ => (ParseUint s 32).2
  | .Uint64 _ => (ParseUint s 64).2
  | .Bool _ => (ParseBool s).2
  | _ => none

/-- The key of a map entry as the applier compares it: trimmed, and upper-cased for `env`. -/
def normKey (U : CaseTable) (tag : Tag) (key : Str) : Str :=
  if tag = .env then ToUpper U (TrimSpace key) else TrimSpace key

/-- The derived name of a field for a source kind and prefix. -/
def derivedName (U : CaseTable) (tag : Tag) (pre : Str) (f : Field) : Str :=
  (convertName U f.Name tag (TrimSpace (f.TagGet tag)) pre).1

/-- The separator of a field for a source kind and prefix. -/
def separatorOf (U : CaseTable) (tag : Tag) (pre : Str) (f : Field) : Str :=
  (convertName U f.Name tag (TrimSpace (f.TagGet tag)) pre).2

/-- An entry reaches a field: its trimmed key and its value are not empty, the field is not
excluded for the kind, and the field's derived name is the entry's normalised key. -/
def hits (U : CaseTable) (tag : Tag) (pre : Str) (f : Field) (kv : Str × Str) : Bool :=
  !(TrimSpace kv.1).isEmpty && !kv.2.isEmpty &&
    decide (TrimSpace (f.TagGet tag) ≠ "-".toList) &&
    decide (derivedName U tag pre f = normKey U tag kv.1)

/-- What one map entry does to one field. -/
def applyEntry (U : CaseTable) (tag : Tag) (pre : Str) (f : Field) (kv : Str × Str) :
    Field :=
  if hits U tag pre f kv then assign f kv.2 (separatorOf U tag pre f) else f

/-- The struct `Config` of `main_test.go` with the given field values. -/
def testConfig (user password host : Str) (port : Nat) (dbName sslMode : Str)
    (slice : List Str) : Record :=
  [⟨"PostgresUser".toList, [], "postgres-user".toList, [], .scalar (.String user)⟩,
   ⟨"PostgresPassword".toList, [], [], [], .scalar (.String password)⟩,
   ⟨"PostgresHost".toList, [], [], [], .scalar (.String host)⟩,
   ⟨"PostgresPort".toList, [], [], [], .scalar (.Uint64 port)⟩,
   ⟨"PostgresDBName".toList, [], [], [], .scalar (.String dbName)⟩,
   ⟨"PostgresSSLMode".toList, [], [], [], .scalar (.String sslMode)⟩,
   ⟨"Slice".toList, "slice,:".toList, [], [], .slice (.String []) (slice.map .String)⟩]

/-- The struct `Config` of `example/app/main.go` as `main` sets it up: every field at its zero
value but `PostgresHost`, which is "localhost". -/
def exampleConfig : Record :=
  [⟨"PostgresUser".toList, "APP_POSTGRES_USER".toList, "postgres-user".toList, [],
      .scalar (.String [])⟩,
   ⟨"PostgresPassword".toList, [], [], [], .scalar (.String [])⟩,
   ⟨"PostgresHost".toList, [], [], [], .scalar (.String "localhost".toList)⟩,
   ⟨"PostgresPort".toList, [], [], [], .scalar (.Uint64 0)⟩,
   ⟨"PostgresDBName".toList, [], [], [], .scalar (.String [])⟩,
   ⟨"PostgresSSLMode".toList, [], [], [], .scalar (.String [])⟩,
   ⟨"Slice".toList, "slice,:".toList, [], [], .slice (.String []) []⟩,
   ⟨"Version".toList, "-".toList, "-".toList, [], .scalar (.String [])⟩]

/-- A source that applies a flat map with `map2struct`, as the dotenv, environment,
directory and flags sources do once they have built their map. -/
def flatMapSource (U : CaseTable) (tag : Tag) (pre : Str) (mp : List (Str × Str)) :
    Source :=
  ⟨map2struct U tag pre mp⟩

/-- A source that fails with the given message and leaves the record alone, as a file
source does when its file is missing. -/
def failingSource (msg : GoError) : Source :=
  ⟨fun r => (r, some msg)⟩

/-- A loader with a failing source between two flat-map sources. -/
def exampleLoader : Loader :=
  NewLoader "app".toList
    [flatMapSource sampleCase .env "APP".toList
       [("APP_POSTGRES_USER".toList, "postgres".toList)],
     failingSource "stat config.json: no such file or directory".toList,
     flatMapSource sampleCase .flag [] [("-postgresPort".toList, "5432".toList)]] []

/-- The override name of a tag value: the text before its first comma, the whole tag value
when it holds no comma. -/
def overrideName (tagVal : Str) : Str := tagVal.takeWhile (fun c => c != ',')

/-- The effective prefix: "_" is appended to a non-empty prefix that does not end in "_" or
"-". -/
def effectivePrefix (pre : Str) : Str :=
  if pre ≠ [] ∧ pre.getLast? ≠ some '_' ∧ pre.getLast? ≠ some '-' then pre ++ ['_'] else pre

/-- The env prefix rule: `upper(base)` when the effective prefix `p` is empty or `base`
starts with `p`, and `upper(p ++ base)` otherwise, `base` being the override name if it is
not empty and else the upper-snake-case default. -/
def envNameRule (U : CaseTable) (name tagVal pre : Str) : Str :=
  let base := if overrideName tagVal ≠ [] then overrideName tagVal else ToScreamingSnake name
  let p := effectivePrefix pre
  if p = [] ∨ p <+: base then ToUpper U base else ToUpper U (p ++ base)

/-- The text the env prefix rule upper-cases: `base`, or `p ++ base`. -/
def envRawName (name tagVal pre : Str) : Str :=
  let base := if overrideName tagVal ≠ [] then overrideName tagVal else ToScreamingSnake name
  let p := effectivePrefix pre
  if p = [] ∨ p <+: base then base else p ++ base

/-- A capitalised word: an upper-case ASCII letter followed by one or more lower-case ones. -/
def isCapWord : Str → Bool
  | u :: l :: ls => isCap u && (l :: ls).all isLow
  | _ => false

/-- A text with its first letter lower-cased. -/
def lowerFirst : Str → Str
  | [] => []
  | c :: t => lowerChar c :: t

/-- Upper-casing (`screaming`) or lower-casing of one character. -/
def caseOf (screaming : Bool) (c : Char) : Char :=
  if screaming then upperChar c else lowerChar c

/-- Every upper-case letter that has a successor is followed by a lower-case letter. -/
def pairsOk : Str → Bool
  | a :: b :: t => (!isCap a || isLow b) && pairsOk (b :: t)
  | _ => true

/-- The number a decimal text denotes. -/
def decimalValue (s : Str) : Nat :=
  s.foldl (fun n c => 10 * n + (c.toNat - 48)) 0

/-- A decimal text: one or more ASCII digits. -/
def isDecimal (s : Str) : Bool := !s.isEmpty && s.all isNum

/-- The texts the applier upper-cases are ASCII: for kind `env`, what each field's derived
name is upper-cased from, and each key of the map. -/
def asciiInput (tag : Tag) (pre : Str) (mp : List (Str × Str)) (r : Record) : Bool :=
  decide (tag ≠ .env) ||
    (r.all (fun f => isASCII (envRawName f.Name (TrimSpace (f.TagGet .env)) (TrimSpace pre))) &&
      mp.all (fun kv => isASCII kv.1))

/-- The keys of the environment fixture of `TestEnvSourceLoader`. -/
def envKeys : List Str :=
  ["APP_POSTGRES_USER".toList, "APP_POSTGRES_PASSWORD".toList, "APP_POSTGRES_HOST".toList,
   "APP_POSTGRES_PORT".toList, "APP_POSTGRES_DB_NAME".toList, "APP_POSTGRES_SSL_MODE".toList,
   "APP_SLICE".toList]

/-- An environment map that holds the given non-empty values under the seven keys of the
fixture, and no other key that `norm` sends to one of the seven. -/
def envFixture (norm : Str → Str) (m : List (Str × Str))
    (user password host port dbName sslMode slice : Str) : Prop :=
  (m.map Prod.fst).Nodup ∧
  ("APP_POSTGRES_USER".toList, user) ∈ m ∧ ("APP_POSTGRES_PASSWORD".toList, password) ∈ m ∧
  ("APP_POSTGRES_HOST".toList, host) ∈ m ∧ ("APP_POSTGRES_PORT".toList, port) ∈ m ∧
  ("APP_POSTGRES_DB_NAME".toList, dbName) ∈ m ∧ ("APP_POSTGRES_SSL_MODE".toList, sslMode) ∈ m ∧
  ("APP_SLICE".toList, slice) ∈ m ∧
  user ≠ [] ∧ password ≠ [] ∧ host ≠ [] ∧ port ≠ [] ∧ dbName ≠ [] ∧ sslMode ≠ [] ∧
  slice ≠ [] ∧
  ∀ kv ∈ m, norm kv.1 ∈ envKeys → kv.1 ∈ envKeys

/-- The environment of `TestEnvSourceLoader`, among other variables, with the given text
under APP_POSTGRES_PORT. -/
def testEnvironPort (port : Str) : List (Str × Str) :=
  [("HOME".toList, "/root".toList),
   ("APP_POSTGRES_USER".toList, "postgres".toList),
   ("APP_POSTGRES_PASSWORD".toList, "password".toList),
   ("APP_POSTGRES_HOST".toList, "localhost".toList),
   ("APP_POSTGRES_PORT".toList, port),
   ("APP_POSTGRES_DB_NAME".toList, "db-name".toList),
   ("APP_POSTGRES_SSL_MODE".toList, "disable".toList),
   ("APP_SLICE".toList, "a1:a2:a3:a4:a5".toList),
   ("app_debug".toList, "1".toList)]

/-- The environment of `TestEnvSourceLoader`, among other variables. -/
def testEnviron : List (Str × Str) := testEnvironPort "5432".toList

/-- The arguments of `TestFlagsSourceLoader` with the given text for `-postgresPort`. -/
def testArgsPort (port : Str) : List Str :=
  ["easyconfig".toList, "-postgresUser=postgres".toList, "-postgresPassword=password".toList,
   "-postgresHost=localhost".toList, "-postgresPort=".toList ++ port,
   "-postgresDBName=db-name".toList, "-postgresSSLMode=disable".toList,
   "-slice=a1,a2,a3,a4,a5".toList]

/-- The flag names of the fixture of `TestFlagsSourceLoader`. -/
def flagKeys : List Str :=
  ["-postgresUser".toList, "-postgresPassword".toList, "-postgresHost".toList,
   "-postgresPort".toList, "-postgresDBName".toList, "-postgresSSLMode".toList,
   "-slice".toList]

/-- The flags of the fixture with their values. -/
def flagPairs (user password host port dbName sslMode slice : Str) : List (Str × Str) :=
  [("-postgresUser".toList, user), ("-postgresPassword".toList, password),
   ("-postgresHost".toList, host), ("-postgresPort".toList, port),
   ("-postgresDBName".toList, dbName), ("-postgresSSLMode".toList, sslMode),
   ("-slice".toList, slice)]

/-- The argument `<name>=<value>` for a flag name and a value. -/
def flagToken (kv : Str × Str) : Str := kv.1 ++ '=' :: kv.2

/-- The text after the first comma of a tag value. -/
def afterComma (tagVal : Str) : Str := (tagVal.dropWhile (fun c => c != ',')).drop 1

/-- The default separator of a source kind: ":" for `env`, "," for every other kind. -/
def defaultSeparator (tag : Tag) : Str := if tag = .env then ":".toList else ",".toList

/-- Trying adapters in order on the same record: the first that succeeds ends the search
with no error and the later ones are not applied; when none succeeds the error is
`ErrUnknownFileType`. -/
def tryInOrder : List (Record → Record × Option GoError) → Record → Record × Option GoError
  | [], r => (r, some ErrUnknownFileType)
  | load :: rest, r =>
    if (load r).2 = none then ((load r).1, none) else tryInOrder rest (load r).1

/-- The adapters all fail, each tried on the record the earlier ones left. -/
def allFail : List (Record → Record × Option GoError) → Record → Prop
  | [], _ => True
  | load :: rest, r => (load r).2 ≠ none ∧ allFail rest (load r).1

/-- File operations for a regular file that is not valid JSON but holds a YAML document
giving the host. -/
def exampleFileOps : FileOps where
  Stat := fun _ => .ok false
  DirLoad := fun _ r => (r, some "not a directory".toList)
  JSONLoad := fun _ r => (r, some "invalid character 'p' looking for beginning of value".toList)
  YAMLLoad := fun _ r =>
    ((map2struct sampleCase .dir [] [("postgres-host".toList, "db.local".toList)] r).1, none)
  EnvFileLoad := fun _ r => (r, none)
  TOMLLoad := fun _ r => (r, none)

/-- The text of an argument before its first "=", the whole argument when it holds none. -/
def beforeEq (arg : Str) : Str := arg.takeWhile (fun c => c != '=')

/-- The text `s` ends with `t`, compared case-insensitively. -/
def endsWithFold (s t : Str) : Prop := ∃ u w, s = u ++ w ∧ ToLower w = ToLower t

/-- The first acronym, in the order of `Acronims`, that the name begins with. -/
def firstAcronym (name : Str) : Option Str :=
  Acronims.find? (fun acron => acron.isPrefixOf name)

/-- A text that begins with an upper-case ASCII letter. -/
def startsCap (s : Str) : Bool := (s.head?.map isCap).getD false

/-- The number a decimal integer text denotes: decimal digits after an optional sign. -/
def decimalInteger (s : Str) : Option Int :=
  match s with
  | [] => none
  | c :: t =>
    if c = '-' then (if isDecimal t then some (-(decimalValue t : Int)) else none)
    else if c = '+' then (if isDecimal t then some (decimalValue t : Int) else none)
    else if isDecimal (c :: t) then some (decimalValue (c :: t) : Int) else none

/-- The value of a range nearest to `v`: `v` itself inside the range, the bound it passed
outside. -/
def nearestInRange (lo hi v : Int) : Int :=
  if v < lo then lo else if hi < v then hi else v

/-- The range of an integer variable, by its kind (`int` and `uint` being 64 bits wide). -/
def intRange : Elem → Option (Int × Int)
  | .Int _ => some (-9223372036854775808, 9223372036854775807)
  | .Int8 _ => some (-128, 127)
  | .Int16 _ => some (-32768, 32767)
  | .Int32 _ => some (-2147483648, 2147483647)
  | .Int64 _ => some (-9223372036854775808, 9223372036854775807)
  | .Uint _ => some (0, 18446744073709551615)
  | .Uint8 _ => some (0, 255)
  | .Uint16 _ => some (0, 65535)
  | .Uint32 _ => some (0, 4294967295)
  | .Uint64 _ => some (0, 18446744073709551615)
  | _ => none

/-- The integer variable of the same kind holding the value `v`. -/
def withInt : Elem → Int → Elem
  | .Int _, v => .Int v
  | .Int8 _, v => .Int8 v
  | .Int16 _, v => .Int16 v
  | .Int32 _, v => .Int32 v
  | .Int64 _, v => .Int64 v
  | .Uint _, v => .Uint v.toNat
  | .Uint8 _, v => .Uint8 v.toNat
  | .Uint16 _, v => .Uint16 v.toNat
  | .Uint32 _, v => .Uint32 v.toNat
  | .Uint64 _, v => .Uint64 v.toNat
  | e, _ => e

/-- Whether an integer variable is of an unsigned kind. -/
def unsignedKind : Elem → Bool
  | .Uint _ | .Uint8 _ | .Uint16 _ | .Uint32 _ | .Uint64 _ => true
  | _ => false

/-- The width in bits of an integer variable (`int` and `uint` being 64 bits wide). -/
def bitsOf : Elem → Option Nat
  | .Int _ | .Uint _ | .Int64 _ | .Uint64 _ => some 64
  | .Int8 _ | .Uint8 _ => some 8
  | .Int16 _ | .Uint16 _ => some 16
  | .Int32 _ | .Uint32 _ => some 32
  | _ => none

/-- A text without its leading sign, if it has one. -/
def stripSign : Str → Str
  | [] => []
  | c :: t => if c = '+' then t else if c = '-' then t else c :: t

/-- The part of a text in which the parser of an integer variable expects decimal digits: the
whole text for an unsigned kind, the text after one leading sign for a signed kind. -/
def digitsPart (e : Elem) (s : Str) : Str :=
  if unsignedKind e then s else stripSign s

/-- The decimal digits a text begins with. -/
def digitRun (s : Str) : Str := s.takeWhile isNum

/-- The texts `strconv.ParseBool` accepts. -/
def boolLiterals : List Str :=
  ["1".toList, "t".toList, "T".toList, "TRUE".toList, "true".toList, "True".toList,
   "0".toList, "f".toList, "F".toList, "FALSE".toList, "false".toList, "False".toList]

/-! ## Theorems

The theorems hold for every case table `U`; the examples are evaluated with `sampleCase`. -/

variable {U : CaseTable}

theorem collect_foldl (results : List (Option GoError)) (c : errCollector) :
    results.foldl errCollector.Collect c = c ++ results.filterMap id := by
  induction results generalizing c with
  | nil => simp
  | cons e rest ih =>
    cases e with
    | none => simpa [errCollector.Collect] using ih c
    | some e => simp [errCollector.Collect, ih]

theorem error_text_foldl (c : errCollector) (acc : Str) :
    c.foldl (fun ret e => ret ++ (e ++ "\n".toList)) acc = acc ++ onePerLine c := by
  induction c generalizing acc with
  | nil => simp [onePerLine]
  | cons e rest ih =>
    rw [List.foldl_cons, ih]
    simp [onePerLine, List.append_assoc]

theorem loadLoop_fst (srcs : List Source) (r : Record) (errs : errCollector) :
    (loadLoop srcs r errs).1 = runSources srcs r := by
  induction srcs generalizing r errs with
  | nil => rfl
  | cons src rest ih => simp [loadLoop, runSources, ih]

theorem loadLoop_snd_nil (srcs : List Source) (r : Record) (errs : errCollector) :
    (loadLoop srcs r errs).2 = [] ↔
      errs = [] ∧ ∀ (i : Nat) (h : i < srcs.length),
        ((srcs.get ⟨i, h⟩).Load (runSources (srcs.take i) r)).2 = none := by
  induction srcs generalizing r errs with
  | nil => simp [loadLoop]
  | cons src rest ih =>
    rw [loadLoop, ih]
    constructor
    · rintro ⟨h1, h2⟩
      have hsrc : (src.Load r).2 = none ∧ errs = [] := by
        cases hres : (src.Load r).2 with
        | none => simpa [hres, errCollector.Collect] using h1
        | some e => simp [hres, errCollector.Collect] at h1
      refine ⟨hsrc.2, ?_⟩
      intro i h
      cases i with
      | zero => simpa [runSources] using hsrc.1
      | succ j =>
        have := h2 j (by simpa using h)
        simpa [runSources] using this
    · rintro ⟨h1, h2⟩
      have h0 := h2 0 (by simp)
      simp only [List.get_eq_getElem, List.getElem_cons_zero, List.take_zero, runSources,
        List.foldl_nil] at h0
      refine ⟨by simp [h0, h1, errCollector.Collect], ?_⟩
      intro i h
      have := h2 (i + 1) (by simpa using h)
      simpa [runSources] using this

/-- C1: when the help branch is not taken, `Loader.Load` returns; the record it leaves is the
left-to-right fold of all the sources over the initial record, and the returned error is nil
exactly when every source, run on the record the earlier sources left, returned nil. -/
theorem Load_runs_every_source (l : Loader) (osArgs : List Str) (r : Record)
    (hhelp : helpRequested l osArgs = false) :
    ∃ err, l.Load osArgs r = .returned (l.Sources.foldl (fun r src => (src.Load r).1) r) err ∧
      (err = none ↔ ∀ (i : Nat) (h : i < l.Sources.length),
        ((l.Sources.get ⟨i, h⟩).Load
          ((l.Sources.take i).foldl (fun r src => (src.Load r).1) r)).2 = none) := by
  refine ⟨errCollector.Error (loadLoop l.Sources r []).2, ?_, ?_⟩
  · simp [Loader.Load, hhelp, loadLoop_fst, runSources]
  · have h := loadLoop_snd_nil l.Sources r []
    simp only [runSources, true_and] at h
    rw [← h]
    unfold errCollector.Error
    cases (loadLoop l.Sources r []).2 <;> simp

/-- C1, witness: a loader whose second of three sources fails, started without arguments. -/
theorem Load_runs_every_source_witness :
    helpRequested exampleLoader ["app".toList] = false ∧
    ∃ err, exampleLoader.Load ["app".toList] exampleConfig =
        .returned (exampleLoader.Sources.foldl (fun r src => (src.Load r).1) exampleConfig) err ∧
      (err = none ↔ ∀ (i : Nat) (h : i < exampleLoader.Sources.length),
        ((exampleLoader.Sources.get ⟨i, h⟩).Load
          ((exampleLoader.Sources.take i).foldl (fun r src => (src.Load r).1)
            exampleConfig)).2 = none) :=
  ⟨by decide, Load_runs_every_source exampleLoader ["app".toList] exampleConfig (by decide)⟩

/-- C2: after collecting any sequence of results, `errCollector.Error` is nil exactly when no
non-nil error was collected, and otherwise its text is the collected messages in collection
order, each followed by one newline and nothing else. -/
theorem Error_one_message_per_line (results : List (Option GoError)) :
    errCollector.Error (results.foldl errCollector.Collect []) =
      if results.filterMap id = [] then none
      else some (onePerLine (results.filterMap id)) := by
  rw [collect_foldl]
  simp only [List.nil_append]
  unfold errCollector.Error
  rw [error_text_foldl]
  cases results.filterMap id <;> simp

/-! ### Coercion -/

theorem setField_zero (e : Elem) (s : Str) : setField e s = setField e.zero s := by
  cases e <;> rfl

theorem setField_setField (e : Elem) (s t : Str) : setField (setField e s) t = setField e t := by
  cases e <;> rfl

theorem parseUintLoop_syntax (maxVal : Nat) (s : Str) (n : Nat)
    (h : (parseUintLoop maxVal n s).2 = some .ErrSyntax) : (parseUintLoop maxVal n s).1 = 0 := by
  induction s generalizing n with
  | nil => simp [parseUintLoop] at h
  | cons c rest ih =>
    unfold parseUintLoop at h ⊢
    simp only at h ⊢
    split
    · rfl
    · rename_i d hd
      rw [hd] at h
      simp only at h
      split_ifs at h ⊢ with h1 h2 h3
      · rfl
      · simp at h
      · simp at h
      · exact ih _ h

theorem ParseUint_syntax (s : Str) (bitSize : Nat)
    (h : (ParseUint s bitSize).2 = some .ErrSyntax) : (ParseUint s bitSize).1 = 0 := by
  unfold ParseUint at h ⊢
  by_cases h1 : s.isEmpty = true
  · simp [h1]
  · simp only [h1, if_false] at h ⊢
    exact parseUintLoop_syntax _ _ _ h

theorem ParseInt_syntax (s : Str) (bitSize : Nat)
    (h : (ParseInt s bitSize).2 = some .ErrSyntax) : (ParseInt s bitSize).1 = 0 := by
  cases s with
  | nil => rfl
  | cons c t =>
    simp only [ParseInt] at h ⊢
    generalize ParseUint (if c = '+' then t else if c = '-' then t else c :: t) bitSize = res
      at h ⊢
    obtain ⟨un, err⟩ := res
    cases err with
    | none =>
      simp only at h ⊢
      split_ifs at h <;> simp at h
    | some e =>
      cases e with
      | ErrSyntax => rfl
      | ErrRange =>
        simp only at h ⊢
        split_ifs at h <;> simp at h

theorem ParseBool_syntax (s : Str)
    (h : (ParseBool s).2 = some .ErrSyntax) : (ParseBool s).1 = false := by
  unfold ParseBool at h ⊢
  split_ifs at h ⊢
  rfl

theorem decimal_foldl_ge (s : Str) (n : Nat) :
    n ≤ s.foldl (fun n c => 10 * n + (c.toNat - 48)) n := by
  induction s generalizing n with
  | nil => exact Nat.le_refl _
  | cons c rest ih =>
    rw [List.foldl_cons]
    exact Nat.le_trans (by omega) (ih _)

theorem dropWhile_isNum_nil (s : Str) : s.dropWhile isNum = [] ↔ s.all isNum = true := by
  induction s with
  | nil => simp
  | cons c t ih =>
    by_cases hc : isNum c = true
    · simp [List.dropWhile_cons, hc, ih]
    · simp [List.dropWhile_cons, hc]

theorem parseUintLoop_run (M : Nat) (hM : M < 18446744073709551616) (s : Str) (n : Nat)
    (hn : n ≤ M) :
    parseUintLoop M n s =
      if M < (s.takeWhile isNum).foldl (fun n c => 10 * n + (c.toNat - 48)) n then
        (M, some .ErrRange)
      else if s.dropWhile isNum = [] then
        ((s.takeWhile isNum).foldl (fun n c => 10 * n + (c.toNat - 48)) n, none)
      else (0, some .ErrSyntax) := by
  induction s generalizing n with
  | nil => simp [parseUintLoop, Nat.not_lt.mpr hn]
  | cons c rest ih =>
    have hpow : (2 : Nat) ^ 64 = 18446744073709551616 := by norm_num
    by_cases hnum : isNum c = true
    · have hc := hnum
      simp only [isNum, Bool.and_eq_true, decide_eq_true_eq] at hc
      have hge := decimal_foldl_ge (rest.takeWhile isNum) (10 * n + (c.toNat - 48))
      rw [parseUintLoop]
      simp only [hc, and_self, if_true, hpow, List.takeWhile_cons, List.dropWhile_cons, hnum,
        List.foldl_cons]
      have h1 : ¬ (c.toNat - 48 ≥ 10) := by omega
      by_cases h2 : n ≥ (18446744073709551616 - 1) / 10 + 1
      · have h9 : M < (rest.takeWhile isNum).foldl (fun n c => 10 * n + (c.toNat - 48))
            (10 * n + (c.toNat - 48)) := by omega
        simp only [h1, h2, if_true, if_false, h9]
      · have h3 : n * 10 % 18446744073709551616 = n * 10 := Nat.mod_eq_of_lt (by omega)
        by_cases h4 : n * 10 + (c.toNat - 48) < 18446744073709551616
        · have h5 : (n * 10 + (c.toNat - 48)) % 18446744073709551616 =
              10 * n + (c.toNat - 48) := by
            rw [Nat.mod_eq_of_lt h4]; omega
          by_cases h6 : 10 * n + (c.toNat - 48) > M
          · have h9 : M < (rest.takeWhile isNum).foldl (fun n c => 10 * n + (c.toNat - 48))
                (10 * n + (c.toNat - 48)) := by omega
            simp only [h1, h2, h3, h5, h6, or_true, if_true, if_false, h9]
          · have h7 : ¬ (10 * n + (c.toNat - 48) < n * 10 ∨ 10 * n + (c.toNat - 48) > M) := by
              omega
            simp only [h1, h2, h3, h5, h7, if_false]
            exact ih _ (by omega)
        · have h5 : (n * 10 + (c.toNat - 48)) % 18446744073709551616 < n * 10 := by omega
          have h9 : M < (rest.takeWhile isNum).foldl (fun n c => 10 * n + (c.toNat - 48))
              (10 * n + (c.toNat - 48)) := by omega
          simp only [h1, h2, h3, h5, true_or, if_true, if_false, h9]
    · have hc : ¬ (48 ≤ c.toNat ∧ c.toNat ≤ 57) := by
        simpa [isNum] using hnum
      rw [parseUintLoop]
      simp only [hc, if_false, List.takeWhile_cons, List.dropWhile_cons, hnum, List.foldl_nil,
        Nat.not_lt.mpr hn, Bool.false_eq_true, reduceCtorEq]
      by_cases hl : c.toNat < 128 ∧ 97 ≤ c.toNat ||| 32 ∧ c.toNat ||| 32 ≤ 122
      · simp only [hl, and_self, if_true]
        rw [if_pos (by omega)]
      · simp only [hl, if_false]

theorem ParseUint_malformed (s : Str) (hs : isDecimal s = false) (b : Nat)
    (hb : (if b = 0 then IntSize else b) ≤ 64) :
    ParseUint s b =
      if 2 ^ (if b = 0 then IntSize else b) - 1 < decimalValue (digitRun s) then
        (2 ^ (if b = 0 then IntSize else b) - 1, some .ErrRange)
      else (0, some .ErrSyntax) := by
  have hle : 2 ^ (if b = 0 then IntSize else b) ≤ 2 ^ 64 := Nat.pow_le_pow_right (by norm_num) hb
  have hpos : 0 < 2 ^ (if b = 0 then IntSize else b) := Nat.pow_pos (by norm_num)
  have hpow : (2 : Nat) ^ 64 = 18446744073709551616 := by norm_num
  unfold ParseUint
  cases s with
  | nil => simp [digitRun, decimalValue]
  | cons c t =>
    have hdrop : (c :: t).dropWhile isNum ≠ [] := by
      intro h
      rw [dropWhile_isNum_nil] at h
      simp [isDecimal, h] at hs
    rw [if_neg (by simp)]
    simp only
    rw [parseUintLoop_run _ (by omega) (c :: t) 0 (Nat.zero_le _), if_neg hdrop]
    rfl

theorem ParseInt_of_ParseUint (c : Char) (t : Str) (b un : Nat) (err : Option NumError)
    (h : ParseUint (if c = '+' then t else if c = '-' then t else c :: t) b = (un, err))
    (herr : err ≠ some .ErrSyntax) :
    ParseInt (c :: t) b =
      if ¬ c = '-' ∧ un ≥ 2 ^ ((if b = 0 then IntSize else b) - 1) then
        (((2 ^ ((if b = 0 then IntSize else b) - 1) : Nat) : Int) - 1, some .ErrRange)
      else if c = '-' ∧ un > 2 ^ ((if b = 0 then IntSize else b) - 1) then
        (-((2 ^ ((if b = 0 then IntSize else b) - 1) : Nat) : Int), some .ErrRange)
      else (if c = '-' then -(un : Int) else (un : Int), none) := by
  simp only [ParseInt, h]

theorem ParseInt_malformed (c : Char) (t : Str) (b : Nat)
    (hs : isDecimal (if c = '+' then t else if c = '-' then t else c :: t) = false)
    (hb1 : 2 ≤ (if b = 0 then IntSize else b)) (hb2 : (if b = 0 then IntSize else b) ≤ 64) :
    (ParseInt (c :: t) b).1 =
      if 2 ^ (if b = 0 then IntSize else b) - 1 <
          decimalValue (digitRun (if c = '+' then t else if c = '-' then t else c :: t)) then
        (if c = '-' then -((2 ^ ((if b = 0 then IntSize else b) - 1) : Nat) : Int)
          else ((2 ^ ((if b = 0 then IntSize else b) - 1) : Nat) : Int) - 1)
      else 0 := by
  have hU := ParseUint_malformed _ hs b hb2
  have hI := fun un err => ParseInt_of_ParseUint c t b un err
  generalize (if b = 0 then IntSize else b) = bb at *
  obtain ⟨k, rfl⟩ : ∃ k, bb = k + 1 := ⟨bb - 1, by omega⟩
  have hk : 1 ≤ k := by omega
  have hpow : 2 ^ (k + 1) = 2 ^ k * 2 := pow_succ 2 k
  have hpos : 2 ≤ 2 ^ k := by
    calc 2 = 2 ^ 1 := by norm_num
      _ ≤ 2 ^ k := Nat.pow_le_pow_right (by norm_num) hk
  simp only [Nat.add_sub_cancel, hpow] at hU hI ⊢
  generalize 2 ^ k = C at *
  generalize decimalValue (digitRun (if c = '+' then t else if c = '-' then t else c :: t)) = d
    at *
  by_cases hd : C * 2 - 1 < d
  · rw [if_pos hd] at hU ⊢
    rw [hI (C * 2 - 1) (some .ErrRange) hU (by simp)]
    by_cases hneg : c = '-'
    · simp only [hneg, not_true_eq_false, false_and, if_false, true_and, if_true]
      rw [if_pos (by omega)]
    · simp only [hneg, not_false_eq_true, true_and, false_and, if_false]
      rw [if_pos (by omega)]
  · rw [if_neg hd] at hU ⊢
    simp only [ParseInt, hU]

theorem ite_cases {α β : Type} (C : α → β) (v x z : α) (M d : Nat)
    (h : v = if M < d then x else z) : (d ≤ M → C v = C z) ∧ (M < d → C v = C x) := by
  subst h
  exact ⟨fun hle => by rw [if_neg (by omega)], fun hlt => by rw [if_pos hlt]⟩

theorem head_of_digitRun (s : Str) (h : 0 < decimalValue (digitRun s)) :
    ¬ s.head? = some '-' := by
  cases s with
  | nil => simp
  | cons c t =>
    intro hc
    simp only [List.head?_cons, Option.some.injEq] at hc
    subst hc
    have h0 : decimalValue (digitRun ('-' :: t)) = 0 := rfl
    omega

theorem ParseInt_malformed_text (s : Str) (b : Nat) (hs : isDecimal (stripSign s) = false)
    (hb1 : 2 ≤ (if b = 0 then IntSize else b)) (hb2 : (if b = 0 then IntSize else b) ≤ 64) :
    (ParseInt s b).1 =
      if 2 ^ (if b = 0 then IntSize else b) - 1 < decimalValue (digitRun (stripSign s)) then
        (if s.head? = some '-' then -((2 ^ ((if b = 0 then IntSize else b) - 1) : Nat) : Int)
          else ((2 ^ ((if b = 0 then IntSize else b) - 1) : Nat) : Int) - 1)
      else 0 := by
  cases s with
  | nil => simp [ParseInt, stripSign, digitRun, decimalValue]
  | cons c t =>
    have h := ParseInt_malformed c t b hs hb1 hb2
    simp only [stripSign, List.head?_cons, Option.some.injEq]
    exact h

/-- C3 (as the code has it): `setField` overwrites a numeric or boolean variable with the
value its parser returned, which does not depend on the prior value.  For an integer variable
of width `w` and a text that is not a decimal number where the parser expects digits (nothing
there, or a character that is no decimal digit), that value is 0 when the digits the text
begins with denote a number up to `2 ^ w - 1`, and the bound of the variable's range on the
side of the sign when they denote more; for a boolean variable and a text that is none of the
literals of `ParseBool` it is false.  In all these cases, and whenever the parser reports a
syntax error, the prior value is lost. -/
theorem setField_malformed_sets_zero (e : Elem) (s : Str) :
    setField e s = setField e.zero s ∧
      (discardedError e s = some .ErrSyntax → setField e s = e.zero) ∧
      (∀ w lo hi, bitsOf e = some w → intRange e = some (lo, hi) →
        isDecimal (digitsPart e s) = false →
        (decimalValue (digitRun (digitsPart e s)) ≤ 2 ^ w - 1 → setField e s = e.zero) ∧
        (2 ^ w - 1 < decimalValue (digitRun (digitsPart e s)) →
          setField e s = withInt e (if s.head? = some '-' then lo else hi))) ∧
      (∀ b, e = .Bool b → s ∉ boolLiterals → setField e s = .Bool false) := by
  refine ⟨setField_zero e s, ?_, ?_, ?_⟩
  · intro h
    cases e <;> simp only [discardedError] at h <;>
      first
      | (simp only [setField, Elem.zero, ParseInt_syntax _ _ h])
      | (simp only [setField, Elem.zero, ParseUint_syntax _ _ h])
      | (simp only [setField, Elem.zero, ParseBool_syntax _ h])
      | (simp at h)
  · intro w lo hi hw hr hmal
    cases e with
    | Int x =>
      simp only [bitsOf, intRange, Option.some.injEq, Prod.mk.injEq] at hw hr
      obtain ⟨rfl, rfl⟩ := hr
      subst hw
      exact ite_cases (fun v => Elem.Int v) _ _ _ _ _
        (ParseInt_malformed_text s 0 hmal (by decide) (by decide))
    | Int8 x =>
      simp only [bitsOf, intRange, Option.some.injEq, Prod.mk.injEq] at hw hr
      obtain ⟨rfl, rfl⟩ := hr
      subst hw
      exact ite_cases (fun v => Elem.Int8 v) _ _ _ _ _
        (ParseInt_malformed_text s 8 hmal (by decide) (by decide))
    | Int16 x =>
      simp only [bitsOf, intRange, Option.some.injEq, Prod.mk.injEq] at hw hr
      obtain ⟨rfl, rfl⟩ := hr
      subst hw
      exact ite_cases (fun v => Elem.Int16 v) _ _ _ _ _
        (ParseInt_malformed_text s 16 hmal (by decide) (by decide))
    | Int32 x =>
      simp only [bitsOf, intRange, Option.some.injEq, Prod.mk.injEq] at hw hr
      obtain ⟨rfl, rfl⟩ := hr
      subst hw
      exact ite_cases (fun v => Elem.Int32 v) _ _ _ _ _
        (ParseInt_malformed_text s 32 hmal (by decide) (by decide))
    | Int64 x =>
      simp only [bitsOf, intRange, Option.some.injEq, Prod.mk.injEq] at hw hr
      obtain ⟨rfl, rfl⟩ := hr
      subst hw
      exact ite_cases (fun v => Elem.Int64 v) _ _ _ _ _
        (ParseInt_malformed_text s 64 hmal (by decide) (by decide))
    | Uint x =>
      simp only [bitsOf, intRange, Option.some.injEq, Prod.mk.injEq] at hw hr
      obtain ⟨rfl, rfl⟩ := hr
      subst hw
      have h := ite_cases (fun p => Elem.Uint p.1) _ _ _ _ _
        (ParseUint_malformed s hmal 0 (by decide))
      refine ⟨h.1, fun hlt => ?_⟩
      rw [if_neg (head_of_digitRun s (Nat.lt_of_le_of_lt (Nat.zero_le _) hlt))]
      exact h.2 hlt
    | Uint8 x =>
      simp only [bitsOf, intRange, Option.some.injEq, Prod.mk.injEq] at hw hr
      obtain ⟨rfl, rfl⟩ := hr
      subst hw
      have h := ite_cases (fun p => Elem.Uint8 p.1) _ _ _ _ _
        (ParseUint_malformed s hmal 8 (by decide))
      refine ⟨h.1, fun hlt => ?_⟩
      rw [if_neg (head_of_digitRun s (Nat.lt_of_le_of_lt (Nat.zero_le _) hlt))]
      exact h.2 hlt
    | Uint16 x =>
      simp only [bitsOf, intRange, Option.some.injEq, Prod.mk.injEq] at hw hr
      obtain ⟨rfl, rfl⟩ := hr
      subst hw
      have h := ite_cases (fun p => Elem.Uint16 p.1) _ _ _ _ _
        (ParseUint_malformed s hmal 16 (by decide))
      refine ⟨h.1, fun hlt => ?_⟩
      rw [if_neg (head_of_digitRun s (Nat.lt_of_le_of_lt (Nat.zero_le _) hlt))]
      exact h.2 hlt
    | Uint32 x =>
      simp only [bitsOf, intRange, Option.some.injEq, Prod.mk.injEq] at hw hr
      obtain ⟨rfl, rfl⟩ := hr
      subst hw
      have h := ite_cases (fun p => Elem.Uint32 p.1) _ _ _ _ _
        (ParseUint_malformed s hmal 32 (by decide))
      refine ⟨h.1, fun hlt => ?_⟩
      rw [if_neg (head_of_digitRun s (Nat.lt_of_le_of_lt (Nat.zero_le _) hlt))]
      exact h.2 hlt
    | Uint64 x =>
      simp only [bitsOf, intRange, Option.some.injEq, Prod.mk.injEq] at hw hr
      obtain ⟨rfl, rfl⟩ := hr
      subst hw
      have h := ite_cases (fun p => Elem.Uint64 p.1) _ _ _ _ _
        (ParseUint_malformed s hmal 64 (by decide))
      refine ⟨h.1, fun hlt => ?_⟩
      rw [if_neg (head_of_digitRun s (Nat.lt_of_le_of_lt (Nat.zero_le _) hlt))]
      exact h.2 hlt
    | String x => simp [bitsOf] at hw
    | Bool x => simp [bitsOf] at hw
    | Float32 x => simp [bitsOf] at hw
    | Float64 x => simp [bitsOf] at hw
    | Other => simp [bitsOf] at hw
  · intro b hb hs
    subst hb
    simp only [boolLiterals, List.mem_cons, List.mem_singleton, List.not_mem_nil, or_false,
      not_or] at hs
    simp only [setField, ParseBool, List.mem_cons, List.mem_singleton, List.not_mem_nil,
      or_false, hs, if_false]

/-- C3, witness: the raw value "abc" for a 64-bit unsigned variable holding 5432 gives 0, and
the raw value "300abc" for an 8-bit unsigned variable holding 7 gives 255. -/
theorem setField_malformed_sets_zero_witness :
    setField (.Uint64 5432) "abc".toList = setField (.Uint64 0) "abc".toList ∧
      setField (.Uint64 5432) "abc".toList = .Uint64 0 ∧
      setField (.Uint8 7) "300abc".toList = .Uint8 255 :=
  ⟨(setField_malformed_sets_zero (.Uint64 5432) "abc".toList).1,
   ((setField_malformed_sets_zero (.Uint64 5432) "abc".toList).2.2.1 64 0 18446744073709551615
      rfl rfl (by decide)).1 (by decide),
   ((setField_malformed_sets_zero (.Uint8 7) "300abc".toList).2.2.1 8 0 255
      rfl rfl (by decide)).2 (by decide)⟩

/-- C3, counterexample: "abc" does not parse as a 64-bit unsigned number, and `setField`
turns a 64-bit unsigned variable holding 5432 into 0 instead of leaving it at 5432. -/
theorem setField_malformed_not_kept :
    (ParseUint "abc".toList 64).2 = some .ErrSyntax ∧
      setField (.Uint64 5432) "abc".toList = .Uint64 0 ∧
      setField (.Uint64 5432) "abc".toList ≠ .Uint64 5432 := by
  decide

/-! ### The flat-map applier, field by field -/

theorem toNat_ofNat_upper (n : Nat) (h1 : 97 ≤ n) (h2 : n ≤ 122) :
    (Char.ofNat (n - 32)).toNat = n - 32 := by
  interval_cases n <;> rfl

theorem upperChar_upperChar (c : Char) : upperChar (upperChar c) = upperChar c := by
  unfold upperChar
  by_cases h : 97 ≤ c.toNat ∧ c.toNat ≤ 122
  · have h3 := toNat_ofNat_upper c.toNat h.1 h.2
    have h4 : ¬ (97 ≤ (Char.ofNat (c.toNat - 32)).toNat ∧
        (Char.ofNat (c.toNat - 32)).toNat ≤ 122) := by
      rw [h3]; omega
    simp only [h, and_self, if_true, h4, if_false]
  · simp only [h, if_false]

theorem upperChar_toNat_le (c : Char) (h : c.toNat ≤ 127) : (upperChar c).toNat ≤ 127 := by
  unfold upperChar
  by_cases hl : 97 ≤ c.toNat ∧ c.toNat ≤ 122
  · rw [if_pos hl, toNat_ofNat_upper c.toNat hl.1 hl.2]
    omega
  · rw [if_neg hl]
    exact h

theorem unicode_ToUpper_ascii (c : Char) (h : c.toNat ≤ 127) :
    unicode.ToUpper U c = upperChar c := by
  simp only [unicode.ToUpper, toUpperWith, h, if_true]

theorem unicode_ToUpper_above (c : Char) (h : 127 < c.toNat) :
    unicode.ToUpper U c = U.above c := by
  simp only [unicode.ToUpper, toUpperWith, Nat.not_le.mpr h, if_false]

theorem unicode_ToUpper_idem (c : Char) :
    unicode.ToUpper U (unicode.ToUpper U c) = unicode.ToUpper U c := by
  by_cases h : c.toNat ≤ 127
  · rw [unicode_ToUpper_ascii c h, unicode_ToUpper_ascii _ (upperChar_toNat_le c h),
      upperChar_upperChar]
  · rw [unicode_ToUpper_above c (Nat.lt_of_not_le h)]
    exact U.above_upper c (Nat.lt_of_not_le h)

theorem unicode_ToUpper_upperChar (c : Char) :
    unicode.ToUpper U (upperChar c) = unicode.ToUpper U c := by
  by_cases h : c.toNat ≤ 127
  · rw [unicode_ToUpper_ascii c h, unicode_ToUpper_ascii _ (upperChar_toNat_le c h),
      upperChar_upperChar]
  · have hc : upperChar c = c := by
      unfold upperChar
      rw [if_neg (by omega)]
    rw [hc]

theorem ToUpper_ToUpper (s : Str) : ToUpper U (ToUpper U s) = ToUpper U s := by
  simp [ToUpper, List.map_map, Function.comp_def, unicode_ToUpper_idem]

theorem ToUpper_ascii (s : Str) (h : isASCII s = true) : ToUpper U s = s.map upperChar := by
  unfold ToUpper
  apply List.map_congr_left
  intro c hc
  simp only [isASCII, List.all_eq_true, decide_eq_true_eq] at h
  exact unicode_ToUpper_ascii c (h c hc)

theorem assign_Name (f : Field) (v sep : Str) : (assign f v sep).Name = f.Name := by
  unfold assign; cases f.Val <;> rfl

theorem assign_TagGet (f : Field) (v sep : Str) (tag : Tag) :
    (assign f v sep).TagGet tag = f.TagGet tag := by
  unfold assign; cases f.Val <;> cases tag <;> rfl

theorem derivedName_assign (tag : Tag) (pre : Str) (f : Field) (v sep : Str) :
    derivedName U tag pre (assign f v sep) = derivedName U tag pre f := by
  simp [derivedName, assign_Name, assign_TagGet]

theorem separatorOf_assign (tag : Tag) (pre : Str) (f : Field) (v sep : Str) :
    separatorOf U tag pre (assign f v sep) = separatorOf U tag pre f := by
  simp [separatorOf, assign_Name, assign_TagGet]

theorem hits_assign (tag : Tag) (pre : Str) (f : Field) (v sep : Str) (kv : Str × Str) :
    hits U tag pre (assign f v sep) kv = hits U tag pre f kv := by
  simp [hits, derivedName_assign, assign_TagGet]

theorem setValue_eq_map (tag : Tag) (pre value key : Str) (r : Record) :
    setValue U tag pre r key value =
      r.map (fun f =>
        if TrimSpace (f.TagGet tag) ≠ "-".toList ∧
            derivedName U tag pre f = (if tag = .env then ToUpper U key else key) then
          assign f value (separatorOf U tag pre f)
        else f) := by
  unfold setValue
  induction r generalizing key with
  | nil => rfl
  | cons f fs ih =>
    rw [setValueLoop]
    by_cases hx : TrimSpace (f.TagGet tag) = "-".toList
    · simp only [hx, if_true, List.map_cons, ne_eq, not_true_eq_false, false_and, if_false, ih]
    · have hk : (if tag = .env then ToUpper U (if tag = .env then ToUpper U key else key)
          else (if tag = .env then ToUpper U key else key)) =
          (if tag = .env then ToUpper U key else key) := by
        by_cases ht : tag = .env <;> simp [ht, ToUpper_ToUpper]
      simp only [hx, if_false, List.map_cons, ne_eq, not_false_eq_true, true_and,
        derivedName, separatorOf, ih, hk]

theorem map2struct_step (tag : Tag) (pre : Str) (r : Record) (kv : Str × Str) :
    (if ¬ (TrimSpace kv.1).isEmpty ∧ ¬ kv.2.isEmpty then
        setValue U tag pre r (TrimSpace kv.1) kv.2 else r) =
      r.map (fun f => applyEntry U tag pre f kv) := by
  by_cases h : ¬ (TrimSpace kv.1).isEmpty ∧ ¬ kv.2.isEmpty
  · rw [if_pos h, setValue_eq_map]
    apply List.map_congr_left
    intro f _
    simp only [applyEntry, hits, normKey]
    by_cases h1 : TrimSpace (f.TagGet tag) = "-".toList <;>
      by_cases h2 : derivedName U tag pre f =
        (if tag = .env then ToUpper U (TrimSpace kv.1) else TrimSpace kv.1) <;>
      simp [h1, h2, h.1, h.2]
  · rw [if_neg h]
    have : ∀ f, applyEntry U tag pre f kv = f := by
      intro f
      simp only [applyEntry, hits]
      by_cases h1 : (TrimSpace kv.1).isEmpty = true
      · simp [h1]
      · have h2 : kv.2.isEmpty = true := by
          by_contra h2
          exact h ⟨h1, h2⟩
        simp [h2]
    simp [this]

theorem map2struct_fst (tag : Tag) (pre : Str) (mp : List (Str × Str)) (r : Record) :
    (map2struct U tag pre mp r).1 = r.map (fun f => mp.foldl (applyEntry U tag pre) f) := by
  unfold map2struct
  simp only
  induction mp generalizing r with
  | nil => simp
  | cons kv rest ih =>
    rw [List.foldl_cons, map2struct_step, ih]
    simp [List.map_map, Function.comp_def]

theorem map2struct_snd (tag : Tag) (pre : Str) (mp : List (Str × Str)) (r : Record) :
    (map2struct U tag pre mp r).2 = none := rfl

theorem applyEntry_Name (tag : Tag) (pre : Str) (f : Field) (kv : Str × Str) :
    hits U tag pre (applyEntry U tag pre f kv) = hits U tag pre f ∧
      separatorOf U tag pre (applyEntry U tag pre f kv) = separatorOf U tag pre f := by
  unfold applyEntry
  split
  · exact ⟨funext (hits_assign tag pre f _ _), separatorOf_assign tag pre f _ _⟩
  · exact ⟨rfl, rfl⟩

theorem foldl_applyEntry_of_no_hit (tag : Tag) (pre : Str) (mp : List (Str × Str)) (f : Field)
    (h : ∀ kv ∈ mp, hits U tag pre f kv = false) : mp.foldl (applyEntry U tag pre) f = f := by
  induction mp with
  | nil => rfl
  | cons kv rest ih =>
    have h0 : applyEntry U tag pre f kv = f := by
      simp [applyEntry, h kv (List.mem_cons_self _ _)]
    rw [List.foldl_cons, h0]
    exact ih (fun kv hkv => h kv (List.mem_cons_of_mem _ hkv))

theorem foldl_applyEntry_filter (tag : Tag) (pre : Str) (mp : List (Str × Str)) (f : Field) :
    mp.foldl (applyEntry U tag pre) f =
      (mp.filter (hits U tag pre f)).foldl
        (fun g kv => assign g kv.2 (separatorOf U tag pre f)) f := by
  suffices H : ∀ g : Field, hits U tag pre g = hits U tag pre f →
      separatorOf U tag pre g = separatorOf U tag pre f →
      mp.foldl (applyEntry U tag pre) g =
        (mp.filter (hits U tag pre f)).foldl
          (fun g kv => assign g kv.2 (separatorOf U tag pre f)) g from H f rfl rfl
  induction mp with
  | nil => intro g _ _; rfl
  | cons kv rest ih =>
    intro g hg hs
    rw [List.foldl_cons]
    have hstep := @applyEntry_Name U tag pre g kv
    rw [ih _ (hstep.1.trans hg) (hstep.2.trans hs)]
    by_cases hh : hits U tag pre f kv = true
    · have hh2 : hits U tag pre g kv = true := by rw [hg]; exact hh
      simp [List.filter_cons, hh, applyEntry, hh2, hs]
    · have hh2 : ¬ hits U tag pre g kv = true := by rw [hg]; exact hh
      simp [List.filter_cons, hh, applyEntry, hh2]

/-! ### Frame properties -/

theorem hits_false_of_name_ne (tag : Tag) (pre : Str) (f : Field) (kv : Str × Str)
    (h : ¬ kv.2.isEmpty → derivedName U tag pre f ≠ normKey U tag kv.1) :
    hits U tag pre f kv = false := by
  unfold hits
  by_cases h2 : kv.2.isEmpty = true
  · simp [h2]
  · simp [h (by simpa using h2)]

/-- C4: `map2struct` leaves unchanged every field whose derived name is not the trimmed (and,
for `env`, upper-cased) key of any map entry with a non-empty value; and a map none of whose
keys matches any field leaves the whole record unchanged. -/
theorem map2struct_keeps_unmatched (tag : Tag) (pre : Str) (mp : List (Str × Str))
    (r : Record) :
    (∀ (i : Nat) (f : Field), r[i]? = some f →
      (∀ kv ∈ mp, ¬ kv.2.isEmpty → derivedName U tag pre f ≠ normKey U tag kv.1) →
      (map2struct U tag pre mp r).1[i]? = some f) ∧
    ((∀ f ∈ r, ∀ kv ∈ mp, derivedName U tag pre f ≠ normKey U tag kv.1) →
      (map2struct U tag pre mp r).1 = r) := by
  constructor
  · intro i f hf hno
    rw [map2struct_fst, List.getElem?_map, hf, Option.map_some']
    congr 1
    exact foldl_applyEntry_of_no_hit tag pre mp f
      (fun kv hkv => hits_false_of_name_ne tag pre f kv (hno kv hkv))
  · intro hno
    rw [map2struct_fst]
    conv_rhs => rw [← List.map_id r]
    apply List.map_congr_left
    intro f hf
    exact foldl_applyEntry_of_no_hit tag pre mp f
      (fun kv hkv => hits_false_of_name_ne tag pre f kv (fun _ => hno f hf kv hkv))

/-- C4, witness: in the example's record, pre-set with `PostgresHost = "localhost"`, an
environment that provides the user and the port leaves the host at "localhost", and an
environment with no matching key leaves the whole record as it was. -/
theorem map2struct_keeps_unmatched_witness :
    (map2struct sampleCase .env "APP".toList
        [("APP_POSTGRES_USER".toList, "postgres".toList),
         ("app_postgres_port".toList, "5432".toList)] exampleConfig).1[2]? =
      some ⟨"PostgresHost".toList, [], [], [], .scalar (.String "localhost".toList)⟩ ∧
    (map2struct sampleCase .env "APP".toList
        [("HOME".toList, "/root".toList), ("POSTGRES_HOST".toList, "db".toList)]
        exampleConfig).1 = exampleConfig :=
  ⟨(map2struct_keeps_unmatched .env "APP".toList _ exampleConfig).1 2 _ (by decide) (by decide),
   (map2struct_keeps_unmatched .env "APP".toList _ exampleConfig).2 (by decide)⟩

/-- C5: a field whose tag for the source kind is exactly "-" has the same value after
`map2struct` as before, whatever the map holds. -/
theorem map2struct_skips_excluded (tag : Tag) (pre : Str) (mp : List (Str × Str))
    (r : Record) (i : Nat) (f : Field) (hf : r[i]? = some f)
    (hx : f.TagGet tag = "-".toList) :
    (map2struct U tag pre mp r).1[i]? = some f := by
  rw [map2struct_fst, List.getElem?_map, hf, Option.map_some']
  congr 1
  apply foldl_applyEntry_of_no_hit
  intro kv _
  have : TrimSpace (f.TagGet tag) = "-".toList := by rw [hx]; decide
  simp [hits, this]

/-- C5, witness: the field `Version` of the example's record is tagged `env:"-"`; neither the
key it would derive by default nor the key "-" assigns it. -/
theorem map2struct_skips_excluded_witness :
    (map2struct sampleCase .env "APP".toList
        [("APP_VERSION".toList, "1.0".toList), ("-".toList, "2.0".toList),
         ("APP_-".toList, "3.0".toList)] exampleConfig).1[7]? =
      some ⟨"Version".toList, "-".toList, "-".toList, [], .scalar (.String [])⟩ :=
  map2struct_skips_excluded .env "APP".toList _ exampleConfig 7 _ (by decide) (by decide)

/-! ### Two sources in a row -/

theorem assign_scalar (f : Field) (e : Elem) (hf : f.Val = .scalar e) (v sep : Str) :
    assign f v sep = { f with Val := .scalar (setField e v) } := by
  unfold assign; rw [hf]

theorem assign_assign_scalar (f : Field) (e : Elem) (hf : f.Val = .scalar e)
    (x s1 v s2 : Str) : assign (assign f x s1) v s2 = assign f v s2 := by
  rw [assign_scalar f e hf x s1, assign_scalar f e hf v s2]
  rw [assign_scalar _ (setField e x) rfl v s2, setField_setField]

theorem foldl_assign_scalar (f : Field) (e : Elem) (hf : f.Val = .scalar e) (sep : Str)
    (hs : List (Str × Str)) (hne : hs ≠ []) (g : Field)
    (hg : g = f ∨ ∃ x s, g = assign f x s) :
    hs.foldl (fun g kv => assign g kv.2 sep) g = assign f (hs.getLast hne).2 sep := by
  induction hs generalizing g with
  | nil => exact absurd rfl hne
  | cons kv rest ih =>
    have hstep : assign g kv.2 sep = assign f kv.2 sep := by
      rcases hg with rfl | ⟨x, s, rfl⟩
      · rfl
      · exact assign_assign_scalar f e hf x s kv.2 sep
    rw [List.foldl_cons, hstep]
    cases rest with
    | nil => rfl
    | cons kv2 rest2 =>
      rw [ih (List.cons_ne_nil _ _) _ (Or.inr ⟨kv.2, sep, rfl⟩)]
      rfl

theorem foldl_applyEntry_scalar (tag : Tag) (pre : Str) (mp : List (Str × Str)) (f : Field)
    (e : Elem) (hf : f.Val = .scalar e) :
    mp.foldl (applyEntry U tag pre) f = f ∨
      ∃ x s, mp.foldl (applyEntry U tag pre) f = assign f x s := by
  rw [foldl_applyEntry_filter]
  by_cases hne : mp.filter (hits U tag pre f) = []
  · left; rw [hne]; rfl
  · right
    exact ⟨_, _, foldl_assign_scalar f e hf _ _ hne f (Or.inl rfl)⟩

theorem hits_of_eq_or_assign (tag : Tag) (pre : Str) (f g : Field)
    (hg : g = f ∨ ∃ x s, g = assign f x s) :
    hits U tag pre g = hits U tag pre f ∧ separatorOf U tag pre g = separatorOf U tag pre f := by
  rcases hg with rfl | ⟨x, s, rfl⟩
  · exact ⟨rfl, rfl⟩
  · exact ⟨funext (hits_assign tag pre f x s), separatorOf_assign tag pre f x s⟩

theorem foldl_applyEntry_last (tag : Tag) (pre : Str) (mp : List (Str × Str)) (f : Field)
    (e : Elem) (hf : f.Val = .scalar e) (hne : mp.filter (hits U tag pre f) ≠ [])
    (g : Field) (hg : g = f ∨ ∃ x s, g = assign f x s) :
    mp.foldl (applyEntry U tag pre) g =
      { f with Val := .scalar (setField e ((mp.filter (hits U tag pre f)).getLast hne).2) } := by
  have hgf := @hits_of_eq_or_assign U tag pre f g hg
  rw [foldl_applyEntry_filter, hgf.1, hgf.2, foldl_assign_scalar f e hf _ _ hne g hg]
  exact assign_scalar f e hf _ _

/-- C6 (for scalar fields): when two flat-map sources are applied in order through
`Loader.Load` and the second holds a non-empty value under a key matching a scalar field, the
field ends with the value it would have if only the second source had been applied, which is
the coerced value of a matching entry of the second source. -/
theorem Load_last_source_wins_scalar (tag1 tag2 : Tag) (pre1 pre2 : Str)
    (m1 m2 : List (Str × Str)) (msg : Str) (dis : Bool) (osArgs : List Str) (r : Record)
    (i : Nat) (f : Field) (e : Elem)
    (hhelp : helpRequested ⟨[flatMapSource U tag1 pre1 m1, flatMapSource U tag2 pre2 m2], msg, dis⟩
      osArgs = false)
    (hf : r[i]? = some f) (hscalar : f.Val = .scalar e)
    (hsecond : ∃ kv ∈ m2, hits U tag2 pre2 f kv = true) :
    ∃ r12 r2 : Record,
      Loader.Load ⟨[flatMapSource U tag1 pre1 m1, flatMapSource U tag2 pre2 m2], msg, dis⟩
          osArgs r =
        .returned r12 none ∧
      Loader.Load ⟨[flatMapSource U tag2 pre2 m2], msg, dis⟩ osArgs r = .returned r2 none ∧
      r12[i]? = r2[i]? ∧
      ∃ kv ∈ m2, hits U tag2 pre2 f kv = true ∧
        r12[i]? = some { f with Val := .scalar (setField e kv.2) } := by
  have hhelp2 : helpRequested ⟨[flatMapSource U tag2 pre2 m2], msg, dis⟩ osArgs = false := hhelp
  have hne : m2.filter (hits U tag2 pre2 f) ≠ [] := by
    obtain ⟨kv, hkv, hh⟩ := hsecond
    exact List.ne_nil_of_mem (List.mem_filter.mpr ⟨hkv, hh⟩)
  have hmem := List.getLast_mem hne
  rw [List.mem_filter] at hmem
  have h1 := @foldl_applyEntry_scalar U tag1 pre1 m1 f e hscalar
  have e12 : (map2struct U tag2 pre2 m2 (map2struct U tag1 pre1 m1 r).1).1[i]? =
      some { f with
        Val := .scalar (setField e ((m2.filter (hits U tag2 pre2 f)).getLast hne).2) } := by
    rw [map2struct_fst, map2struct_fst, List.getElem?_map, List.getElem?_map, hf,
      Option.map_some', Option.map_some',
      foldl_applyEntry_last tag2 pre2 m2 f e hscalar hne _ h1]
  have e2 : (map2struct U tag2 pre2 m2 r).1[i]? =
      some { f with
        Val := .scalar (setField e ((m2.filter (hits U tag2 pre2 f)).getLast hne).2) } := by
    rw [map2struct_fst, List.getElem?_map, hf, Option.map_some',
      foldl_applyEntry_last tag2 pre2 m2 f e hscalar hne f (Or.inl rfl)]
  refine ⟨(map2struct U tag2 pre2 m2 (map2struct U tag1 pre1 m1 r).1).1,
    (map2struct U tag2 pre2 m2 r).1, ?_, ?_, e12.trans e2.symm, _, hmem.1, hmem.2, e12⟩
  · unfold Loader.Load
    rw [hhelp]
    simp [loadLoop, flatMapSource, map2struct_snd, errCollector.Collect, errCollector.Error]
  · unfold Loader.Load
    rw [hhelp2]
    simp [loadLoop, flatMapSource, map2struct_snd, errCollector.Collect, errCollector.Error]

/-- C6, witness: the environment gives port 5432, the flags give 6543 afterwards. -/
theorem Load_last_source_wins_scalar_witness :
    ∃ r12 r2 : Record,
      Loader.Load ⟨[flatMapSource sampleCase .env "APP".toList
            [("APP_POSTGRES_PORT".toList, "5432".toList)],
          flatMapSource sampleCase .flag [] [("-postgresPort".toList, "6543".toList)]], [], false⟩
          ["app".toList] (testConfig [] [] [] 0 [] [] []) = .returned r12 none ∧
      Loader.Load ⟨[flatMapSource sampleCase .flag [] [("-postgresPort".toList, "6543".toList)]],
          [], false⟩ ["app".toList] (testConfig [] [] [] 0 [] [] []) = .returned r2 none ∧
      r12[3]? = r2[3]? ∧
      ∃ kv ∈ [("-postgresPort".toList, "6543".toList)],
        hits sampleCase .flag [] ⟨"PostgresPort".toList, [], [], [], .scalar (.Uint64 0)⟩ kv =
          true ∧
        r12[3]? = some { (⟨"PostgresPort".toList, [], [], [], .scalar (.Uint64 0)⟩ : Field) with
          Val := .scalar (setField (.Uint64 0) kv.2) } :=
  Load_last_source_wins_scalar .env .flag "APP".toList []
    [("APP_POSTGRES_PORT".toList, "5432".toList)] [("-postgresPort".toList, "6543".toList)]
    [] false ["app".toList] (testConfig [] [] [] 0 [] [] []) 3
    ⟨"PostgresPort".toList, [], [], [], .scalar (.Uint64 0)⟩ (.Uint64 0)
    (by decide) (by decide) rfl (by decide)

/-- C6, counterexample: two flags sources give the sequence field `Slice` the values "a1,a2"
and then "b1"; the field ends as [a1 a2 b1], while the second source alone gives [b1]. -/
theorem Load_last_source_appends_to_slice :
    Loader.Load ⟨[flatMapSource sampleCase .flag [] [("-slice".toList, "a1,a2".toList)],
        flatMapSource sampleCase .flag [] [("-slice".toList, "b1".toList)]], [], false⟩
        ["app".toList] (testConfig [] [] [] 0 [] [] []) =
      .returned (testConfig [] [] [] 0 [] [] ["a1".toList, "a2".toList, "b1".toList]) none ∧
    Loader.Load ⟨[flatMapSource sampleCase .flag [] [("-slice".toList, "b1".toList)]], [], false⟩
        ["app".toList] (testConfig [] [] [] 0 [] [] []) =
      .returned (testConfig [] [] [] 0 [] [] ["b1".toList]) none ∧
    (testConfig [] [] [] 0 [] [] ["a1".toList, "a2".toList, "b1".toList])[6]? ≠
      (testConfig [] [] [] 0 [] [] ["b1".toList])[6]? := by
  decide

/-! ### Name derivation for `env` -/

theorem Index_single (c : Char) (s : Str) :
    Index [c] s = if c ∈ s then some (s.takeWhile (fun d => d != c)).length else none := by
  induction s with
  | nil => simp [Index]
  | cons d t ih =>
    rw [Index, ih]
    by_cases hd : c = d
    · subst hd
      simp [List.isPrefixOf]
    · have hd2 : ¬ d = c := fun h => hd h.symm
      by_cases hc : c ∈ t
      · simp [List.isPrefixOf, hd, hd2, hc, List.takeWhile_cons]
      · simp [List.isPrefixOf, hd, hd2, hc]

theorem take_takeWhile_length (q : Char → Bool) (s : Str) :
    s.take (s.takeWhile q).length = s.takeWhile q := by
  have h := List.takeWhile_prefix q (l := s)
  rw [List.prefix_iff_eq_take] at h
  exact h.symm

theorem tagVal_split (tagVal : Str) :
    (if Contains tagVal ",".toList then (SplitN tagVal ",".toList 2).getD 0 [] else tagVal) =
      overrideName tagVal := by
  have hI := Index_single ',' tagVal
  by_cases hc : ',' ∈ tagVal
  · rw [if_pos hc] at hI
    have hcont : Contains tagVal ",".toList = true := by
      simp [Contains, show ",".toList = [','] from rfl, hI]
    have hlen : 0 < tagVal.length := List.length_pos_of_mem hc
    have hmin : min 2 (tagVal.length + 1) - 1 = 1 := by omega
    rw [if_pos hcont]
    simp only [SplitN, show ",".toList = [','] from rfl, hmin, genSplit, hI]
    simp [overrideName, take_takeWhile_length]
  · rw [if_neg hc] at hI
    have hcont : ¬ Contains tagVal ",".toList = true := by
      simp [Contains, show ",".toList = [','] from rfl, hI]
    rw [if_neg hcont]
    symm
    unfold overrideName
    rw [List.takeWhile_eq_self_iff]
    intro x hx
    have : x ≠ ',' := fun h => hc (h ▸ hx)
    simpa using this

theorem HasSuffix_single (s : Str) (c : Char) :
    HasSuffix s [c] = true ↔ s.getLast? = some c := by
  unfold HasSuffix
  rw [← List.head?_reverse]
  cases s.reverse with
  | nil => simp [List.isPrefixOf]
  | cons d t =>
    simp only [List.reverse_singleton, List.isPrefixOf, Bool.and_true, beq_iff_eq,
      List.head?_cons, Option.some.injEq]
    exact eq_comm

theorem effectivePrefix_eq (pre : Str) :
    (if ¬ pre.isEmpty ∧ ¬ HasSuffix pre "_".toList ∧ ¬ HasSuffix pre "-".toList then
        pre ++ "_".toList else pre) = effectivePrefix pre := by
  unfold effectivePrefix
  have h1 := HasSuffix_single pre '_'
  have h2 := HasSuffix_single pre '-'
  simp only [show "_".toList = ['_'] from rfl, show "-".toList = ['-'] from rfl, h1, h2,
    List.isEmpty_iff, ne_eq]

theorem convertName_env_rule (name tagVal pre : Str) :
    (convertName U name .env tagVal pre).1 = envNameRule U name tagVal (TrimSpace pre) := by
  unfold convertName envNameRule
  simp only [if_true, tagVal_split, effectivePrefix_eq, reduceCtorEq, false_and, if_false]
  generalize effectivePrefix (TrimSpace pre) = p
  generalize overrideName tagVal = ov
  generalize ToScreamingSnake name = dflt
  have hb : (if ¬ ov.isEmpty = true then ov else dflt) = (if ov ≠ [] then ov else dflt) := by
    simp [List.isEmpty_iff]
  rw [hb]
  generalize (if ov ≠ [] then ov else dflt) = base
  simp only [HasPrefix, List.isPrefixOf_iff_prefix, List.isEmpty_iff]
  by_cases hp : p = []
  · simp [hp]
  · by_cases hpre : p <+: base
    · simp [hp, hpre]
    · simp [hp, hpre]

/-! ### ASCII text and the case table -/

/-- Upper-casing outside ASCII, with the sample table: café becomes CAFÉ, and the key
app_poſtgres_user, written with a long s, becomes APP_POSTGRES_USER, the derived name of
`PostgresUser` under the prefix "APP", so that the entry sets the field. -/
theorem ToUpper_outside_ASCII :
    ToUpper sampleCase "café".toList = "CAFÉ".toList ∧
    (convertName sampleCase "Cafe".toList .env "café".toList "APP".toList).1 =
      "APP_CAFÉ".toList ∧
    normKey sampleCase .env "app_poſtgres_user".toList = "APP_POSTGRES_USER".toList ∧
    (map2struct sampleCase .env "APP".toList [("app_poſtgres_user".toList, "x".toList)]
      (testConfig [] [] [] 0 [] [] [])).1 = testConfig "x".toList [] [] 0 [] [] [] := by
  decide

theorem envNameRule_raw (name tagVal pre : Str) :
    envNameRule U name tagVal pre = ToUpper U (envRawName name tagVal pre) := by
  unfold envNameRule envRawName
  simp only
  split_ifs <;> rfl

theorem convertName_snd_table (V : CaseTable) (name : Str) (tag : Tag) (tagVal pre : Str) :
    (convertName U name tag tagVal pre).2 = (convertName V name tag tagVal pre).2 := by
  cases tag <;> rfl

theorem convertName_table (V : CaseTable) (name : Str) (tag : Tag) (tagVal pre : Str)
    (h : tag = .env → isASCII (envRawName name tagVal (TrimSpace pre)) = true) :
    convertName U name tag tagVal pre = convertName V name tag tagVal pre := by
  apply Prod.ext
  · cases tag with
    | env =>
      rw [convertName_env_rule, convertName_env_rule, envNameRule_raw, envNameRule_raw,
        ToUpper_ascii _ (h rfl), ToUpper_ascii _ (h rfl)]
    | dir => rfl
    | flag => rfl
  · exact convertName_snd_table V name tag tagVal pre

theorem mem_of_mem_TrimSpace (s : Str) (c : Char) (h : c ∈ TrimSpace s) : c ∈ s := by
  unfold TrimSpace at h
  rw [List.mem_reverse] at h
  have h1 := (List.dropWhile_sublist isSpace).mem h
  rw [List.mem_reverse] at h1
  exact (List.dropWhile_sublist isSpace).mem h1

theorem isASCII_TrimSpace (s : Str) (h : isASCII s = true) : isASCII (TrimSpace s) = true := by
  simp only [isASCII, List.all_eq_true] at h ⊢
  exact fun c hc => h c (mem_of_mem_TrimSpace s c hc)

theorem normKey_table (V : CaseTable) (tag : Tag) (k : Str)
    (h : tag = .env → isASCII k = true) : normKey U tag k = normKey V tag k := by
  unfold normKey
  by_cases ht : tag = .env
  · rw [if_pos ht, if_pos ht, ToUpper_ascii _ (isASCII_TrimSpace k (h ht)),
      ToUpper_ascii _ (isASCII_TrimSpace k (h ht))]
  · rw [if_neg ht, if_neg ht]

theorem derivedName_table (V : CaseTable) (tag : Tag) (pre : Str) (f : Field)
    (h : tag = .env →
      isASCII (envRawName f.Name (TrimSpace (f.TagGet .env)) (TrimSpace pre)) = true) :
    derivedName U tag pre f = derivedName V tag pre f := by
  unfold derivedName
  rw [convertName_table V _ _ _ _ (fun ht => by subst ht; exact h rfl)]

theorem separatorOf_table (V : CaseTable) (tag : Tag) (pre : Str) (f : Field) :
    separatorOf U tag pre f = separatorOf V tag pre f :=
  convertName_snd_table V _ _ _ _

theorem map2struct_table (V : CaseTable) (tag : Tag) (pre : Str) (mp : List (Str × Str))
    (r : Record) (h : asciiInput tag pre mp r = true) :
    map2struct U tag pre mp r = map2struct V tag pre mp r := by
  have hf : ∀ f ∈ r, tag = .env →
      isASCII (envRawName f.Name (TrimSpace (f.TagGet .env)) (TrimSpace pre)) = true := by
    intro f hf ht
    simp only [asciiInput, ht, ne_eq, not_true_eq_false, decide_False, Bool.false_or,
      Bool.and_eq_true, List.all_eq_true] at h
    exact h.1 f hf
  have hk : ∀ kv ∈ mp, tag = .env → isASCII kv.1 = true := by
    intro kv hkv ht
    simp only [asciiInput, ht, ne_eq, not_true_eq_false, decide_False, Bool.false_or,
      Bool.and_eq_true, List.all_eq_true] at h
    exact h.2 kv hkv
  apply Prod.ext
  · rw [map2struct_fst, map2struct_fst]
    apply List.map_congr_left
    intro f hfr
    rw [@foldl_applyEntry_filter U, @foldl_applyEntry_filter V, separatorOf_table V]
    congr 1
    apply List.filter_congr
    intro kv hkv
    simp only [hits, derivedName_table V tag pre f (hf f hfr),
      normKey_table V tag kv.1 (hk kv hkv)]
  · rfl

/-- C9 (as the code has it): for kind `env`, `convertName` follows the env prefix rule with
the whitespace-trimmed prefix in the place of the prefix; prefix "APP" with the field
`PostgresUser` derives APP_POSTGRES_USER, and so does prefix "APP" with the override
"APP_POSTGRES_USER". -/
theorem convertName_env_prefixed :
    (∀ name tagVal pre : Str,
      (convertName U name .env tagVal pre).1 = envNameRule U name tagVal (TrimSpace pre)) ∧
    (convertName U "PostgresUser".toList .env [] "APP".toList).1 = "APP_POSTGRES_USER".toList ∧
    (convertName U "PostgresUser".toList .env "APP_POSTGRES_USER".toList "APP".toList).1 =
      "APP_POSTGRES_USER".toList :=
  ⟨convertName_env_rule, (by rw [convertName_table sampleCase _ _ _ _ (by decide)]; decide),
    (by rw [convertName_table sampleCase _ _ _ _ (by decide)]; decide)⟩

/-- C9, counterexample: with the prefix "APP " (a trailing blank) the code derives
APP_POSTGRES_USER for the field `PostgresUser`, while the rule applied to the prefix as given
yields "APP _POSTGRES_USER". -/
theorem convertName_env_untrimmed :
    (convertName sampleCase "PostgresUser".toList .env [] "APP ".toList).1 =
      "APP_POSTGRES_USER".toList ∧
    envNameRule sampleCase "PostgresUser".toList [] "APP ".toList = "APP _POSTGRES_USER".toList ∧
    (convertName sampleCase "PostgresUser".toList .env [] "APP ".toList).1 ≠
      envNameRule sampleCase "PostgresUser".toList [] "APP ".toList := by
  decide

/-! ### Default names -/

theorem toNat_ofNat_lower (n : Nat) (h1 : 65 ≤ n) (h2 : n ≤ 90) :
    (Char.ofNat (n + 32)).toNat = n + 32 := by
  interval_cases n <;> rfl

theorem isSepChar_toNat (c : Char) (h : isSepChar c = true) :
    c.toNat = 32 ∨ c.toNat = 95 ∨ c.toNat = 45 ∨ c.toNat = 46 := by
  simp only [isSepChar, Bool.or_eq_true, beq_iff_eq] at h
  rcases h with ((rfl | rfl) | rfl) | rfl <;> decide

theorem isLow_class (c : Char) (h : isLow c = true) :
    isCap c = false ∧ isNum c = false ∧ isSepChar c = false ∧ isSpace c = false ∧
      isCap (upperChar c) = true ∧ isNum (upperChar c) = false ∧
      isSepChar (upperChar c) = false ∧ lowerChar c = c := by
  simp only [isLow, Bool.and_eq_true, decide_eq_true_eq] at h
  have hu := toNat_ofNat_upper c.toNat h.1 h.2
  have hup : (upperChar c).toNat = c.toNat - 32 := by
    unfold upperChar; rw [if_pos h]; exact hu
  refine ⟨?_, ?_, ?_, ?_, ?_, ?_, ?_, ?_⟩
  · simp only [isCap, Bool.and_eq_false_imp, decide_eq_true_eq, decide_eq_false_iff_not]; omega
  · simp only [isNum, Bool.and_eq_false_imp, decide_eq_true_eq, decide_eq_false_iff_not]; omega
  · by_contra hs
    have := isSepChar_toNat c (by simpa using hs)
    omega
  · simp only [isSpace, Bool.or_eq_false_iff, Bool.and_eq_false_imp, beq_eq_false_iff_ne,
      decide_eq_true_eq, decide_eq_false_iff_not]
    omega
  · simp only [isCap, hup, Bool.and_eq_true, decide_eq_true_eq]; omega
  · simp only [isNum, hup, Bool.and_eq_false_imp, decide_eq_true_eq, decide_eq_false_iff_not]
    omega
  · by_contra hs
    have := isSepChar_toNat (upperChar c) (by simpa using hs)
    omega
  · unfold lowerChar
    rw [if_neg (by omega)]

theorem isCap_class (c : Char) (h : isCap c = true) :
    isLow c = false ∧ isNum c = false ∧ isSepChar c = false ∧ isSpace c = false ∧
      isLow (lowerChar c) = true ∧ isNum (lowerChar c) = false ∧
      isSepChar (lowerChar c) = false ∧ upperChar c = c := by
  simp only [isCap, Bool.and_eq_true, decide_eq_true_eq] at h
  have hu := toNat_ofNat_lower c.toNat h.1 h.2
  have hlo : (lowerChar c).toNat = c.toNat + 32 := by
    unfold lowerChar; rw [if_pos h]; exact hu
  refine ⟨?_, ?_, ?_, ?_, ?_, ?_, ?_, ?_⟩
  · simp only [isLow, Bool.and_eq_false_imp, decide_eq_true_eq, decide_eq_false_iff_not]; omega
  · simp only [isNum, Bool.and_eq_false_imp, decide_eq_true_eq, decide_eq_false_iff_not]; omega
  · by_contra hs
    have := isSepChar_toNat c (by simpa using hs)
    omega
  · simp only [isSpace, Bool.or_eq_false_iff, Bool.and_eq_false_imp, beq_eq_false_iff_ne,
      decide_eq_true_eq, decide_eq_false_iff_not]
    omega
  · simp only [isLow, hlo, Bool.and_eq_true, decide_eq_true_eq]; omega
  · simp only [isNum, hlo, Bool.and_eq_false_imp, decide_eq_true_eq, decide_eq_false_iff_not]
    omega
  · by_contra hs
    have := isSepChar_toNat (lowerChar c) (by simpa using hs)
    omega
  · unfold upperChar
    rw [if_neg (by omega)]

theorem caseOf_low (scr : Bool) (c : Char) (h : isLow c = true) :
    (if isLow c && scr then upperChar c else if isCap c && !scr then lowerChar c else c) =
      caseOf scr c ∧ isNum (caseOf scr c) = false ∧ isSepChar (caseOf scr c) = false := by
  have hc := isLow_class c h
  cases scr
  · simp [caseOf, h, hc.1, hc.2.1, hc.2.2.1, hc.2.2.2.2.2.2.2]
  · simp [caseOf, h, hc.2.2.2.2.2.1, hc.2.2.2.2.2.2.1]

theorem caseOf_cap (scr : Bool) (c : Char) (h : isCap c = true) :
    (if isLow c && scr then upperChar c else if isCap c && !scr then lowerChar c else c) =
      caseOf scr c ∧ isNum (caseOf scr c) = false ∧ isSepChar (caseOf scr c) = false := by
  have hc := isCap_class c h
  cases scr
  · simp [caseOf, h, hc.1, hc.2.2.2.2.2.1, hc.2.2.2.2.2.2.1]
  · simp [caseOf, h, hc.1, hc.2.1, hc.2.2.1, hc.2.2.2.2.2.2.2]

theorem screamingLoop_last (d : Char) (scr : Bool) (prev : Option Char) (a : Char)
    (ha : isLow a = true) :
    screamingLoop d [] scr prev [a] = [caseOf scr a] := by
  have h1 := caseOf_low scr a ha
  simp only [screamingLoop, List.head?_nil, h1.1]
  simp only [h1.2.2]
  simp

theorem screamingLoop_low_low (d : Char) (scr : Bool) (prev : Option Char) (a b : Char)
    (t : Str) (ha : isLow a = true) (hb : isLow b = true) :
    screamingLoop d [] scr prev (a :: b :: t) =
      caseOf scr a :: screamingLoop d [] scr (some a) (b :: t) := by
  have h1 := caseOf_low scr a ha
  have hca := isLow_class a ha
  have hcb := isLow_class b hb
  rw [screamingLoop]
  simp only [List.head?_cons, h1.1]
  simp only [h1.2.1, h1.2.2, ha, hb, hca.1, hcb.1, hcb.2.1]
  simp

theorem screamingLoop_low_cap (d : Char) (scr : Bool) (prev : Option Char) (a b : Char)
    (t : Str) (ha : isLow a = true) (hb : isCap b = true) :
    screamingLoop d [] scr prev (a :: b :: t) =
      caseOf scr a :: d :: screamingLoop d [] scr (some a) (b :: t) := by
  have h1 := caseOf_low scr a ha
  have hca := isLow_class a ha
  have hcb := isCap_class b hb
  rw [screamingLoop]
  simp only [List.head?_cons, h1.1]
  simp only [h1.2.1, h1.2.2, ha, hb, hca.1, hcb.1, hcb.2.1]
  simp

theorem screamingLoop_cap_low (d : Char) (scr : Bool) (prev : Option Char) (a b : Char)
    (t : Str) (ha : isCap a = true) (hb : isLow b = true)
    (hprev : (prev.map isCap).getD false = false) :
    screamingLoop d [] scr prev (a :: b :: t) =
      caseOf scr a :: screamingLoop d [] scr (some a) (b :: t) := by
  have h1 := caseOf_cap scr a ha
  have hca := isCap_class a ha
  have hcb := isLow_class b hb
  rw [screamingLoop]
  simp only [List.head?_cons, h1.1]
  simp only [h1.2.1, h1.2.2, ha, hb, hca.1, hcb.1, hcb.2.1, hprev]
  simp

theorem isCapWord_cases (w : Str) (h : isCapWord w = true) :
    ∃ u l ls, w = u :: l :: ls ∧ isCap u = true ∧ isLow l = true ∧
      ∀ c ∈ ls, isLow c = true := by
  match w, h with
  | u :: l :: ls, h =>
    simp only [isCapWord, List.all_cons, Bool.and_eq_true, List.all_eq_true] at h
    exact ⟨u, l, ls, rfl, h.1, h.2.1, h.2.2⟩

theorem screamingLoop_lows (d : Char) (scr : Bool) (R X : Str)
    (hR : (R = [] ∧ X = []) ∨
      ((∃ c t, R = c :: t ∧ isCap c = true) ∧
        ∀ prev : Option Char, (prev.map isCap).getD false = false →
          d :: screamingLoop d [] scr prev R = X))
    (ls : Str) (hls : ∀ c ∈ ls, isLow c = true) (a : Char) (ha : isLow a = true)
    (prev : Option Char) :
    screamingLoop d [] scr prev (a :: (ls ++ R)) =
      caseOf scr a :: (ls.map (caseOf scr) ++ X) := by
  induction ls generalizing a prev with
  | nil =>
    rcases hR with ⟨rfl, rfl⟩ | ⟨⟨c, t, rfl, hc⟩, hX⟩
    · simpa using screamingLoop_last d scr prev a ha
    · have hprev : ((some a).map isCap).getD false = false := by
        simpa using (isLow_class a ha).1
      rw [List.nil_append, screamingLoop_low_cap d scr prev a c t ha hc, hX (some a) hprev]
      simp
  | cons b ls ih =>
    have hb := hls b (List.mem_cons_self _ _)
    rw [List.cons_append, screamingLoop_low_low d scr prev a b _ ha hb,
      ih (fun c hc => hls c (List.mem_cons_of_mem _ hc)) b hb]
    simp

theorem screamingLoop_words (d : Char) (scr : Bool) (words : List Str)
    (hw : ∀ w ∈ words, isCapWord w = true) (prev : Option Char)
    (hprev : (prev.map isCap).getD false = false) :
    screamingLoop d [] scr prev words.flatten =
      [d].intercalate (words.map (fun w => w.map (caseOf scr))) := by
  induction words generalizing prev with
  | nil => simp [screamingLoop, List.intercalate]
  | cons w ws ih =>
    obtain ⟨u, l, ls, rfl, hu, hl, hls⟩ := isCapWord_cases w (hw w (List.mem_cons_self _ _))
    have hws : ∀ w ∈ ws, isCapWord w = true := fun w h => hw w (List.mem_cons_of_mem _ h)
    rw [List.flatten_cons, List.cons_append, List.cons_append,
      screamingLoop_cap_low d scr prev u l _ hu hl hprev]
    cases ws with
    | nil =>
      rw [List.flatten_nil, screamingLoop_lows d scr [] [] (Or.inl ⟨rfl, rfl⟩) ls hls l hl]
      simp [List.intercalate]
    | cons w2 ws2 =>
      obtain ⟨u2, l2, ls2, rfl, hu2, _, _⟩ := isCapWord_cases w2 (hws w2 (List.mem_cons_self _ _))
      rw [screamingLoop_lows d scr ((u2 :: l2 :: ls2) :: ws2).flatten
        (d :: [d].intercalate (((u2 :: l2 :: ls2) :: ws2).map (fun w => w.map (caseOf scr))))
        (Or.inr ⟨⟨u2, l2 :: (ls2 ++ ws2.flatten), by simp, hu2⟩,
          fun prev hp => by rw [ih hws prev hp]⟩) ls hls l hl]
      simp [List.intercalate, List.intersperse]

theorem dropWhile_of_all_false (q : Char → Bool) (s : Str) (h : ∀ c ∈ s, q c = false) :
    s.dropWhile q = s := by
  cases s with
  | nil => rfl
  | cons c t => simp [List.dropWhile, h c (List.mem_cons_self _ _)]

theorem TrimSpace_of_no_space (s : Str) (h : ∀ c ∈ s, isSpace c = false) : TrimSpace s = s := by
  unfold TrimSpace
  rw [dropWhile_of_all_false isSpace s h,
    dropWhile_of_all_false isSpace s.reverse (fun c hc => h c (List.mem_reverse.mp hc)),
    List.reverse_reverse]

theorem capWords_letters (words : List Str) (hw : ∀ w ∈ words, isCapWord w = true) :
    ∀ c ∈ words.flatten, isCap c = true ∨ isLow c = true := by
  intro c hc
  rw [List.mem_flatten] at hc
  obtain ⟨w, hwm, hcw⟩ := hc
  obtain ⟨u, l, ls, rfl, hu, hl, hls⟩ := isCapWord_cases w (hw w hwm)
  rcases List.mem_cons.mp hcw with rfl | hcw
  · exact Or.inl hu
  · rcases List.mem_cons.mp hcw with rfl | hcw
    · exact Or.inr hl
    · exact Or.inr (hls c hcw)

theorem capWords_no_space (words : List Str) (hw : ∀ w ∈ words, isCapWord w = true) :
    ∀ c ∈ words.flatten, isSpace c = false := by
  intro c hc
  rcases capWords_letters words hw c hc with h | h
  · exact (isCap_class c h).2.2.2.1
  · exact (isLow_class c h).2.2.2.1

theorem caseOf_true : caseOf true = upperChar := by
  funext c; simp [caseOf]

theorem caseOf_false : caseOf false = lowerChar := by
  funext c; simp [caseOf]

theorem ToScreamingSnake_words (words : List Str) (hw : ∀ w ∈ words, isCapWord w = true) :
    ToScreamingSnake words.flatten = Join (words.map (List.map upperChar)) "_".toList := by
  unfold ToScreamingSnake ToScreamingDelimited
  rw [TrimSpace_of_no_space _ (capWords_no_space words hw),
    screamingLoop_words '_' true words hw none rfl, caseOf_true]
  rfl

theorem ToKebab_words (words : List Str) (hw : ∀ w ∈ words, isCapWord w = true) :
    ToKebab words.flatten = Join (words.map ToLower) "-".toList := by
  unfold ToKebab ToScreamingDelimited
  rw [TrimSpace_of_no_space _ (capWords_no_space words hw),
    screamingLoop_words '-' false words hw none rfl, caseOf_false]
  rfl

theorem pairsOk_of_append (p q : Str) (h : pairsOk (p ++ q) = true) : pairsOk p = true := by
  induction p with
  | nil => rfl
  | cons a p ih =>
    cases p with
    | nil => rfl
    | cons b t =>
      simp only [List.cons_append, pairsOk, Bool.and_eq_true] at h ⊢
      exact ⟨h.1, ih h.2⟩

theorem pairsOk_lows (R : Str) (hR : pairsOk R = true) (ls : Str)
    (hls : ∀ c ∈ ls, isLow c = true) (a : Char) (ha : isLow a = true) :
    pairsOk (a :: (ls ++ R)) = true := by
  induction ls generalizing a with
  | nil =>
    cases R with
    | nil => rfl
    | cons c t => simp [pairsOk, (isLow_class a ha).1, hR]
  | cons b ls ih =>
    simp only [List.cons_append, pairsOk, (isLow_class a ha).1, Bool.not_false, Bool.true_or,
      Bool.true_and]
    exact ih (fun c hc => hls c (List.mem_cons_of_mem _ hc)) b (hls b (List.mem_cons_self _ _))

theorem pairsOk_words (words : List Str) (hw : ∀ w ∈ words, isCapWord w = true) :
    pairsOk words.flatten = true := by
  induction words with
  | nil => rfl
  | cons w ws ih =>
    obtain ⟨u, l, ls, rfl, _, hl, hls⟩ := isCapWord_cases w (hw w (List.mem_cons_self _ _))
    have hR := ih (fun w h => hw w (List.mem_cons_of_mem _ h))
    rw [List.flatten_cons, List.cons_append, List.cons_append, pairsOk,
      pairsOk_lows _ hR ls hls l hl, hl]
    simp

theorem HasPrefix_false_of_pairsOk (name acron : Str) (hn : pairsOk name = true)
    (ha : pairsOk acron = false) : HasPrefix name acron = false := by
  by_contra h
  rw [Bool.not_eq_false, HasPrefix, List.isPrefixOf_iff_prefix] at h
  obtain ⟨t, rfl⟩ := h
  rw [pairsOk_of_append acron t hn] at ha
  exact Bool.noConfusion ha

theorem replaceAcronims_none (name : Str) (acrons : List Str)
    (h : ∀ a ∈ acrons, HasPrefix name a = false) : replaceAcronims name acrons = name := by
  induction acrons with
  | nil => rfl
  | cons a rest ih =>
    rw [replaceAcronims, h a (List.mem_cons_self _ _)]
    exact ih (fun b hb => h b (List.mem_cons_of_mem _ hb))

theorem lookup_none (tbl : List (Str × Str)) (name : Str) (h : ∀ kv ∈ tbl, kv.1 ≠ name) :
    tbl.lookup name = none := by
  induction tbl with
  | nil => rfl
  | cons kv rest ih =>
    obtain ⟨k, v⟩ := kv
    have hk : (name == k) = false := by
      have hne : k ≠ name := h (k, v) (List.mem_cons_self _ _)
      rw [beq_eq_false_iff_ne]
      exact fun heq => hne heq.symm
    rw [List.lookup, hk]
    exact ih (fun kv hkv => h kv (List.mem_cons_of_mem _ hkv))

theorem camelLoop_letters (s : Str) (hs : ∀ c ∈ s, isCap c = true ∨ isLow c = true) :
    camelLoop false false s = s := by
  induction s with
  | nil => rfl
  | cons c t ih =>
    have hc : (isCap c || isLow c) = true := by
      rcases hs c (List.mem_cons_self _ _) with h | h <;> simp [h]
    rw [camelLoop]
    simp only [Bool.false_eq_true, if_false, hc, if_true]
    rw [ih (fun d hd => hs d (List.mem_cons_of_mem _ hd))]

theorem camelLoop_first (u : Char) (t : Str) (hu : isCap u = true)
    (ht : ∀ c ∈ t, isCap c = true ∨ isLow c = true) :
    camelLoop true false (u :: t) = lowerChar u :: t := by
  rw [camelLoop]
  simp only [Bool.false_eq_true, if_false, hu, if_true, Bool.true_or]
  rw [camelLoop_letters t ht]

theorem ToLowerCamel_words (words : List Str) (hw : ∀ w ∈ words, isCapWord w = true) :
    '-' :: ToLowerCamel uppercaseAcronym (replaceAcronims words.flatten Acronims) =
      '-' :: lowerFirst words.flatten := by
  have hpairs := pairsOk_words words hw
  have hrep : replaceAcronims words.flatten Acronims = words.flatten := by
    apply replaceAcronims_none
    intro a ha
    apply HasPrefix_false_of_pairsOk _ _ hpairs
    revert a
    decide
  have hlook : uppercaseAcronym.lookup words.flatten = none := by
    apply lookup_none
    intro kv hkv heq
    have hbad : ∀ kv ∈ uppercaseAcronym, pairsOk kv.1 = false := by decide
    rw [← heq, hbad kv hkv] at hpairs
    exact Bool.noConfusion hpairs
  rw [hrep]
  unfold ToLowerCamel toCamelInitCase
  simp only [TrimSpace_of_no_space _ (capWords_no_space words hw), hlook]
  have hlet := capWords_letters _ hw
  cases hflat : words.flatten with
  | nil => rfl
  | cons u t =>
    rw [hflat] at hlet
    have hu : isCap u = true := by
      cases words with
      | nil => simp at hflat
      | cons w ws =>
        obtain ⟨u2, l, ls, rfl, hu2, _, _⟩ := isCapWord_cases w (hw w (List.mem_cons_self _ _))
        simp only [List.flatten_cons, List.cons_append, List.cons.injEq] at hflat
        rw [← hflat.1]
        exact hu2
    simp only [List.isEmpty_cons, Bool.false_eq_true, if_false, lowerFirst]
    rw [camelLoop_first u t hu (fun c hc => hlet c (List.mem_cons_of_mem _ hc))]

theorem convertName_plain (name : Str) :
    (convertName U name .env [] []).1 = ToUpper U (ToScreamingSnake name) ∧
    (convertName U name .dir [] []).1 = ToKebab name ∧
    (convertName U name .flag [] []).1 =
      '-' :: ToLowerCamel uppercaseAcronym (replaceAcronims name Acronims) :=
  ⟨rfl, rfl, rfl⟩

theorem map_intersperse_str (f : Str → Str) (sep : Str) :
    ∀ l : List Str, (l.intersperse sep).map f = (l.map f).intersperse (f sep)
  | [] => rfl
  | [_] => rfl
  | x :: y :: zs => by
    simp only [List.intersperse, List.map_cons, List.cons.injEq, true_and]
    exact map_intersperse_str f sep (y :: zs)

theorem ToUpper_Join_upper (xs : List Str) :
    ToUpper U (Join (xs.map (List.map upperChar)) "_".toList) =
      Join (xs.map (ToUpper U)) "_".toList := by
  have h : ∀ ys : List Str,
      ToUpper U (Join ys "_".toList) = Join (ys.map (ToUpper U)) "_".toList := by
    intro ys
    simp only [Join, List.intercalate, ToUpper, List.map_flatten]
    rw [map_intersperse_str]
    rfl
  rw [h, List.map_map]
  congr 1
  apply List.map_congr_left
  intro x _
  simp [ToUpper, List.map_map, Function.comp_def, unicode_ToUpper_upperChar]

/-- C10: with no override and an empty prefix, for every declared name that is a
concatenation of capitalised words `convertName` derives the words upper-cased and joined by
"_" for `env`, the words lower-cased and joined by "-" for `dir`, and "-" followed by the name
with its first letter lower-cased for `flag`; and `PostgresDBName` gives POSTGRES_DB_NAME,
postgres-db-name and -postgresDBName. -/
theorem convertName_default_names :
    (∀ words : List Str, (∀ w ∈ words, isCapWord w = true) →
      (convertName U words.flatten .env [] []).1 = Join (words.map (ToUpper U)) "_".toList ∧
      (convertName U words.flatten .dir [] []).1 = Join (words.map ToLower) "-".toList ∧
      (convertName U words.flatten .flag [] []).1 = '-' :: lowerFirst words.flatten) ∧
    (convertName U "PostgresDBName".toList .env [] []).1 = "POSTGRES_DB_NAME".toList ∧
    (convertName U "PostgresDBName".toList .dir [] []).1 = "postgres-db-name".toList ∧
    (convertName U "PostgresDBName".toList .flag [] []).1 = "-postgresDBName".toList := by
  refine ⟨?_, (by rw [convertName_table sampleCase _ _ _ _ (by decide)]; decide),
    (by rw [convertName_table sampleCase _ _ _ _ (by decide)]; decide),
    (by rw [convertName_table sampleCase _ _ _ _ (by decide)]; decide)⟩
  intro words hw
  have hp := @convertName_plain U words.flatten
  refine ⟨?_, ?_, ?_⟩
  · rw [hp.1, ToScreamingSnake_words words hw, ToUpper_Join_upper]
  · rw [hp.2.1, ToKebab_words words hw]
  · rw [hp.2.2, ToLowerCamel_words words hw]

/-- C10, witness: the declared name `PostgresHost`, the words Postgres and Host. -/
theorem convertName_default_names_witness :
    (convertName sampleCase ["Postgres".toList, "Host".toList].flatten .env [] []).1 =
        Join (["Postgres".toList, "Host".toList].map (ToUpper sampleCase)) "_".toList ∧
      (convertName sampleCase ["Postgres".toList, "Host".toList].flatten .dir [] []).1 =
        Join (["Postgres".toList, "Host".toList].map ToLower) "-".toList ∧
      (convertName sampleCase ["Postgres".toList, "Host".toList].flatten .flag [] []).1 =
        '-' :: lowerFirst ["Postgres".toList, "Host".toList].flatten :=
  convertName_default_names.1 ["Postgres".toList, "Host".toList] (by decide)

/-! ### The fixtures of the tests -/

theorem parseUintLoop_decimal (s : Str) (n : Nat) (hs : ∀ c ∈ s, isNum c = true)
    (hlt : s.foldl (fun n c => 10 * n + (c.toNat - 48)) n < 2 ^ 64) :
    parseUintLoop (2 ^ 64 - 1) n s = (s.foldl (fun n c => 10 * n + (c.toNat - 48)) n, none) := by
  induction s generalizing n with
  | nil => rfl
  | cons c rest ih =>
    have hc := hs c (List.mem_cons_self _ _)
    simp only [isNum, Bool.and_eq_true, decide_eq_true_eq] at hc
    rw [List.foldl_cons] at hlt ⊢
    have hge := decimal_foldl_ge rest (10 * n + (c.toNat - 48))
    have hpow : (2 : Nat) ^ 64 = 18446744073709551616 := by norm_num
    rw [hpow] at hlt
    have hn : 10 * n + (c.toNat - 48) < 18446744073709551616 := Nat.lt_of_le_of_lt hge hlt
    rw [parseUintLoop]
    simp only [hc, and_self, if_true, hpow]
    have h1 : ¬ (c.toNat - 48 ≥ 10) := by omega
    have h2 : ¬ (n ≥ (18446744073709551616 - 1) / 10 + 1) := by omega
    have h3 : n * 10 % 18446744073709551616 = n * 10 := Nat.mod_eq_of_lt (by omega)
    have h4 : (n * 10 + (c.toNat - 48)) % 18446744073709551616 = 10 * n + (c.toNat - 48) := by
      rw [Nat.mod_eq_of_lt (by omega)]; omega
    have h5 : ¬ (10 * n + (c.toNat - 48) < n * 10 ∨
        10 * n + (c.toNat - 48) > 18446744073709551616 - 1) := by omega
    simp only [h1, h2, h3, h4, h5, if_false]
    rw [← hpow]
    exact ih _ (fun d hd => hs d (List.mem_cons_of_mem _ hd)) (by rw [hpow]; exact hlt)

theorem ParseUint_decimal (s : Str) (hs : isDecimal s = true) (hlt : decimalValue s < 2 ^ 64) :
    ParseUint s 64 = (decimalValue s, none) := by
  simp only [isDecimal, Bool.and_eq_true, Bool.not_eq_true', List.all_eq_true] at hs
  unfold ParseUint
  rw [if_neg (by simp [hs.1])]
  exact parseUintLoop_decimal s 0 hs.2 hlt

theorem filter_eq_singleton (m : List (Str × Str)) (q : Str × Str → Bool) (k v : Str)
    (hnd : (m.map Prod.fst).Nodup) (hmem : (k, v) ∈ m) (hq : q (k, v) = true)
    (honly : ∀ kv ∈ m, q kv = true → kv.1 = k) : m.filter q = [(k, v)] := by
  induction m with
  | nil => simp at hmem
  | cons e rest ih =>
    rw [List.map_cons, List.nodup_cons] at hnd
    have hrest_only : ∀ kv ∈ rest, q kv = true → kv.1 = k :=
      fun kv hkv => honly kv (List.mem_cons_of_mem _ hkv)
    rcases List.mem_cons.mp hmem with heq | hin
    · subst heq
      have hnone : rest.filter q = [] := by
        rw [List.filter_eq_nil_iff]
        intro kv hkv hqkv
        exact hnd.1 (List.mem_map.mpr ⟨kv, hkv, hrest_only kv hkv hqkv⟩)
      rw [List.filter_cons, if_pos hq, hnone]
    · have hqe : ¬ q e = true := by
        intro hqe
        have hk := honly e (List.mem_cons_self _ _) hqe
        exact hnd.1 (List.mem_map.mpr ⟨(k, v), hin, hk.symm⟩)
      rw [List.filter_cons, if_neg hqe]
      exact ih hnd.2 hin hrest_only

theorem fold_unique_hit (tag : Tag) (pre : Str) (m : List (Str × Str)) (f : Field)
    (k v : Str) (hnd : (m.map Prod.fst).Nodup) (hmem : (k, v) ∈ m)
    (hhit : hits U tag pre f (k, v) = true)
    (honly : ∀ kv ∈ m, hits U tag pre f kv = true → kv.1 = k) :
    m.foldl (applyEntry U tag pre) f = assign f v (separatorOf U tag pre f) := by
  rw [foldl_applyEntry_filter, filter_eq_singleton m _ k v hnd hmem hhit honly]
  rfl

theorem hits_normKey (tag : Tag) (pre : Str) (f : Field) (kv : Str × Str)
    (h : hits U tag pre f kv = true) : normKey U tag kv.1 = derivedName U tag pre f := by
  simp only [hits, Bool.and_eq_true, decide_eq_true_eq] at h
  exact h.2.symm

theorem hits_of_key (tag : Tag) (pre : Str) (f : Field) (k v : Str) (hv : v ≠ [])
    (hk : (TrimSpace k).isEmpty = false) (hx : TrimSpace (f.TagGet tag) ≠ "-".toList)
    (hname : derivedName U tag pre f = normKey U tag k) : hits U tag pre f (k, v) = true := by
  simpa [hits, hk, hv, hname] using hx

theorem setSlice_String (value separator : Str) :
    setSlice (.String []) [] value separator =
      (Split value (if separator.isEmpty then ":".toList else separator)).map .String := by
  unfold setSlice
  have h : ∀ (parts : List Str) (init : List Elem),
      parts.foldl (fun slice part => slice ++ [setField (.String []) part]) init =
        init ++ parts.map .String := by
    intro parts
    induction parts with
    | nil => intro init; simp
    | cons part rest ih => intro init; rw [List.foldl_cons, ih]; simp [setField]
  rw [h]
  rfl

theorem fixture_field (tag : Tag) (pre : Str) (keys : List Str)
    (hkeys : ∀ k ∈ keys, normKey U tag k = k ∧ (TrimSpace k).isEmpty = false)
    (m : List (Str × Str)) (f : Field) (k v : Str)
    (hnd : (m.map Prod.fst).Nodup) (hmem : (k, v) ∈ m) (hv : v ≠ [])
    (hother : ∀ kv ∈ m, normKey U tag kv.1 ∈ keys → kv.1 ∈ keys)
    (hk : k ∈ keys) (hx : TrimSpace (f.TagGet tag) ≠ "-".toList)
    (hname : derivedName U tag pre f = k) :
    m.foldl (applyEntry U tag pre) f = assign f v (separatorOf U tag pre f) := by
  have hnk := (hkeys k hk).1
  apply fold_unique_hit tag pre m f k v hnd hmem
  · exact hits_of_key tag _ f k v hv (hkeys k hk).2 hx (hname.trans hnk.symm)
  · intro kv hkv hh
    have h1 := hits_normKey tag _ f kv hh
    rw [hname] at h1
    have h2 := hother kv hkv (h1 ▸ hk)
    rw [← (hkeys kv.1 h2).1]
    exact h1

theorem envKeys_normKey :
    ∀ k ∈ envKeys, normKey U .env k = k ∧ (TrimSpace k).isEmpty = false := by
  intro k hk
  have h : ∀ k ∈ envKeys, isASCII k = true ∧ normKey sampleCase .env k = k ∧
      (TrimSpace k).isEmpty = false := by decide
  exact ⟨(normKey_table sampleCase .env k (fun _ => (h k hk).1)).trans (h k hk).2.1,
    (h k hk).2.2⟩

/-- C7 (as the code has it): from a zero record of the tests' `Config` shape, an environment
map that holds non-empty values under the seven keys of the fixture, the port being a text of
decimal digits that denotes a number below 2^64, and no other key that trimmed and upper-cased
is one of the seven, applied with prefix "APP", returns no error, sets every string field to
the value under its key, `PostgresPort` to the number the port text denotes and `Slice` to the
parts of the APP_SLICE value split on ":". -/
theorem env_fixture_loaded (m : List (Str × Str))
    (user password host port dbName sslMode slice : Str)
    (h : envFixture (normKey U .env) m user password host port dbName sslMode slice)
    (hdec : isDecimal port = true) (hlt : decimalValue port < 2 ^ 64) :
    map2struct U .env "APP".toList m (testConfig [] [] [] 0 [] [] []) =
      (testConfig user password host (decimalValue port) dbName sslMode
        (Split slice ":".toList), none) := by
  obtain ⟨hnd, m1, m2, m3, m4, m5, m6, m7, n1, n2, n3, n4, n5, n6, n7, hother⟩ := h
  apply Prod.ext
  · rw [map2struct_fst]
    simp only [testConfig, List.map_cons, List.map_nil]
    have key := @fixture_field U .env "APP".toList envKeys (@envKeys_normKey U) m
    rw [key _ _ user hnd m1 n1 hother (by decide) (by decide)
        (by rw [derivedName_table sampleCase _ _ _ (by decide)]; decide),
      key _ _ password hnd m2 n2 hother (by decide) (by decide)
        (by rw [derivedName_table sampleCase _ _ _ (by decide)]; decide),
      key _ _ host hnd m3 n3 hother (by decide) (by decide)
        (by rw [derivedName_table sampleCase _ _ _ (by decide)]; decide),
      key _ _ port hnd m4 n4 hother (by decide) (by decide)
        (by rw [derivedName_table sampleCase _ _ _ (by decide)]; decide),
      key _ _ dbName hnd m5 n5 hother (by decide) (by decide)
        (by rw [derivedName_table sampleCase _ _ _ (by decide)]; decide),
      key _ _ sslMode hnd m6 n6 hother (by decide) (by decide)
        (by rw [derivedName_table sampleCase _ _ _ (by decide)]; decide),
      key _ _ slice hnd m7 n7 hother (by decide) (by decide)
        (by rw [derivedName_table sampleCase _ _ _ (by decide)]; decide)]
    have hsep : separatorOf U .env "APP".toList
        ⟨"Slice".toList, "slice,:".toList, [], [], .slice (.String []) []⟩ = ":".toList := by
      rw [separatorOf_table sampleCase]
      decide
    simp only [assign, setField, hsep, setSlice_String, ParseUint_decimal port hdec hlt]
    rfl
  · rfl

/-- C7, witness: the environment of `TestEnvSourceLoader`. -/
theorem env_fixture_loaded_witness :
    envFixture (normKey sampleCase .env) testEnviron "postgres".toList "password".toList
        "localhost".toList "5432".toList "db-name".toList "disable".toList
        "a1:a2:a3:a4:a5".toList ∧
      map2struct sampleCase .env "APP".toList testEnviron (testConfig [] [] [] 0 [] [] []) =
        (testConfig "postgres".toList "password".toList "localhost".toList 5432
          "db-name".toList "disable".toList
          ["a1".toList, "a2".toList, "a3".toList, "a4".toList, "a5".toList], none) :=
  ⟨by unfold envFixture; split_ands <;> decide,
   env_fixture_loaded testEnviron "postgres".toList "password".toList "localhost".toList
     "5432".toList "db-name".toList "disable".toList "a1:a2:a3:a4:a5".toList
     (by unfold envFixture; split_ands <;> decide) (by decide) (by decide)⟩

/-- C7, counterexample.  First, the environment of the test with one more variable, named
" APP_POSTGRES_USER" with a leading blank: no key but the seven upper-cases to one of the
seven, yet the applier trims the key and `PostgresUser` ends as "intruder", not as the value
"postgres" under APP_POSTGRES_USER.  Second, the environment of the test with the port text
18446744073709551616: `PostgresPort` ends as 18446744073709551615, not as the number the text
denotes.  Third, with the port text +5432: `PostgresPort` ends as 0. -/
theorem env_fixture_not_as_claimed :
    (envFixture (ToUpper sampleCase)
        (testEnviron ++ [(" APP_POSTGRES_USER".toList, "intruder".toList)])
        "postgres".toList "password".toList "localhost".toList "5432".toList
        "db-name".toList "disable".toList "a1:a2:a3:a4:a5".toList ∧
      map2struct sampleCase .env "APP".toList
          (testEnviron ++ [(" APP_POSTGRES_USER".toList, "intruder".toList)])
          (testConfig [] [] [] 0 [] [] []) =
        (testConfig "intruder".toList "password".toList "localhost".toList 5432
          "db-name".toList "disable".toList
          ["a1".toList, "a2".toList, "a3".toList, "a4".toList, "a5".toList], none) ∧
      map2struct sampleCase .env "APP".toList
          (testEnviron ++ [(" APP_POSTGRES_USER".toList, "intruder".toList)])
          (testConfig [] [] [] 0 [] [] []) ≠
        (testConfig "postgres".toList "password".toList "localhost".toList 5432
          "db-name".toList "disable".toList
          ["a1".toList, "a2".toList, "a3".toList, "a4".toList, "a5".toList], none)) ∧
    (envFixture (ToUpper sampleCase) (testEnvironPort "18446744073709551616".toList)
        "postgres".toList "password".toList "localhost".toList "18446744073709551616".toList
        "db-name".toList "disable".toList "a1:a2:a3:a4:a5".toList ∧
      decimalValue "18446744073709551616".toList = 18446744073709551616 ∧
      map2struct sampleCase .env "APP".toList (testEnvironPort "18446744073709551616".toList)
          (testConfig [] [] [] 0 [] [] []) =
        (testConfig "postgres".toList "password".toList "localhost".toList
          18446744073709551615 "db-name".toList "disable".toList
          ["a1".toList, "a2".toList, "a3".toList, "a4".toList, "a5".toList], none) ∧
      map2struct sampleCase .env "APP".toList (testEnvironPort "18446744073709551616".toList)
          (testConfig [] [] [] 0 [] [] []) ≠
        (testConfig "postgres".toList "password".toList "localhost".toList
          18446744073709551616 "db-name".toList "disable".toList
          ["a1".toList, "a2".toList, "a3".toList, "a4".toList, "a5".toList], none)) ∧
    (envFixture (ToUpper sampleCase) (testEnvironPort "+5432".toList)
        "postgres".toList "password".toList "localhost".toList "+5432".toList
        "db-name".toList "disable".toList "a1:a2:a3:a4:a5".toList ∧
      map2struct sampleCase .env "APP".toList (testEnvironPort "+5432".toList)
          (testConfig [] [] [] 0 [] [] []) =
        (testConfig "postgres".toList "password".toList "localhost".toList 0
          "db-name".toList "disable".toList
          ["a1".toList, "a2".toList, "a3".toList, "a4".toList, "a5".toList], none) ∧
      map2struct sampleCase .env "APP".toList (testEnvironPort "+5432".toList)
          (testConfig [] [] [] 0 [] [] []) ≠
        (testConfig "postgres".toList "password".toList "localhost".toList 5432
          "db-name".toList "disable".toList
          ["a1".toList, "a2".toList, "a3".toList, "a4".toList, "a5".toList], none)) := by
  unfold envFixture
  split_ands <;> decide

theorem Index_eq_sign (k v : Str) (hk : '=' ∉ k) :
    Index ['='] (k ++ '=' :: v) = some k.length := by
  induction k with
  | nil => simp [Index, List.isPrefixOf]
  | cons c t ih =>
    have hc : ¬ '=' = c := fun h => hk (h ▸ List.mem_cons_self _ _)
    have ht : '=' ∉ t := fun h => hk (List.mem_cons_of_mem _ h)
    rw [List.cons_append, Index, ih ht]
    simp [List.isPrefixOf, hc]

theorem flagToken_split (kv : Str × Str) (hdash : kv.1.head? = some '-') (hk : '=' ∉ kv.1) :
    HasPrefix (flagToken kv) "-".toList = true ∧ Contains (flagToken kv) "=".toList = true ∧
      (SplitN (flagToken kv) "=".toList 2).getD 0 [] = kv.1 ∧
      (SplitN (flagToken kv) "=".toList 2).getD 1 [] = kv.2 := by
  obtain ⟨k, v⟩ := kv
  cases k with
  | nil => simp at hdash
  | cons c t =>
    simp only [List.head?_cons, Option.some.injEq] at hdash
    subst hdash
    have hI : Index ['='] (flagToken ('-' :: t, v)) = some ('-' :: t).length :=
      Index_eq_sign ('-' :: t) v hk
    have hmin : min 2 ((flagToken ('-' :: t, v)).length + 1) - 1 = 1 := by
      simp only [flagToken, List.length_append, List.length_cons]; omega
    have hsplit : SplitN (flagToken ('-' :: t, v)) "=".toList 2 = ['-' :: t, v] := by
      simp only [SplitN, show "=".toList = ['='] from rfl, hmin, genSplit, hI]
      simp [flagToken]
    refine ⟨by simp [HasPrefix, flagToken, List.isPrefixOf], ?_, ?_, ?_⟩
    · simp only [Contains, show "=".toList = ['='] from rfl, hI]
      rfl
    · rw [hsplit]; rfl
    · rw [hsplit]; rfl

theorem argsLoop_pairs (pairs : List (Str × Str))
    (h : ∀ kv ∈ pairs, kv.1.head? = some '-' ∧ '=' ∉ kv.1) (acc : List (Str × Str))
    (prev : Str) :
    argsLoop (pairs.map flagToken) acc prev =
      pairs.foldl (fun acc kv => mapSet acc kv.1 kv.2) acc := by
  induction pairs generalizing acc prev with
  | nil => rfl
  | cons kv rest ih =>
    have hkv := h kv (List.mem_cons_self _ _)
    have hs := flagToken_split kv hkv.1 hkv.2
    rw [List.map_cons, argsLoop]
    simp only [hs.1, hs.2.1, if_true, hs.2.2.1, hs.2.2.2, List.foldl_cons]
    exact ih (fun kv hkv => h kv (List.mem_cons_of_mem _ hkv)) _ _

theorem foldl_mapSet_fresh (pairs acc : List (Str × Str))
    (hnd : ((acc ++ pairs).map Prod.fst).Nodup) :
    pairs.foldl (fun acc kv => mapSet acc kv.1 kv.2) acc = acc ++ pairs := by
  induction pairs generalizing acc with
  | nil => simp
  | cons kv rest ih =>
    have hfresh : acc.any (fun e => decide (e.1 = kv.1)) = false := by
      rw [List.any_eq_false]
      intro e he heq
      rw [List.map_append, List.map_cons, List.nodup_append] at hnd
      exact hnd.2.2 (List.mem_map.mpr ⟨e, he, rfl⟩)
        (by rw [of_decide_eq_true heq]; exact List.mem_cons_self _ _)
    have hstep : mapSet acc kv.1 kv.2 = acc ++ [kv] := by
      unfold mapSet
      rw [hfresh]
      rfl
    rw [List.foldl_cons, hstep, ih (acc ++ [kv]) (by simpa using hnd)]
    simp

theorem flagKeys_normKey :
    ∀ k ∈ flagKeys, normKey U .flag k = k ∧ (TrimSpace k).isEmpty = false := by
  intro k hk
  have h : ∀ k ∈ flagKeys, normKey sampleCase .flag k = k ∧
      (TrimSpace k).isEmpty = false := by decide
  exact ⟨(normKey_table sampleCase .flag k (fun ht => nomatch ht)).trans (h k hk).1,
    (h k hk).2⟩

theorem flagKeys_shape : ∀ k ∈ flagKeys, k.head? = some '-' ∧ '=' ∉ k := by decide

theorem flags_fixture_map (user password host port dbName sslMode slice : Str)
    (hne : user ≠ [] ∧ password ≠ [] ∧ host ≠ [] ∧ port ≠ [] ∧ dbName ≠ [] ∧ sslMode ≠ [] ∧
      slice ≠ [])
    (hdec : isDecimal port = true) (hlt : decimalValue port < 2 ^ 64)
    (mp : List (Str × Str))
    (hperm : mp.Perm (flagPairs user password host port dbName sslMode slice)) :
    map2struct U .flag [] mp (testConfig [] [] [] 0 [] [] []) =
      (testConfig user password host (decimalValue port) dbName sslMode
        (Split slice ",".toList), none) := by
  obtain ⟨n1, n2, n3, n4, n5, n6, n7⟩ := hne
  have hkeys : (mp.map Prod.fst).Perm flagKeys := hperm.map Prod.fst
  have hnd : (mp.map Prod.fst).Nodup := hkeys.nodup_iff.mpr (by decide)
  have hother : ∀ kv ∈ mp, normKey U .flag kv.1 ∈ flagKeys → kv.1 ∈ flagKeys :=
    fun kv hkv _ => hkeys.mem_iff.mp (List.mem_map.mpr ⟨kv, hkv, rfl⟩)
  have hmem : ∀ kv ∈ flagPairs user password host port dbName sslMode slice, kv ∈ mp :=
    fun kv hkv => hperm.mem_iff.mpr hkv
  simp only [flagPairs, List.forall_mem_cons, List.not_mem_nil, false_implies,
    implies_true, and_true] at hmem
  obtain ⟨m1, m2, m3, m4, m5, m6, m7⟩ := hmem
  apply Prod.ext
  · rw [map2struct_fst]
    simp only [testConfig, List.map_cons, List.map_nil]
    have key := @fixture_field U .flag [] flagKeys (@flagKeys_normKey U) mp
    rw [key _ _ user hnd m1 n1 hother (by decide) (by decide)
        (by rw [derivedName_table sampleCase _ _ _ (by decide)]; decide),
      key _ _ password hnd m2 n2 hother (by decide) (by decide)
        (by rw [derivedName_table sampleCase _ _ _ (by decide)]; decide),
      key _ _ host hnd m3 n3 hother (by decide) (by decide)
        (by rw [derivedName_table sampleCase _ _ _ (by decide)]; decide),
      key _ _ port hnd m4 n4 hother (by decide) (by decide)
        (by rw [derivedName_table sampleCase _ _ _ (by decide)]; decide),
      key _ _ dbName hnd m5 n5 hother (by decide) (by decide)
        (by rw [derivedName_table sampleCase _ _ _ (by decide)]; decide),
      key _ _ sslMode hnd m6 n6 hother (by decide) (by decide)
        (by rw [derivedName_table sampleCase _ _ _ (by decide)]; decide),
      key _ _ slice hnd m7 n7 hother (by decide) (by decide)
        (by rw [derivedName_table sampleCase _ _ _ (by decide)]; decide)]
    have hsep : separatorOf U .flag []
        ⟨"Slice".toList, "slice,:".toList, [], [], .slice (.String []) []⟩ = ",".toList := by
      rw [separatorOf_table sampleCase]
      decide
    simp only [assign, setField, hsep, setSlice_String, ParseUint_decimal port hdec hlt]
    rfl
  · rfl

/-- C8 (as the code has it): from a zero record of the tests' `Config` shape, an argument list
made of one token `-<name>=<value>` per field, in any order, with non-empty values, the port
being a text of decimal digits that denotes a number below 2^64, tokenized and applied with
kind `flag` (in whatever order the map is ranged over), returns no error, sets every string
field to its value, `PostgresPort` to the number the port text denotes and `Slice` to the
parts of the `-slice` value split on ",". -/
theorem flags_fixture_loaded (user password host port dbName sslMode slice : Str)
    (hne : user ≠ [] ∧ password ≠ [] ∧ host ≠ [] ∧ port ≠ [] ∧ dbName ≠ [] ∧ sslMode ≠ [] ∧
      slice ≠ [])
    (hdec : isDecimal port = true) (hlt : decimalValue port < 2 ^ 64)
    (prog : Str) (pairs : List (Str × Str))
    (hpairs : pairs.Perm (flagPairs user password host port dbName sslMode slice)) :
    FlagsSource.Load U (prog :: pairs.map flagToken) (testConfig [] [] [] 0 [] [] []) =
      (testConfig user password host (decimalValue port) dbName sslMode
        (Split slice ",".toList), none) ∧
    ∀ mp : List (Str × Str), mp.Perm (argsLoop (pairs.map flagToken) [] []) →
      map2struct U .flag [] mp (testConfig [] [] [] 0 [] [] []) =
        (testConfig user password host (decimalValue port) dbName sslMode
          (Split slice ",".toList), none) := by
  have hkeys : (pairs.map Prod.fst).Perm flagKeys := hpairs.map Prod.fst
  have hshape : ∀ kv ∈ pairs, kv.1.head? = some '-' ∧ '=' ∉ kv.1 :=
    fun kv hkv => flagKeys_shape kv.1 (hkeys.mem_iff.mp (List.mem_map.mpr ⟨kv, hkv, rfl⟩))
  have hargs : argsLoop (pairs.map flagToken) [] [] = pairs := by
    rw [argsLoop_pairs pairs hshape, foldl_mapSet_fresh pairs []
      (by simpa using hkeys.nodup_iff.mpr (by decide))]
    rfl
  have hall : ∀ mp : List (Str × Str), mp.Perm (argsLoop (pairs.map flagToken) [] []) →
      map2struct U .flag [] mp (testConfig [] [] [] 0 [] [] []) =
        (testConfig user password host (decimalValue port) dbName sslMode
          (Split slice ",".toList), none) := by
    intro mp hmp
    rw [hargs] at hmp
    exact flags_fixture_map user password host port dbName sslMode slice hne hdec hlt mp
      (hmp.trans hpairs)
  exact ⟨hall _ (List.Perm.refl _), hall⟩

/-- C8, witness: the arguments of `TestFlagsSourceLoader`. -/
theorem flags_fixture_loaded_witness :
    FlagsSource.Load sampleCase
        ["easyconfig".toList, "-postgresUser=postgres".toList,
         "-postgresPassword=password".toList, "-postgresHost=localhost".toList,
         "-postgresPort=5432".toList, "-postgresDBName=db-name".toList,
         "-postgresSSLMode=disable".toList, "-slice=a1,a2,a3,a4,a5".toList]
        (testConfig [] [] [] 0 [] [] []) =
      (testConfig "postgres".toList "password".toList "localhost".toList 5432
        "db-name".toList "disable".toList
        ["a1".toList, "a2".toList, "a3".toList, "a4".toList, "a5".toList], none) :=
  (flags_fixture_loaded "postgres".toList "password".toList "localhost".toList "5432".toList
    "db-name".toList "disable".toList "a1,a2,a3,a4,a5".toList (by decide) (by decide)
    (by decide) "easyconfig".toList
    (flagPairs "postgres".toList "password".toList "localhost".toList "5432".toList
      "db-name".toList "disable".toList "a1,a2,a3,a4,a5".toList) (List.Perm.refl _)).1

/-- C8, counterexample: the arguments of the test with the port text 18446744073709551616
leave `PostgresPort` at 18446744073709551615, not at the number given; and with the port text
+5432 they leave it at 0. -/
theorem flags_fixture_port_not_stored :
    decimalValue "18446744073709551616".toList = 18446744073709551616 ∧
    FlagsSource.Load sampleCase (testArgsPort "18446744073709551616".toList)
        (testConfig [] [] [] 0 [] [] []) =
      (testConfig "postgres".toList "password".toList "localhost".toList 18446744073709551615
        "db-name".toList "disable".toList
        ["a1".toList, "a2".toList, "a3".toList, "a4".toList, "a5".toList], none) ∧
    FlagsSource.Load sampleCase (testArgsPort "18446744073709551616".toList)
        (testConfig [] [] [] 0 [] [] []) ≠
      (testConfig "postgres".toList "password".toList "localhost".toList 18446744073709551616
        "db-name".toList "disable".toList
        ["a1".toList, "a2".toList, "a3".toList, "a4".toList, "a5".toList], none) ∧
    FlagsSource.Load sampleCase (testArgsPort "+5432".toList)
        (testConfig [] [] [] 0 [] [] []) =
      (testConfig "postgres".toList "password".toList "localhost".toList 0
        "db-name".toList "disable".toList
        ["a1".toList, "a2".toList, "a3".toList, "a4".toList, "a5".toList], none) ∧
    FlagsSource.Load sampleCase (testArgsPort "+5432".toList)
        (testConfig [] [] [] 0 [] [] []) ≠
      (testConfig "postgres".toList "password".toList "localhost".toList 5432
        "db-name".toList "disable".toList
        ["a1".toList, "a2".toList, "a3".toList, "a4".toList, "a5".toList], none) := by
  decide

/-! ### The separator -/

theorem drop_takeWhile_length (q : Char → Bool) (s : Str) :
    s.drop (s.takeWhile q).length = s.dropWhile q := by
  induction s with
  | nil => rfl
  | cons c t ih =>
    by_cases h : q c = true
    · simp [List.takeWhile_cons, List.dropWhile_cons, h, ih]
    · simp [List.takeWhile_cons, List.dropWhile_cons, h]

theorem separator_split (tagVal dflt : Str) :
    (if Contains tagVal ",".toList then (SplitN tagVal ",".toList 2).getD 1 [] else dflt) =
      if ',' ∈ tagVal then afterComma tagVal else dflt := by
  have hI := Index_single ',' tagVal
  by_cases hc : ',' ∈ tagVal
  · rw [if_pos hc] at hI
    have hcont : Contains tagVal ",".toList = true := by
      simp [Contains, show ",".toList = [','] from rfl, hI]
    have hlen : 0 < tagVal.length := List.length_pos_of_mem hc
    have hmin : min 2 (tagVal.length + 1) - 1 = 1 := by omega
    rw [if_pos hcont, if_pos hc]
    simp only [SplitN, show ",".toList = [','] from rfl, hmin, genSplit, hI]
    simp only [afterComma, ← drop_takeWhile_length, List.drop_drop]
    simp [Nat.add_comm]
  · rw [if_neg hc] at hI
    have hcont : ¬ Contains tagVal ",".toList = true := by
      simp [Contains, show ",".toList = [','] from rfl, hI]
    rw [if_neg hcont, if_neg hc]

theorem overrideName_overrideName (tagVal : Str) :
    overrideName (overrideName tagVal) = overrideName tagVal := by
  unfold overrideName
  rw [List.takeWhile_eq_self_iff]
  intro x hx
  exact List.mem_takeWhile_imp (p := fun c => c != ',') hx

theorem convertName_snd (name : Str) (tag : Tag) (tagVal pre : Str) :
    (convertName U name tag tagVal pre).2 =
      if ',' ∈ tagVal then afterComma tagVal else defaultSeparator tag := by
  unfold convertName defaultSeparator
  simp only [separator_split]
  by_cases ht : tag = .env <;> simp [ht]

theorem convertName_fst_override (name : Str) (tag : Tag) (tagVal pre : Str) :
    (convertName U name tag tagVal pre).1 =
      (convertName U name tag (overrideName tagVal) pre).1 := by
  unfold convertName
  simp only [tagVal_split, overrideName_overrideName]
  by_cases ht : tag = .env <;> simp [ht]

/-- C11: the separator `convertName` returns is the text after the first comma of the
override when the override contains a comma, and otherwise ":" for `env` and "," for every
other kind; the derived name depends on the override only through the text before its first
comma, an empty one leaving the default name in place; the override "slice,:" gives the name
from "slice" with separator ":", and ",;" keeps the default name with separator ";". -/
theorem convertName_separator_rule :
    (∀ (name : Str) (tag : Tag) (tagVal pre : Str),
      (convertName U name tag tagVal pre).2 =
        if ',' ∈ tagVal then afterComma tagVal else defaultSeparator tag) ∧
    (∀ (name : Str) (tag : Tag) (tagVal pre : Str),
      (convertName U name tag tagVal pre).1 =
        (convertName U name tag (overrideName tagVal) pre).1) ∧
    (∀ (name : Str) (tag : Tag) (tagVal pre : Str), overrideName tagVal = [] →
      (convertName U name tag tagVal pre).1 = (convertName U name tag [] pre).1) ∧
    convertName U "Slice".toList .env "slice,:".toList "APP".toList =
      ((convertName U "Slice".toList .env "slice".toList "APP".toList).1, ":".toList) ∧
    convertName U "Slice".toList .env "slice,:".toList "APP".toList =
      ("APP_SLICE".toList, ":".toList) ∧
    convertName U "Slice".toList .flag ",;".toList [] = ("-slice".toList, ";".toList) ∧
    convertName U "Slice".toList .dir ",;".toList [] = ("slice".toList, ";".toList) := by
  refine ⟨convertName_snd, convertName_fst_override, ?_, ?_,
    (by rw [convertName_table sampleCase _ _ _ _ (by decide)]; decide),
    (by rw [convertName_table sampleCase _ _ _ _ (by decide)]; decide),
    (by rw [convertName_table sampleCase _ _ _ _ (by decide)]; decide)⟩
  · intro name tag tagVal pre h
    rw [convertName_fst_override, h]
  · rw [convertName_table sampleCase _ _ "slice,:".toList _ (by decide),
      convertName_table sampleCase _ _ "slice".toList _ (by decide)]
    decide

/-! ### Overrides for `flag` -/

theorem convertName_flag_fst (name tagVal pre : Str) :
    (convertName U name .flag tagVal pre).1 =
      if overrideName tagVal = [] then
        '-' :: ToLowerCamel uppercaseAcronym (replaceAcronims name Acronims)
      else if HasPrefix (overrideName tagVal) "-".toList then '-' :: overrideName tagVal
      else overrideName tagVal := by
  unfold convertName
  simp only [tagVal_split]
  by_cases h : overrideName tagVal = [] <;>
    by_cases h2 : HasPrefix (overrideName tagVal) "-".toList = true <;>
    simp [h, h2, List.isEmpty_iff]

/-- C12 (what the code does): for kind `flag` a non-empty override name that begins with "-"
gets a second "-" in front, and one that lacks a leading "-" is returned as it is; the
override "port" derives "port" and the override "-port" derives "--port". -/
theorem convertName_flag_override_dash :
    (∀ name tagVal pre : Str,
      (convertName U name .flag tagVal pre).1 =
        if overrideName tagVal = [] then
          '-' :: ToLowerCamel uppercaseAcronym (replaceAcronims name Acronims)
        else if HasPrefix (overrideName tagVal) "-".toList then '-' :: overrideName tagVal
        else overrideName tagVal) ∧
    (convertName U "PostgresPort".toList .flag "port".toList []).1 = "port".toList ∧
    (convertName U "PostgresPort".toList .flag "-port".toList []).1 = "--port".toList ∧
    (convertName U "PostgresPort".toList .flag [] []).1 = "-postgresPort".toList :=
  ⟨convertName_flag_fst, (by rw [convertName_table sampleCase _ _ _ _ (by decide)]; decide),
    (by rw [convertName_table sampleCase _ _ _ _ (by decide)]; decide),
    (by rw [convertName_table sampleCase _ _ _ _ (by decide)]; decide)⟩

/-! ### The tokenizer of the flags -/

theorem argsLoop_values (k : Str) (hk : k ≠ []) (vs : List Str)
    (hvs : ∀ v ∈ vs, HasPrefix v "-".toList = false) (m : List (Str × Str)) :
    argsLoop vs m k = vs.foldl (fun m v => mapSet m k v) m := by
  induction vs generalizing m with
  | nil => rfl
  | cons v rest ih =>
    have hv := hvs v (List.mem_cons_self _ _)
    have hk2 : k.isEmpty = false := by
      cases k with
      | nil => exact absurd rfl hk
      | cons _ _ => rfl
    rw [argsLoop]
    simp only [hv, Bool.false_eq_true, if_false, hk2, not_false_eq_true, if_true,
      List.foldl_cons]
    exact ih (fun w hw => hvs w (List.mem_cons_of_mem _ hw)) _

theorem foldl_mapSet_same_key (k : Str) (vs : List Str) (v : Str) :
    vs.foldl (fun m w => mapSet m k w) [(k, v)] =
      [(k, (v :: vs).getLast (List.cons_ne_nil _ _))] := by
  induction vs generalizing v with
  | nil => rfl
  | cons w rest ih =>
    have hstep : mapSet [(k, v)] k w = [(k, w)] := by simp [mapSet]
    rw [List.foldl_cons, hstep, ih]
    rfl

theorem argsLoop_last_value_wins (k : Str) (vs : List Str) (hne : vs ≠ [])
    (hdash : HasPrefix k "-".toList = true) (heq : Contains k "=".toList = false)
    (hvs : ∀ v ∈ vs, HasPrefix v "-".toList = false) :
    argsLoop (k :: vs) [] [] = [(k, vs.getLast hne)] := by
  have hk : k ≠ [] := by
    intro h
    rw [h] at hdash
    exact Bool.noConfusion hdash
  rw [argsLoop]
  simp only [hdash, if_true, heq, Bool.false_eq_true, if_false]
  rw [argsLoop_values k hk vs hvs]
  cases vs with
  | nil => exact absurd rfl hne
  | cons v rest =>
    have hstep : mapSet [] k v = [(k, v)] := by simp [mapSet]
    rw [List.foldl_cons, hstep, foldl_mapSet_same_key]

/-- C13 (what the code does): for the arguments `-k v w` the flat map holds "-k" -> "w", the
last non-dash token after `-k`, not "v"; a token with "=" gives the entry split at its first
"=", and a dash token followed at once by another dash token gets no entry. -/
theorem argsLoop_keeps_pending_key :
    argsLoop ["-k".toList, "v".toList, "w".toList] [] [] = [("-k".toList, "w".toList)] ∧
    argsLoop ["-k".toList, "v".toList] [] [] = [("-k".toList, "v".toList)] ∧
    argsLoop ["-a=b=c".toList] [] [] = [("-a".toList, "b=c".toList)] ∧
    argsLoop ["-k".toList, "-j".toList, "v".toList] [] [] = [("-j".toList, "v".toList)] := by
  decide

/-! ### The generic file source -/

theorem tryInOrder_error (loads : List (Record → Record × Option GoError)) (r : Record) :
    ((tryInOrder loads r).2 = some ErrUnknownFileType ↔ allFail loads r) ∧
    ((tryInOrder loads r).2 = none ↔ ¬ allFail loads r) := by
  induction loads generalizing r with
  | nil => simp [tryInOrder, allFail]
  | cons load rest ih =>
    unfold tryInOrder allFail
    by_cases h : (load r).2 = none
    · simp [h]
    · simp only [h, if_false, ne_eq, not_false_eq_true, true_and]
      exact ih _

/-- C14: for a path that is not a directory and whose extension is none of .json, .yaml,
.yml, .env, .toml, `FileSource.Load` tries the JSON, YAML, dotenv and TOML adapters in that
order on the same record, returns nil at the first that succeeds without applying the later
ones, and returns `ErrUnknownFileType`, "unknown file type", exactly when all four fail. -/
theorem FileSource_Load_fallback (ops : FileOps) (Path : Str) (r : Record)
    (hstat : ops.Stat Path = .ok false)
    (hext : Ext Path ∉ [".json".toList, ".yaml".toList, ".yml".toList, ".env".toList,
      ".toml".toList]) :
    FileSource.Load ops Path r =
      tryInOrder [ops.JSONLoad Path, ops.YAMLLoad Path, ops.EnvFileLoad Path, ops.TOMLLoad Path]
        r ∧
    ((FileSource.Load ops Path r).2 = some ErrUnknownFileType ↔
      allFail [ops.JSONLoad Path, ops.YAMLLoad Path, ops.EnvFileLoad Path, ops.TOMLLoad Path]
        r) ∧
    ((FileSource.Load ops Path r).2 = none ↔
      ¬ allFail [ops.JSONLoad Path, ops.YAMLLoad Path, ops.EnvFileLoad Path, ops.TOMLLoad Path]
        r) ∧
    ErrUnknownFileType = "unknown file type".toList := by
  have heq : FileSource.Load ops Path r =
      tryInOrder [ops.JSONLoad Path, ops.YAMLLoad Path, ops.EnvFileLoad Path,
        ops.TOMLLoad Path] r := by
    simp only [List.mem_cons, List.mem_singleton, List.not_mem_nil, or_false, not_or] at hext
    obtain ⟨h1, h2, h3, h4, h5⟩ := hext
    unfold FileSource.Load
    simp only [hstat, Bool.false_eq_true, if_false, h1, h2, h3, h4, h5, or_self, tryInOrder]
  rw [heq]
  exact ⟨rfl, (tryInOrder_error _ r).1, (tryInOrder_error _ r).2, rfl⟩

/-- C14, witness: the file `conf/app.conf` is no JSON but is YAML; the YAML adapter's
assignment stays, the error is nil, and the later adapters are not applied. -/
theorem FileSource_Load_fallback_witness :
    FileSource.Load exampleFileOps "conf/app.conf".toList exampleConfig =
      tryInOrder [exampleFileOps.JSONLoad "conf/app.conf".toList,
        exampleFileOps.YAMLLoad "conf/app.conf".toList,
        exampleFileOps.EnvFileLoad "conf/app.conf".toList,
        exampleFileOps.TOMLLoad "conf/app.conf".toList] exampleConfig ∧
    ((FileSource.Load exampleFileOps "conf/app.conf".toList exampleConfig).2 =
        some ErrUnknownFileType ↔
      allFail [exampleFileOps.JSONLoad "conf/app.conf".toList,
        exampleFileOps.YAMLLoad "conf/app.conf".toList,
        exampleFileOps.EnvFileLoad "conf/app.conf".toList,
        exampleFileOps.TOMLLoad "conf/app.conf".toList] exampleConfig) ∧
    ((FileSource.Load exampleFileOps "conf/app.conf".toList exampleConfig).2 = none ↔
      ¬ allFail [exampleFileOps.JSONLoad "conf/app.conf".toList,
        exampleFileOps.YAMLLoad "conf/app.conf".toList,
        exampleFileOps.EnvFileLoad "conf/app.conf".toList,
        exampleFileOps.TOMLLoad "conf/app.conf".toList] exampleConfig) ∧
    ErrUnknownFileType = "unknown file type".toList :=
  FileSource_Load_fallback exampleFileOps "conf/app.conf".toList exampleConfig rfl (by decide)

/-! ### The help branch -/

theorem genSplit_head (sep : Str) (n : Nat) (s : Str) :
    (genSplit sep n s).headD [] =
      if n = 0 then s else
        match Index sep s with
        | none => s
        | some m => s.take m := by
  cases n with
  | zero => rfl
  | succ n =>
    rw [genSplit]
    cases Index sep s <;> rfl

theorem Split_head_eq (s : Str) : (Split s "=".toList).headD [] = beforeEq s := by
  have hI := Index_single '=' s
  unfold Split
  rw [if_neg (by decide), genSplit_head]
  by_cases hc : '=' ∈ s
  · rw [if_pos hc] at hI
    have hcount : Count s "=".toList ≠ 0 := by
      unfold Count
      rw [if_neg (by decide)]
      cases hs : s with
      | nil => rw [hs] at hc; simp at hc
      | cons c t =>
        rw [hs] at hI
        rw [List.length_cons, countLoop, show "=".toList = ['='] from rfl, hI]
        simp only
        omega
    rw [if_neg hcount, show "=".toList = ['='] from rfl, hI]
    exact take_takeWhile_length _ s
  · rw [if_neg hc] at hI
    rw [show "=".toList = ['='] from rfl, hI]
    have : beforeEq s = s := by
      unfold beforeEq
      rw [List.takeWhile_eq_self_iff]
      intro x hx
      have : x ≠ '=' := fun h => hc (h ▸ hx)
      simpa using this
    rw [this]
    split <;> rfl

theorem HasSuffix_iff (s suf : Str) : HasSuffix s suf = true ↔ suf <:+ s := by
  unfold HasSuffix
  rw [List.isPrefixOf_iff_prefix, List.reverse_prefix]

theorem suffix_ToLower_iff (s t : Str) (ht : ToLower t = t) :
    t <:+ ToLower s ↔ endsWithFold s t := by
  unfold endsWithFold
  constructor
  · rintro ⟨u, hu⟩
    obtain ⟨l1, l2, h1, _, h3⟩ := List.map_eq_append_iff.mp hu.symm
    exact ⟨l1, l2, h1, by rw [ht]; exact h3⟩
  · rintro ⟨u, w, rfl, hw⟩
    exact ⟨ToLower u, by rw [ht] at hw; simp [ToLower, ← hw]⟩

theorem helpRequested_iff (l : Loader) (osArgs : List Str) :
    helpRequested l osArgs = true ↔
      l.DisableHelpMsg = false ∧
        ∃ prog arg, osArgs = [prog, arg] ∧ endsWithFold (beforeEq arg) "help".toList := by
  unfold helpRequested
  rw [Split_head_eq]
  simp only [Bool.and_eq_true, Bool.not_eq_true', beq_iff_eq, HasSuffix_iff,
    suffix_ToLower_iff _ _ (show ToLower "help".toList = "help".toList by decide)]
  constructor
  · rintro ⟨⟨h1, h2⟩, h3⟩
    match osArgs, h2 with
    | [prog, arg], _ => exact ⟨h1, prog, arg, rfl, h3⟩
  · rintro ⟨h1, prog, arg, rfl, h3⟩
    exact ⟨⟨h1, rfl⟩, h3⟩

theorem NewLoader_disabled (progName : Str) (sources : List Source) (helpMessage : List Str) :
    (NewLoader progName sources helpMessage).DisableHelpMsg = true ↔
      helpMessage ≠ [] ∧ Join helpMessage "\n".toList = [] := by
  unfold NewLoader
  cases helpMessage with
  | nil => simp
  | cons m ms => simp [List.length_eq_zero]

/-- C15: `Loader.Load` takes the help branch exactly when help output is enabled, the process
has one argument after the program name, and the text of that argument before its first "="
ends with "help" compared case-insensitively; a loader built by `NewLoader` has help output
disabled exactly when help messages were passed and their newline-joined text is empty. -/
theorem Load_help_trigger :
    (∀ (l : Loader) (osArgs : List Str) (r : Record),
      l.Load osArgs r = .helpExit ↔
        l.DisableHelpMsg = false ∧
          ∃ prog arg, osArgs = [prog, arg] ∧ endsWithFold (beforeEq arg) "help".toList) ∧
    (∀ (progName : Str) (sources : List Source) (helpMessage : List Str),
      (NewLoader progName sources helpMessage).DisableHelpMsg = true ↔
        helpMessage ≠ [] ∧ Join helpMessage "\n".toList = []) ∧
    exampleLoader.Load ["app".toList, "--HELP=all".toList] exampleConfig = .helpExit ∧
    exampleLoader.Load ["app".toList, "-help".toList, "-x".toList] exampleConfig ≠ .helpExit ∧
    (NewLoader "app".toList [] ["".toList]).Load ["app".toList, "help".toList] exampleConfig ≠
      .helpExit := by
  refine ⟨?_, NewLoader_disabled, by decide, by decide, by decide⟩
  intro l osArgs r
  rw [← helpRequested_iff]
  unfold Loader.Load
  by_cases h : helpRequested l osArgs = true <;> simp [h]

/-! ### Empty and blank values, errors, and the case of `env` keys -/

/-- C16 (as the code has it): a flat-map entry whose value is empty changes no field: the
record is the one the map without that entry gives, and a map of that entry alone leaves
the record as it was.  The value is compared as it is, without trimming. -/
theorem map2struct_skips_empty_value :
    (∀ (tag : Tag) (pre : Str) (m1 m2 : List (Str × Str)) (k : Str) (r : Record),
      map2struct U tag pre (m1 ++ (k, []) :: m2) r = map2struct U tag pre (m1 ++ m2) r) ∧
    (∀ (tag : Tag) (pre k : Str) (r : Record), map2struct U tag pre [(k, [])] r = (r, none)) := by
  constructor
  · intro tag pre m1 m2 k r
    simp [map2struct, List.foldl_append]
  · intro tag pre k r
    simp [map2struct]

/-- C16, counterexample: the value "   " is empty after trimming, and under the key
APP_POSTGRES_HOST it replaces the host "localhost" of the example's record. -/
theorem map2struct_applies_blank_value :
    TrimSpace "   ".toList = [] ∧
    derivedName sampleCase .env "APP".toList
        ⟨"PostgresHost".toList, [], [], [], .scalar (.String "localhost".toList)⟩ =
      "APP_POSTGRES_HOST".toList ∧
    exampleConfig[2]? =
      some ⟨"PostgresHost".toList, [], [], [], .scalar (.String "localhost".toList)⟩ ∧
    (map2struct sampleCase .env "APP".toList [("APP_POSTGRES_HOST".toList, "   ".toList)]
        exampleConfig).1[2]? =
      some ⟨"PostgresHost".toList, [], [], [], .scalar (.String "   ".toList)⟩ ∧
    (map2struct sampleCase .env "APP".toList [("APP_POSTGRES_HOST".toList, "   ".toList)]
        exampleConfig).1[2]? ≠ exampleConfig[2]? := by
  decide

/-- C18: `map2struct` returns nil for every source kind, prefix, flat map and record, and so
do `EnvSource.Load` and `FlagsSource.Load`; a map with a malformed number, an unmatched key
and an empty key and value is no exception. -/
theorem map2struct_returns_nil :
    (∀ (tag : Tag) (pre : Str) (mp : List (Str × Str)) (r : Record),
      (map2struct U tag pre mp r).2 = none) ∧
    (∀ (Prefix : Str) (environ : List Str) (r : Record),
      (EnvSource.Load U Prefix environ r).2 = none) ∧
    (∀ (osArgs : List Str) (r : Record), (FlagsSource.Load U osArgs r).2 = none) ∧
    (map2struct U .env "APP".toList
      [("APP_POSTGRES_PORT".toList, "abc".toList), ("NO_SUCH_FIELD".toList, "x".toList),
       ([], [])] exampleConfig).2 = none :=
  ⟨fun _ _ _ _ => rfl, fun _ _ _ => rfl, fun _ _ => rfl, rfl⟩

theorem isSpace_upperChar (c : Char) : isSpace (upperChar c) = isSpace c := by
  by_cases h : isLow c = true
  · have h1 := isLow_class c h
    have h2 := isCap_class (upperChar c) h1.2.2.2.2.1
    rw [h1.2.2.2.1, h2.2.2.2.1]
  · have : upperChar c = c := by
      unfold upperChar
      rw [if_neg]
      simpa [isLow] using h
    rw [this]

theorem isSpace_unicode_ToUpper (c : Char) : isSpace (unicode.ToUpper U c) = isSpace c := by
  by_cases h : c.toNat ≤ 127
  · rw [unicode_ToUpper_ascii c h, isSpace_upperChar]
  · rw [unicode_ToUpper_above c (Nat.lt_of_not_le h)]
    exact U.above_space c (Nat.lt_of_not_le h)

theorem dropWhile_isSpace_ToUpper (s : Str) :
    (ToUpper U s).dropWhile isSpace = ToUpper U (s.dropWhile isSpace) := by
  induction s with
  | nil => rfl
  | cons c t ih =>
    simp only [ToUpper, List.map_cons, List.dropWhile_cons, isSpace_unicode_ToUpper] at ih ⊢
    by_cases h : isSpace c = true
    · simp only [h, if_true]; exact ih
    · simp only [h, if_false, List.map_cons, Bool.false_eq_true]

theorem TrimSpace_ToUpper (s : Str) : TrimSpace (ToUpper U s) = ToUpper U (TrimSpace s) := by
  unfold TrimSpace
  have hrev : ∀ t : Str, (ToUpper U t).reverse = ToUpper U t.reverse := by
    intro t; simp [ToUpper]
  rw [dropWhile_isSpace_ToUpper, hrev, dropWhile_isSpace_ToUpper, hrev]

theorem map2struct_env_upper_key (pre : Str) (r : Record) (k v : Str) :
    map2struct U .env pre [(k, v)] r = map2struct U .env pre [(ToUpper U k, v)] r := by
  apply Prod.ext
  · rw [map2struct_fst, map2struct_fst]
    apply List.map_congr_left
    intro f _
    simp only [List.foldl_cons, List.foldl_nil, applyEntry, hits, normKey, if_true,
      TrimSpace_ToUpper, ToUpper_ToUpper]
    have : (ToUpper U (TrimSpace k)).isEmpty = (TrimSpace k).isEmpty := by
      cases TrimSpace k <;> rfl
    rw [this]
  · rfl

/-- C19: for kind `env`, applying the single-entry map with key `k` gives the same record as
applying it with the key upper-cased; with prefix "APP" the key app_postgres_user sets
`PostgresUser` exactly as APP_POSTGRES_USER does. -/
theorem map2struct_env_key_case :
    (∀ (pre : Str) (r : Record) (k v : Str),
      map2struct U .env pre [(k, v)] r = map2struct U .env pre [(ToUpper U k, v)] r) ∧
    ToUpper U "app_postgres_user".toList = "APP_POSTGRES_USER".toList ∧
    map2struct U .env "APP".toList [("app_postgres_user".toList, "postgres".toList)]
        (testConfig [] [] [] 0 [] [] []) =
      (testConfig "postgres".toList [] [] 0 [] [] [], none) ∧
    map2struct U .env "APP".toList [("APP_POSTGRES_USER".toList, "postgres".toList)]
        (testConfig [] [] [] 0 [] [] []) =
      (testConfig "postgres".toList [] [] 0 [] [] [], none) :=
  ⟨map2struct_env_upper_key, by rw [ToUpper_ascii _ (by decide)]; decide,
    by rw [map2struct_table sampleCase _ _ _ _ (by decide)]; decide,
    by rw [map2struct_table sampleCase _ _ _ _ (by decide)]; decide⟩

/-! ### Sequences -/

theorem Index_spec (sep : Str) (s : Str) (i : Nat) (h : Index sep s = some i) :
    s = s.take i ++ (sep ++ s.drop (i + sep.length)) := by
  induction s generalizing i with
  | nil =>
    rw [Index] at h
    by_cases he : sep.isEmpty = true
    · rw [List.isEmpty_iff] at he
      subst he
      simp
    · simp [he] at h
  | cons c t ih =>
    rw [Index] at h
    by_cases hp : sep.isPrefixOf (c :: t) = true
    · rw [if_pos hp] at h
      cases h
      rw [List.isPrefixOf_iff_prefix] at hp
      obtain ⟨u, hu⟩ := hp
      rw [← hu]
      simp
    · rw [if_neg hp] at h
      cases hj : Index sep t with
      | none => rw [hj] at h; simp at h
      | some j =>
        rw [hj] at h
        simp only [Option.map_some', Option.some.injEq] at h
        subst h
        have := ih j hj
        rw [List.take_succ_cons, show j + 1 + sep.length = (j + sep.length) + 1 by omega,
          List.drop_succ_cons, List.cons_append, ← this]

theorem genSplit_ne_nil (sep : Str) (n : Nat) (s : Str) : genSplit sep n s ≠ [] := by
  cases n with
  | zero => simp [genSplit]
  | succ n =>
    rw [genSplit]
    cases Index sep s <;> simp

theorem intercalate_cons_of_ne_nil (sep a : Str) (rest : List Str) (h : rest ≠ []) :
    sep.intercalate (a :: rest) = a ++ (sep ++ sep.intercalate rest) := by
  cases rest with
  | nil => exact absurd rfl h
  | cons b bs => simp [List.intercalate, List.intersperse]

theorem getLast?_cons_of_ne_nil (a : Str) (rest : List Str) (h : rest ≠ []) :
    (a :: rest).getLast? = rest.getLast? := by
  cases rest with
  | nil => exact absurd rfl h
  | cons b bs => simp [List.getLast?_cons_cons]

theorem genSplit_count (sep : Str) (hsep : sep ≠ []) (fuel : Nat) (s : Str)
    (hfuel : s.length ≤ fuel) :
    (genSplit sep (countLoop sep fuel s) s).length = countLoop sep fuel s + 1 ∧
      sep.intercalate (genSplit sep (countLoop sep fuel s) s) = s ∧
      ∀ last, (genSplit sep (countLoop sep fuel s) s).getLast? = some last →
        Index sep last = none := by
  induction fuel generalizing s with
  | zero =>
    have hs : s = [] := List.length_eq_zero.mp (Nat.le_zero.mp hfuel)
    subst hs
    refine ⟨rfl, by simp [countLoop, genSplit, List.intercalate], ?_⟩
    intro last hlast
    simp only [countLoop, genSplit, List.getLast?_singleton, Option.some.injEq] at hlast
    subst hlast
    simp [Index, List.isEmpty_iff, hsep]
  | succ fuel ih =>
    rw [countLoop]
    cases hI : Index sep s with
    | none =>
      simp only [genSplit]
      refine ⟨rfl, by simp [List.intercalate], ?_⟩
      intro last hlast
      simp only [List.getLast?_singleton, Option.some.injEq] at hlast
      subst hlast
      exact hI
    | some i =>
      have hspec := Index_spec sep s i hI
      have hlen : (s.drop (i + sep.length)).length ≤ fuel := by
        have h1 : 0 < sep.length := List.length_pos.mpr hsep
        have h2 : s.length =
            (s.take i).length + (sep.length + (s.drop (i + sep.length)).length) := by
          conv_lhs => rw [hspec]
          simp
        omega
      obtain ⟨h1, h2, h3⟩ := ih (s.drop (i + sep.length)) hlen
      simp only
      rw [show 1 + countLoop sep fuel (s.drop (i + sep.length)) =
        countLoop sep fuel (s.drop (i + sep.length)) + 1 by omega, genSplit, hI]
      simp only
      refine ⟨by rw [List.length_cons, h1], ?_, ?_⟩
      · rw [intercalate_cons_of_ne_nil _ _ _ (genSplit_ne_nil _ _ _), h2]
        exact hspec.symm
      · intro last hlast
        rw [getLast?_cons_of_ne_nil _ _ (genSplit_ne_nil _ _ _)] at hlast
        exact h3 last hlast

theorem setSlice_String_append (xs : List Str) (value separator : Str)
    (hsep : separator ≠ []) :
    setSlice (.String []) (xs.map .String) value separator =
      (xs ++ Split value separator).map .String := by
  unfold setSlice
  have hne : separator.isEmpty = false := by
    cases separator with
    | nil => exact absurd rfl hsep
    | cons _ _ => rfl
  have h : ∀ (parts : List Str) (init : List Elem),
      parts.foldl (fun slice part => slice ++ [setField (.String []) part]) init =
        init ++ parts.map .String := by
    intro parts
    induction parts with
    | nil => intro init; simp
    | cons part rest ih => intro init; rw [List.foldl_cons, ih]; simp [setField]
  simp only [hne, Bool.false_eq_true, if_false, h, List.map_append]

/-- C17: for a sequence-of-text field with prior contents `xs`, a raw value `v` and a
non-empty separator, `setSlice` leaves the field equal to `xs` followed by the parts of `v`
split on the separator, verbatim and in order; the parts are one more than the non-overlapping
occurrences of the separator in `v` (`strings.Count`), joining them with the separator gives
back `v`, and the last part holds no further occurrence. -/
theorem setSlice_appends_parts (xs : List Str) (v sep : Str) (hsep : sep ≠ []) :
    setSlice (.String []) (xs.map .String) v sep = (xs ++ Split v sep).map .String ∧
      (Split v sep).length = Count v sep + 1 ∧
      Join (Split v sep) sep = v ∧
      ∀ last, (Split v sep).getLast? = some last → Index sep last = none := by
  have hne : sep.isEmpty = false := by
    cases sep with
    | nil => exact absurd rfl hsep
    | cons _ _ => rfl
  have hsplit : Split v sep = genSplit sep (countLoop sep v.length v) v := by
    simp [Split, Count, hne]
  have hcount : Count v sep = countLoop sep v.length v := by
    simp [Count, hne]
  obtain ⟨h1, h2, h3⟩ := genSplit_count sep hsep v.length v (Nat.le_refl _)
  refine ⟨setSlice_String_append xs v sep hsep, ?_, ?_, ?_⟩
  · rw [hsplit, hcount, h1]
  · rw [hsplit]; exact h2
  · rw [hsplit]; exact h3

/-- C17, witness: the value of the test's environment appended to a slice that already holds
"a0". -/
theorem setSlice_appends_parts_witness :
    setSlice (.String []) (["a0".toList].map .String) "a1:a2:a3:a4:a5".toList ":".toList =
        (["a0".toList] ++ Split "a1:a2:a3:a4:a5".toList ":".toList).map .String ∧
      (Split "a1:a2:a3:a4:a5".toList ":".toList).length =
        Count "a1:a2:a3:a4:a5".toList ":".toList + 1 ∧
      Join (Split "a1:a2:a3:a4:a5".toList ":".toList) ":".toList = "a1:a2:a3:a4:a5".toList ∧
      ∀ last, (Split "a1:a2:a3:a4:a5".toList ":".toList).getLast? = some last →
        Index ":".toList last = none :=
  setSlice_appends_parts ["a0".toList] "a1:a2:a3:a4:a5".toList ":".toList (by decide)

/-! ### Acronyms -/

theorem Index_of_isPrefixOf (sub s : Str) (h : sub.isPrefixOf s = true) :
    Index sub s = some 0 := by
  cases s with
  | nil =>
    cases sub with
    | nil => rfl
    | cons _ _ => simp [List.isPrefixOf] at h
  | cons c t => rw [Index, if_pos h]

theorem HasPrefix_low_cap (l : Char) (t b : Str) (hl : isLow l = true)
    (hb : startsCap b = true) : HasPrefix (l :: t) b = false := by
  cases b with
  | nil => simp [startsCap] at hb
  | cons cb tb =>
    simp only [startsCap, List.head?_cons, Option.map_some', Option.getD_some] at hb
    have hne : cb ≠ l := by
      intro h
      rw [h, (isLow_class l hl).1] at hb
      exact Bool.noConfusion hb
    simp [HasPrefix, List.isPrefixOf, hne]

theorem ToLower_startsCap (a : Str) (ha : startsCap a = true) :
    ∃ l t, ToLower a = l :: t ∧ isLow l = true := by
  cases a with
  | nil => simp [startsCap] at ha
  | cons c t =>
    simp only [startsCap, List.head?_cons, Option.map_some', Option.getD_some] at ha
    exact ⟨lowerChar c, ToLower t, rfl, (isCap_class c ha).2.2.2.2.1⟩

theorem replaceAcronims_first (acrons : List Str) (hcap : ∀ a ∈ acrons, startsCap a = true)
    (name acron : Str)
    (h : acrons.find? (fun a => a.isPrefixOf name) = some acron) :
    replaceAcronims name acrons = ToLower acron ++ name.drop acron.length := by
  induction acrons with
  | nil => simp at h
  | cons a rest ih =>
    rw [replaceAcronims]
    by_cases hp : a.isPrefixOf name = true
    · simp only [List.find?_cons, hp, Option.some.injEq] at h
      subst h
      simp only [HasPrefix, hp, if_true, Replace1, Index_of_isPrefixOf a name hp,
        List.take_zero, List.nil_append, Nat.zero_add]
      obtain ⟨l, t, hl, hlow⟩ := ToLower_startsCap a (hcap a (List.mem_cons_self _ _))
      apply replaceAcronims_none
      intro b hb
      rw [hl, List.cons_append]
      exact HasPrefix_low_cap l _ b hlow (hcap b (List.mem_cons_of_mem _ hb))
    · simp only [List.find?_cons, hp] at h
      simp only [HasPrefix, hp, Bool.false_eq_true, if_false]
      exact ih (fun b hb => hcap b (List.mem_cons_of_mem _ hb)) h

theorem lowerChar_letter (c : Char) (h : isCap c = true ∨ isLow c = true) :
    isLow (lowerChar c) = true := by
  rcases h with h | h
  · exact (isCap_class c h).2.2.2.2.1
  · rw [(isLow_class c h).2.2.2.2.2.2.2]; exact h

theorem ToLowerCamel_low_first (l : Char) (t : Str) (hl : isLow l = true)
    (ht : ∀ c ∈ t, isCap c = true ∨ isLow c = true) :
    ToLowerCamel uppercaseAcronym (l :: t) = l :: t := by
  have hnospace : ∀ c ∈ l :: t, isSpace c = false := by
    intro c hc
    rcases List.mem_cons.mp hc with rfl | hc
    · exact (isLow_class c hl).2.2.2.1
    · rcases ht c hc with h | h
      · exact (isCap_class c h).2.2.2.1
      · exact (isLow_class c h).2.2.2.1
  have hlook : uppercaseAcronym.lookup (l :: t) = none := by
    apply lookup_none
    intro kv hkv heq
    have hkeys : ∀ kv ∈ uppercaseAcronym, startsCap kv.1 = true := by decide
    have := hkeys kv hkv
    rw [heq] at this
    simp only [startsCap, List.head?_cons, Option.map_some', Option.getD_some,
      (isLow_class l hl).1] at this
    exact Bool.noConfusion this
  unfold ToLowerCamel toCamelInitCase
  simp only [TrimSpace_of_no_space _ hnospace, hlook, List.isEmpty_cons, Bool.false_eq_true,
    if_false]
  rw [camelLoop]
  simp only [Bool.false_eq_true, if_false, if_true, (isLow_class l hl).1, hl, Bool.or_true]
  rw [camelLoop_letters t ht]

theorem Acronims_startsCap : ∀ a ∈ Acronims, startsCap a = true := by decide

/-- C20: for kind `flag` with no override, for every declared name of ASCII letters that
begins with one of the listed acronyms, `convertName` derives "-" followed by the name with
the first such acronym in list order rewritten to lower case and the rest of the name
unchanged; APIKey gives -apiKey, DBName gives -dbName and HTTPSPort gives -httpsPort. -/
theorem convertName_flag_acronym :
    (∀ (name pre acron : Str), (∀ c ∈ name, isCap c = true ∨ isLow c = true) →
      firstAcronym name = some acron →
      (convertName U name .flag [] pre).1 = '-' :: (ToLower acron ++ name.drop acron.length)) ∧
    (convertName U "APIKey".toList .flag [] []).1 = "-apiKey".toList ∧
    (convertName U "DBName".toList .flag [] []).1 = "-dbName".toList ∧
    (convertName U "HTTPSPort".toList .flag [] []).1 = "-httpsPort".toList := by
  refine ⟨?_, (by rw [convertName_table sampleCase _ _ _ _ (by decide)]; decide),
    (by rw [convertName_table sampleCase _ _ _ _ (by decide)]; decide),
    (by rw [convertName_table sampleCase _ _ _ _ (by decide)]; decide)⟩
  intro name pre acron hletters hfirst
  have hrep := replaceAcronims_first Acronims Acronims_startsCap name acron hfirst
  have hmem : acron ∈ Acronims := List.mem_of_find?_eq_some hfirst
  have hpre : acron.isPrefixOf name = true := by
    have := List.find?_some hfirst
    simpa using this
  rw [List.isPrefixOf_iff_prefix] at hpre
  obtain ⟨rest, hname⟩ := hpre
  obtain ⟨l, t, hl, hlow⟩ := ToLower_startsCap acron (Acronims_startsCap acron hmem)
  have hdrop : name.drop acron.length = rest := by rw [← hname]; simp
  have hletters2 : ∀ c ∈ t ++ rest, isCap c = true ∨ isLow c = true := by
    intro c hc
    rcases List.mem_append.mp hc with hc | hc
    · have hc2 : c ∈ ToLower acron := by rw [hl]; exact List.mem_cons_of_mem _ hc
      simp only [ToLower, List.mem_map] at hc2
      obtain ⟨d, hd, rfl⟩ := hc2
      exact Or.inr (lowerChar_letter d (hletters d (by rw [← hname]; simp [hd])))
    · exact hletters c (by rw [← hname]; simp [hc])
  rw [convertName_flag_fst, if_pos (by rfl), hrep, hdrop, hl, List.cons_append,
    ToLowerCamel_low_first l (t ++ rest) hlow hletters2]

/-- C20, witness: the declared name `PostgreSQLHost`, whose first acronym is PostgreSQL. -/
theorem convertName_flag_acronym_witness :
    (convertName sampleCase "PostgreSQLHost".toList .flag [] []).1 =
      '-' :: (ToLower "PostgreSQL".toList ++
        "PostgreSQLHost".toList.drop "PostgreSQL".toList.length) :=
  convertName_flag_acronym.1 "PostgreSQLHost".toList [] "PostgreSQL".toList (by decide)
    (by decide)

/-! ### Keys of the flags map and overrides without a dash -/

theorem TrimSpace_dash (t : Str) : ∃ u, TrimSpace ('-' :: t) = '-' :: u := by
  have h1 : ('-' :: t).dropWhile isSpace = '-' :: t := by
    rw [List.dropWhile_cons, show isSpace '-' = false by decide]
    rfl
  have h2 : TrimSpace ('-' :: t) = List.rdropWhile isSpace ('-' :: t) := by
    unfold TrimSpace List.rdropWhile
    rw [h1]
  rw [h2]
  have hpre := List.rdropWhile_prefix isSpace ('-' :: t)
  cases hr : List.rdropWhile isSpace ('-' :: t) with
  | nil =>
    rw [List.rdropWhile_eq_nil_iff] at hr
    have := hr '-' (List.mem_cons_self _ _)
    exact absurd this (by decide)
  | cons c u =>
    rw [hr, List.cons_prefix_cons] at hpre
    exact ⟨u, by rw [hpre.1]⟩

theorem SplitN_key (c : Char) (s : Str) (hc : c ∈ s) :
    (SplitN s [c] 2).getD 0 [] = s.takeWhile (fun d => d != c) := by
  have hI := Index_single c s
  rw [if_pos hc] at hI
  have hlen : 0 < s.length := List.length_pos_of_mem hc
  have hmin : min 2 (s.length + 1) - 1 = 1 := by omega
  simp only [SplitN, hmin, genSplit, hI]
  simp [take_takeWhile_length]

theorem mem_mapSet (m : List (Str × Str)) (k v : Str) (kv : Str × Str)
    (h : kv ∈ mapSet m k v) : kv ∈ m ∨ kv = (k, v) := by
  unfold mapSet at h
  split at h
  · rw [List.mem_map] at h
    obtain ⟨e, he, heq⟩ := h
    by_cases hk : e.1 = k
    · rw [if_pos hk] at heq
      exact Or.inr heq.symm
    · rw [if_neg hk] at heq
      exact Or.inl (heq ▸ he)
  · rcases List.mem_append.mp h with h | h
    · exact Or.inl h
    · exact Or.inr (List.mem_singleton.mp h)

theorem argsLoop_keys_dashed (args : List Str) (m : List (Str × Str)) (prev : Str)
    (hm : ∀ kv ∈ m, kv.1.head? = some '-')
    (hprev : prev = [] ∨ prev.head? = some '-') :
    ∀ kv ∈ argsLoop args m prev, kv.1.head? = some '-' := by
  induction args generalizing m prev with
  | nil => exact hm
  | cons s rest ih =>
    rw [argsLoop]
    by_cases hd : HasPrefix s "-".toList = true
    · have hs : s.head? = some '-' := by
        cases s with
        | nil => simp [HasPrefix, List.isPrefixOf] at hd
        | cons c t =>
          simp only [HasPrefix, show "-".toList = ['-'] from rfl, List.isPrefixOf,
            Bool.and_true, beq_iff_eq] at hd
          rw [← hd]; rfl
      by_cases he : Contains s "=".toList = true
      · simp only [hd, he, if_true]
        apply ih _ _ _ (Or.inl rfl)
        intro kv hkv
        rcases mem_mapSet _ _ _ _ hkv with h | h
        · exact hm kv h
        · have hin : '=' ∈ s := by
            by_contra hnot
            have hI := Index_single '=' s
            rw [if_neg hnot] at hI
            simp [Contains, show "=".toList = ['='] from rfl, hI] at he
          rw [h, show "=".toList = ['='] from rfl, SplitN_key '=' s hin]
          cases s with
          | nil => simp at hs
          | cons c t =>
            simp only [List.head?_cons, Option.some.injEq] at hs
            subst hs
            rw [List.takeWhile_cons, show (('-' : Char) != '=') = true by decide]
            rfl
      · simp only [hd, he, if_true, Bool.false_eq_true, if_false]
        exact ih m s hm (Or.inr hs)
    · simp only [hd, Bool.false_eq_true, if_false]
      by_cases hp : prev.isEmpty = true
      · simp only [hp, not_true_eq_false, if_false]
        exact ih m prev hm hprev
      · simp only [hp, not_false_eq_true, if_true]
        apply ih _ _ _ hprev
        intro kv hkv
        rcases mem_mapSet _ _ _ _ hkv with h | h
        · exact hm kv h
        · rw [h]
          rcases hprev with h0 | h0
          · rw [h0] at hp; simp at hp
          · exact h0

theorem FlagsSource_override_without_dash (osArgs : List Str) (r : Record) (i : Nat)
    (f : Field) (hf : r[i]? = some f)
    (hov : overrideName (TrimSpace f.flagTag) ≠ [])
    (hdash : HasPrefix (overrideName (TrimSpace f.flagTag)) "-".toList = false) :
    (FlagsSource.Load U osArgs r).1[i]? = some f := by
  unfold FlagsSource.Load
  rw [map2struct_fst, List.getElem?_map, hf, Option.map_some']
  congr 1
  apply foldl_applyEntry_of_no_hit
  intro kv hkv
  have hkey := argsLoop_keys_dashed osArgs.tail [] [] (by simp) (Or.inl rfl) kv hkv
  by_contra hh
  rw [Bool.not_eq_false] at hh
  have hn := hits_normKey .flag [] f kv hh
  have hname : derivedName U .flag [] f = overrideName (TrimSpace f.flagTag) := by
    unfold derivedName
    rw [convertName_flag_fst, show f.TagGet .flag = f.flagTag from rfl, if_neg hov, hdash]
    rfl
  rw [hname] at hn
  obtain ⟨k, v⟩ := kv
  cases k with
  | nil => simp at hkey
  | cons c t =>
    simp only [List.head?_cons, Option.some.injEq] at hkey
    subst hkey
    obtain ⟨u, hu⟩ := TrimSpace_dash t
    simp only [normKey, reduceCtorEq, if_false, hu] at hn
    rw [← hn] at hdash
    simp [HasPrefix, List.isPrefixOf] at hdash

/-- C11, witness: the override ",;" has an empty override name, so the name derived for the
field `Slice` is the one derived with no override. -/
theorem convertName_separator_rule_witness :
    (convertName sampleCase "Slice".toList .flag ",;".toList []).1 =
      (convertName sampleCase "Slice".toList .flag [] []).1 :=
  convertName_separator_rule.2.2.1 "Slice".toList .flag ",;".toList [] (by decide)

/-! ### The order of the map entries -/

theorem length_le_one_of_same_image (l : List (Str × Str)) (g : Str × Str → Str) (c : Str)
    (hnd : (l.map g).Nodup) (hall : ∀ x ∈ l, g x = c) : l.length ≤ 1 := by
  match l with
  | [] => simp
  | [_] => simp
  | x :: y :: t =>
    exfalso
    rw [List.map_cons, List.nodup_cons] at hnd
    apply hnd.1
    rw [hall x (List.mem_cons_self _ _),
      ← hall y (List.mem_cons_of_mem _ (List.mem_cons_self _ _))]
    exact List.mem_map.mpr ⟨y, List.mem_cons_self _ _, rfl⟩

theorem eq_of_perm_of_length_le_one (l l' : List (Str × Str)) (hp : l'.Perm l)
    (hlen : l.length ≤ 1) : l' = l := by
  match l, hlen with
  | [], _ => exact List.perm_nil.mp hp
  | [_], _ => exact List.perm_singleton.mp hp

theorem filter_hits_perm (tag : Tag) (pre : Str) (f : Field) (m m' : List (Str × Str))
    (hnd : (m.map (fun kv => normKey U tag kv.1)).Nodup) (hperm : m'.Perm m) :
    m'.filter (hits U tag pre f) = m.filter (hits U tag pre f) := by
  apply eq_of_perm_of_length_le_one _ _ (hperm.filter _)
  apply length_le_one_of_same_image _ (fun kv => normKey U tag kv.1) (derivedName U tag pre f)
  · exact List.Nodup.sublist ((List.filter_sublist m).map _) hnd
  · intro kv hkv
    exact hits_normKey tag pre f kv (List.mem_filter.mp hkv).2

/-- C21: when no two keys of the flat map become equal after trimming (and upper-casing for
`env`), `map2struct` gives the same record and the same nil error for every ordering of the
entries. -/
theorem map2struct_order_independent (tag : Tag) (pre : Str) (m m' : List (Str × Str))
    (r : Record) (hnd : (m.map (fun kv => normKey U tag kv.1)).Nodup) (hperm : m'.Perm m) :
    map2struct U tag pre m' r = map2struct U tag pre m r := by
  apply Prod.ext
  · rw [map2struct_fst, map2struct_fst]
    apply List.map_congr_left
    intro f _
    rw [foldl_applyEntry_filter, foldl_applyEntry_filter,
      filter_hits_perm tag pre f m m' hnd hperm]
  · rfl

/-- C21, witness: the environment of the test ranged over backwards. -/
theorem map2struct_order_independent_witness :
    (testEnviron.map (fun kv => normKey sampleCase .env kv.1)).Nodup ∧
      map2struct sampleCase .env "APP".toList testEnviron.reverse (testConfig [] [] [] 0 [] [] []) =
        map2struct sampleCase .env "APP".toList testEnviron (testConfig [] [] [] 0 [] [] []) :=
  ⟨by decide,
   map2struct_order_independent .env "APP".toList testEnviron testEnviron.reverse
     (testConfig [] [] [] 0 [] [] []) (by decide) (List.reverse_perm _)⟩

/-! ### Integers out of range -/

theorem parseUintLoop_digits (M : Nat) (hM : M < 18446744073709551616) (s : Str)
    (hs : ∀ c ∈ s, isNum c = true) (n : Nat) (hn : n ≤ M) :
    parseUintLoop M n s =
      if s.foldl (fun n c => 10 * n + (c.toNat - 48)) n ≤ M then
        (s.foldl (fun n c => 10 * n + (c.toNat - 48)) n, none)
      else (M, some .ErrRange) := by
  induction s generalizing n with
  | nil => simp [parseUintLoop, hn]
  | cons c rest ih =>
    have hc := hs c (List.mem_cons_self _ _)
    have hrest : ∀ d ∈ rest, isNum d = true := fun d hd => hs d (List.mem_cons_of_mem _ hd)
    simp only [isNum, Bool.and_eq_true, decide_eq_true_eq] at hc
    have hge := decimal_foldl_ge rest (10 * n + (c.toNat - 48))
    have hpow : (2 : Nat) ^ 64 = 18446744073709551616 := by norm_num
    rw [parseUintLoop]
    simp only [hc, and_self, if_true, hpow, List.foldl_cons]
    have h1 : ¬ (c.toNat - 48 ≥ 10) := by omega
    by_cases h2 : n ≥ (18446744073709551616 - 1) / 10 + 1
    · have h9 : ¬ (rest.foldl (fun n c => 10 * n + (c.toNat - 48))
          (10 * n + (c.toNat - 48)) ≤ M) := by omega
      simp only [h1, h2, if_true, if_false, h9]
    · have h3 : n * 10 % 18446744073709551616 = n * 10 := Nat.mod_eq_of_lt (by omega)
      by_cases h4 : n * 10 + (c.toNat - 48) < 18446744073709551616
      · have h5 : (n * 10 + (c.toNat - 48)) % 18446744073709551616 =
            10 * n + (c.toNat - 48) := by
          rw [Nat.mod_eq_of_lt h4]; omega
        by_cases h6 : 10 * n + (c.toNat - 48) > M
        · have h9 : ¬ (rest.foldl (fun n c => 10 * n + (c.toNat - 48))
              (10 * n + (c.toNat - 48)) ≤ M) := by omega
          simp only [h1, h2, h3, h5, h6, or_true, if_true, if_false, h9]
        · have h7 : ¬ (10 * n + (c.toNat - 48) < n * 10 ∨ 10 * n + (c.toNat - 48) > M) := by
            omega
          simp only [h1, h2, h3, h5, h7, if_false]
          exact ih hrest _ (by omega)
      · have h5 : (n * 10 + (c.toNat - 48)) % 18446744073709551616 < n * 10 := by omega
        have h9 : ¬ (rest.foldl (fun n c => 10 * n + (c.toNat - 48))
            (10 * n + (c.toNat - 48)) ≤ M) := by omega
        simp only [h1, h2, h3, h5, true_or, if_true, if_false, h9]

theorem ParseUint_digits (s : Str) (hs : isDecimal s = true) (b : Nat)
    (hb : (if b = 0 then IntSize else b) ≤ 64) :
    ParseUint s b =
      if decimalValue s ≤ 2 ^ (if b = 0 then IntSize else b) - 1 then (decimalValue s, none)
      else (2 ^ (if b = 0 then IntSize else b) - 1, some .ErrRange) := by
  simp only [isDecimal, Bool.and_eq_true, Bool.not_eq_true', List.all_eq_true] at hs
  unfold ParseUint
  rw [if_neg (by simp [hs.1])]
  have hle : 2 ^ (if b = 0 then IntSize else b) ≤ 2 ^ 64 := Nat.pow_le_pow_right (by norm_num) hb
  have hpos : 0 < 2 ^ (if b = 0 then IntSize else b) := Nat.pow_pos (by norm_num)
  have hpow : (2 : Nat) ^ 64 = 18446744073709551616 := by norm_num
  exact parseUintLoop_digits _ (by omega) s hs.2 0 (Nat.zero_le _)

theorem ParseUint_signed (c : Char) (t : Str) (b : Nat) (hc : c = '+' ∨ c = '-') :
    ParseUint (c :: t) b = (0, some .ErrSyntax) := by
  rcases hc with rfl | rfl <;> rfl

theorem ParseInt_digits_core (c : Char) (t ds : Str) (b : Nat)
    (hds : isDecimal ds = true)
    (hs1 : (if c = '+' then t else if c = '-' then t else c :: t) = ds)
    (hb1 : 1 ≤ (if b = 0 then IntSize else b)) (hb2 : (if b = 0 then IntSize else b) ≤ 64) :
    (ParseInt (c :: t) b).1 =
      nearestInRange (-((2 ^ ((if b = 0 then IntSize else b) - 1) : Nat) : Int))
        (((2 ^ ((if b = 0 then IntSize else b) - 1) : Nat) : Int) - 1)
        (if c = '-' then -(decimalValue ds : Int) else (decimalValue ds : Int)) := by
  have hU : ParseUint (if c = '+' then t else if c = '-' then t else c :: t) b =
      if decimalValue ds ≤ 2 ^ (if b = 0 then IntSize else b) - 1 then (decimalValue ds, none)
      else (2 ^ (if b = 0 then IntSize else b) - 1, some .ErrRange) := by
    rw [hs1]
    exact ParseUint_digits ds hds b hb2
  have hI := fun un err => ParseInt_of_ParseUint c t b un err
  generalize (if b = 0 then IntSize else b) = bb at *
  obtain ⟨k, rfl⟩ : ∃ k, bb = k + 1 := ⟨bb - 1, by omega⟩
  have hpow : 2 ^ (k + 1) = 2 ^ k * 2 := pow_succ 2 k
  have hpos : 0 < 2 ^ k := Nat.pow_pos (by norm_num)
  simp only [Nat.add_sub_cancel, hpow] at hU hI ⊢
  generalize 2 ^ k = C at *
  generalize decimalValue ds = d at *
  by_cases hd : d ≤ C * 2 - 1
  · rw [if_pos hd] at hU
    rw [hI d none hU (by simp)]
    unfold nearestInRange
    by_cases hneg : c = '-'
    · simp only [hneg, not_true_eq_false, false_and, if_false, true_and, if_true]
      split_ifs <;> simp only <;> omega
    · simp only [hneg, not_false_eq_true, true_and, false_and, if_false]
      split_ifs <;> simp only <;> omega
  · rw [if_neg hd] at hU
    rw [hI (C * 2 - 1) (some .ErrRange) hU (by simp)]
    unfold nearestInRange
    by_cases hneg : c = '-'
    · simp only [hneg, not_true_eq_false, false_and, if_false, true_and, if_true]
      split_ifs <;> simp only <;> omega
    · simp only [hneg, not_false_eq_true, true_and, false_and, if_false]
      split_ifs <;> simp only <;> omega

theorem ParseInt_decimal (s : Str) (v : Int) (hv : decimalInteger s = some v) (b : Nat)
    (hb1 : 1 ≤ (if b = 0 then IntSize else b)) (hb2 : (if b = 0 then IntSize else b) ≤ 64) :
    (ParseInt s b).1 =
      nearestInRange (-((2 ^ ((if b = 0 then IntSize else b) - 1) : Nat) : Int))
        (((2 ^ ((if b = 0 then IntSize else b) - 1) : Nat) : Int) - 1) v := by
  cases s with
  | nil => simp [decimalInteger] at hv
  | cons c t =>
    simp only [decimalInteger] at hv
    by_cases hm : c = '-'
    · subst hm
      by_cases hd : isDecimal t = true
      · simp only [if_true, hd, Option.some.injEq] at hv
        have h := ParseInt_digits_core '-' t t b hd (by simp) hb1 hb2
        rw [h, ← hv]
        simp
      · simp [hd] at hv
    · by_cases hp : c = '+'
      · subst hp
        by_cases hd : isDecimal t = true
        · simp only [hm, if_false, if_true, hd, Option.some.injEq] at hv
          have h := ParseInt_digits_core '+' t t b hd (by simp) hb1 hb2
          rw [h, ← hv]
          simp
        · simp [hd] at hv
      · by_cases hd : isDecimal (c :: t) = true
        · simp only [hm, hp, if_false, if_true, hd, Option.some.injEq] at hv
          have h := ParseInt_digits_core c t (c :: t) b hd (by simp [hm, hp]) hb1 hb2
          rw [h, ← hv]
          simp [hm]
        · simp [hm, hp, hd] at hv

theorem ParseUint_decimalInteger (s : Str) (v : Int) (hv : decimalInteger s = some v)
    (hplus : s.head? ≠ some '+') (b : Nat) (hb : (if b = 0 then IntSize else b) ≤ 64) :
    (ParseUint s b).1 =
      (nearestInRange 0 ((2 ^ (if b = 0 then IntSize else b) - 1 : Nat) : Int) v).toNat := by
  cases s with
  | nil => simp [decimalInteger] at hv
  | cons c t =>
    simp only [decimalInteger] at hv
    by_cases hm : c = '-'
    · subst hm
      by_cases hd : isDecimal t = true
      · simp only [if_true, hd, Option.some.injEq] at hv
        rw [ParseUint_signed '-' t b (Or.inr rfl), ← hv]
        unfold nearestInRange
        split_ifs <;> simp only [] <;> omega
      · simp [hd] at hv
    · have hp : c ≠ '+' := by
        intro h
        exact hplus (by simp [h])
      by_cases hd : isDecimal (c :: t) = true
      · simp only [hm, hp, if_false, if_true, hd, Option.some.injEq] at hv
        rw [ParseUint_digits (c :: t) hd b hb, ← hv]
        unfold nearestInRange
        split_ifs <;> simp only [] <;> omega
      · simp [hm, hp, hd] at hv

/-- C22, as the code has it: for a variable of any integer kind and a decimal integer text (digits
after an optional sign; a `+` sign excepted when the kind is unsigned), `setField` stores the value
of the range of that kind nearest to the number written: the number itself inside the range, the
bound it passed outside, never a wrapped-around value. -/
theorem setField_saturates (e : Elem) (lo hi v : Int) (s : Str)
    (hr : intRange e = some (lo, hi)) (hv : decimalInteger s = some v)
    (hplus : unsignedKind e = true → s.head? ≠ some '+') :
    setField e s = withInt e (nearestInRange lo hi v) := by
  cases e with
  | Int x =>
    simp only [intRange, Option.some.injEq, Prod.mk.injEq] at hr
    obtain ⟨rfl, rfl⟩ := hr
    have h := ParseInt_decimal s v hv 0 (by decide) (by decide)
    simp only [setField, withInt, h]
    norm_num [IntSize]
  | Int8 x =>
    simp only [intRange, Option.some.injEq, Prod.mk.injEq] at hr
    obtain ⟨rfl, rfl⟩ := hr
    have h := ParseInt_decimal s v hv 8 (by decide) (by decide)
    simp only [setField, withInt, h]
    norm_num
  | Int16 x =>
    simp only [intRange, Option.some.injEq, Prod.mk.injEq] at hr
    obtain ⟨rfl, rfl⟩ := hr
    have h := ParseInt_decimal s v hv 16 (by decide) (by decide)
    simp only [setField, withInt, h]
    norm_num
  | Int32 x =>
    simp only [intRange, Option.some.injEq, Prod.mk.injEq] at hr
    obtain ⟨rfl, rfl⟩ := hr
    have h := ParseInt_decimal s v hv 32 (by decide) (by decide)
    simp only [setField, withInt, h]
    norm_num
  | Int64 x =>
    simp only [intRange, Option.some.injEq, Prod.mk.injEq] at hr
    obtain ⟨rfl, rfl⟩ := hr
    have h := ParseInt_decimal s v hv 64 (by decide) (by decide)
    simp only [setField, withInt, h]
    norm_num
  | Uint x =>
    simp only [intRange, Option.some.injEq, Prod.mk.injEq] at hr
    obtain ⟨rfl, rfl⟩ := hr
    have h := ParseUint_decimalInteger s v hv (hplus rfl) 0 (by decide)
    simp only [setField, withInt, h]
    norm_num [IntSize]
  | Uint8 x =>
    simp only [intRange, Option.some.injEq, Prod.mk.injEq] at hr
    obtain ⟨rfl, rfl⟩ := hr
    have h := ParseUint_decimalInteger s v hv (hplus rfl) 8 (by decide)
    simp only [setField, withInt, h]
    norm_num
  | Uint16 x =>
    simp only [intRange, Option.some.injEq, Prod.mk.injEq] at hr
    obtain ⟨rfl, rfl⟩ := hr
    have h := ParseUint_decimalInteger s v hv (hplus rfl) 16 (by decide)
    simp only [setField, withInt, h]
    norm_num
  | Uint32 x =>
    simp only [intRange, Option.some.injEq, Prod.mk.injEq] at hr
    obtain ⟨rfl, rfl⟩ := hr
    have h := ParseUint_decimalInteger s v hv (hplus rfl) 32 (by decide)
    simp only [setField, withInt, h]
    norm_num
  | Uint64 x =>
    simp only [intRange, Option.some.injEq, Prod.mk.injEq] at hr
    obtain ⟨rfl, rfl⟩ := hr
    have h := ParseUint_decimalInteger s v hv (hplus rfl) 64 (by decide)
    simp only [setField, withInt, h]
    norm_num
  | String x => simp [intRange] at hr
  | Bool x => simp [intRange] at hr
  | Float32 x => simp [intRange] at hr
  | Float64 x => simp [intRange] at hr
  | Other => simp [intRange] at hr

/-- C22, witness: the three texts of the claim, each out of the range of its variable. -/
theorem setField_saturates_witness :
    (intRange (.Uint8 0) = some (0, 255) ∧ decimalInteger "300".toList = some 300 ∧
        setField (.Uint8 0) "300".toList = .Uint8 255) ∧
      (intRange (.Uint16 0) = some (0, 65535) ∧ decimalInteger "70000".toList = some 70000 ∧
        setField (.Uint16 0) "70000".toList = .Uint16 65535) ∧
      (intRange (.Int8 0) = some (-128, 127) ∧ decimalInteger "-200".toList = some (-200) ∧
        setField (.Int8 0) "-200".toList = .Int8 (-128)) :=
  ⟨⟨rfl, by decide,
      setField_saturates (.Uint8 0) 0 255 300 "300".toList rfl (by decide) (by decide)⟩,
    ⟨rfl, by decide,
      setField_saturates (.Uint16 0) 0 65535 70000 "70000".toList rfl (by decide) (by decide)⟩,
    ⟨rfl, by decide,
      (setField_saturates (.Int8 0) (-128) 127 (-200) "-200".toList rfl (by decide)
        (by decide)).trans (by decide)⟩⟩

/-- C22, counterexample: the text `+300` is a decimal integer above the range of an 8-bit unsigned
variable, and `setField` stores 0, not the bound 255: `ParseUint` admits no sign. -/
theorem setField_plus_sign_unsigned :
    intRange (.Uint8 7) = some (0, 255) ∧ decimalInteger "+300".toList = some 300 ∧
      setField (.Uint8 7) "+300".toList = .Uint8 0 ∧
      setField (.Uint8 7) "+300".toList ≠ withInt (.Uint8 7) (nearestInRange 0 255 300) := by
  refine ⟨rfl, by decide, by decide, by decide⟩

/-! ### An empty separator in the override -/

theorem afterComma_append_comma (n : Str) (hn : ',' ∉ n) : afterComma (n ++ [',']) = [] := by
  unfold afterComma
  induction n with
  | nil => rfl
  | cons c t ih =>
    have hc : c ≠ ',' := fun h => hn (by simp [h])
    have ht : ',' ∉ t := fun h => hn (List.mem_cons_of_mem _ h)
    have hp : (c != ',') = true := by simpa using hc
    rw [List.cons_append, List.dropWhile_cons, if_pos hp]
    exact ih ht

theorem setSlice_empty_separator (zero : Elem) (slice : List Elem) (value : Str) :
    setSlice zero slice value [] = setSlice zero slice value ":".toList := rfl

/-- C23, as the code has it: for every kind, an override whose only comma is its last character
makes `convertName` return the empty separator, and `setSlice` given that separator splits the
value on ":" whatever the default of the kind: "a,b" is appended as one element, "a:b" as the two
elements "a" and "b". -/
theorem convertName_empty_separator (name : Str) (tag : Tag) (n pre : Str) (hn : ',' ∉ n) :
    (convertName U name tag (n ++ ",".toList) pre).2 = [] ∧
      (∀ (zero : Elem) (slice : List Elem) (value : Str),
        setSlice zero slice value (convertName U name tag (n ++ ",".toList) pre).2 =
          setSlice zero slice value ":".toList) ∧
      (∀ (zero : Elem) (slice : List Elem),
        setSlice zero slice "a,b".toList (convertName U name tag (n ++ ",".toList) pre).2 =
          slice ++ [setField zero "a,b".toList]) ∧
      (∀ (zero : Elem) (slice : List Elem),
        setSlice zero slice "a:b".toList (convertName U name tag (n ++ ",".toList) pre).2 =
          slice ++ [setField zero "a".toList, setField zero "b".toList]) := by
  have hsep : (convertName U name tag (n ++ ",".toList) pre).2 = [] := by
    have hmem : ',' ∈ n ++ ",".toList :=
      List.mem_append_right n (show ',' ∈ [','] from List.mem_singleton.mpr rfl)
    rw [convertName_snd, if_pos hmem]
    exact afterComma_append_comma n hn
  rw [hsep]
  refine ⟨rfl, fun zero slice value => rfl, fun zero slice => ?_, fun zero slice => ?_⟩
  · have h : Split "a,b".toList ":".toList = ["a,b".toList] := by decide
    unfold setSlice
    simp only [List.isEmpty_nil, if_true, h, List.foldl_cons, List.foldl_nil]
  · have h : Split "a:b".toList ":".toList = ["a".toList, "b".toList] := by decide
    unfold setSlice
    simp only [List.isEmpty_nil, if_true, h, List.foldl_cons, List.foldl_nil, List.append_assoc,
      List.singleton_append]

/-- C23, witness: the override "name," of a slice of strings under the kind `flag`, whose default
separator is ",". -/
theorem convertName_empty_separator_witness :
    ',' ∉ "name".toList ∧
      (convertName sampleCase "Slice".toList .flag "name,".toList []).2 = [] ∧
      setSlice (.String []) [] "a,b".toList
          (convertName sampleCase "Slice".toList .flag "name,".toList []).2 =
        [.String "a,b".toList] ∧
      setSlice (.String []) [] "a:b".toList
          (convertName sampleCase "Slice".toList .flag "name,".toList []).2 =
        [.String "a".toList, .String "b".toList] :=
  ⟨by decide,
    (convertName_empty_separator "Slice".toList .flag "name".toList [] (by decide)).1,
    (convertName_empty_separator "Slice".toList .flag "name".toList [] (by decide)).2.2.1
      (.String []) [],
    (convertName_empty_separator "Slice".toList .flag "name".toList [] (by decide)).2.2.2
      (.String []) []⟩

/-- C23, counterexample: the override "a,b," ends in a comma with nothing after it, and the
separator `convertName` returns is "b,", what follows the first comma: the value "a:b" is then
appended whole, and "xb,y" as the two elements "x" and "y". -/
theorem convertName_second_comma_separator :
    (convertName sampleCase "Slice".toList .flag "a,b,".toList []).2 = "b,".toList ∧
      (convertName sampleCase "Slice".toList .flag "a,b,".toList []).2 ≠ [] ∧
      setSlice (.String []) [] "a:b".toList
          (convertName sampleCase "Slice".toList .flag "a,b,".toList []).2 =
        [.String "a:b".toList] ∧
      setSlice (.String []) [] "xb,y".toList
          (convertName sampleCase "Slice".toList .flag "a,b,".toList []).2 =
        [.String "x".toList, .String "y".toList] := by
  refine ⟨by decide, by decide, by decide, by decide⟩

end Easyconfig
